import Mathlib

/-!
# TTM execbuf utilities: reservation of a validation list

A shallow embedding of `sys/external/bsd/drm2/dist/drm/ttm/ttm_execbuf_util.c`.

The C functions act on a caller-owned list of `ttm_validate_buffer` entries and,
through primitives that live outside this file, on buffer objects, the LRU list,
the reservation locks, two spinlocks and a `ww_acquire_ctx` ticket.  The entries
are a `List ttm_validate_buffer`; everything the primitives touch is the `World`;
what the primitives answer is read from the `Env`.  Every call of a primitive is
appended to `World.trace`, in program order.
-/

namespace TTM

/-- Calls of primitives that `ttm_execbuf_util.c` makes, in the order they are made. -/
inductive Event where
  | ww_acquire_init
  | ww_acquire_done
  | ww_acquire_fini
  | spin_lock_lru
  | spin_unlock_lru
  | spin_lock_fence
  | spin_unlock_fence
  | bo_reserve (bo : Nat) (no_wait : Bool) (ret : Int)
  | lock_slow (bo : Nat) (ret : Int)
  | cpu_writers (bo : Nat) (v : Int)
  | bo_unreserve (bo : Nat)
  | add_to_lru (bo : Nat)
  | del_from_lru (bo : Nat) (put_count : Nat)
  | list_ref_sub (bo : Nat) (count : Nat)
  | sync_obj_ref (tok : Option Nat)
  | sync_obj_unref (tok : Nat)
  deriving DecidableEq, Repr

/-- What the file takes from outside: the errno constants it names, the driver's
token operations, and the answers of the primitives whose result the code
branches on or stores.  The `k`-th call of a primitive gets the `k`-th answer,
so an `Env` fixes one sequence of results for each primitive.
`cpu_writers` is read as the signed `int` that `atomic_read` returns. -/
structure Env where
  EDEADLK : Int
  EINTR : Int
  EBUSY : Int
  ERESTARTSYS : Int
  bo_reserve : Nat → Int
  lock_slow : Nat → Int
  cpu_writers : Nat → Int
  del_from_lru : Nat → Nat
  sync_obj_ref : Option Nat → Option Nat
  sync_obj_unref : Nat → Option Nat

/-- Fields of `struct ttm_validate_buffer`; `bo` is the identity of the buffer
object the entry names, `none` is the NULL pointer. -/
structure ttm_validate_buffer where
  bo : Nat
  reserved : Bool
  removed : Bool
  put_count : Nat
  old_sync_obj : Option Nat
  deriving DecidableEq, Repr

/-- State outside the validation list: which reservation locks the batch holds,
the LRU list, every buffer object's `sync_obj`, how many answers of each
primitive have been consumed, and the calls made so far. -/
structure World where
  held : Nat → Bool
  lru : List Nat
  sync_obj : Nat → Option Nat
  n_reserve : Nat
  n_slow : Nat
  n_cpu : Nat
  n_del : Nat
  trace : List Event

/-- Record one call. -/
def World.emit (w : World) (ev : Event) : World :=
  { w with trace := w.trace ++ [ev] }

/-- Modelled from the spec: `__ttm_bo_reserve` (try_reserve), defined in ttm_bo.c.
It answers the next result of the sequence; the lock is taken exactly when the
answer is 0. -/
def __ttm_bo_reserve (env : Env) (bo : Nat) (no_wait : Bool) (w : World) : Int × World :=
  let ret := env.bo_reserve w.n_reserve
  (ret, { w with
    held := fun b => if b = bo ∧ ret = 0 then true else w.held b
    n_reserve := w.n_reserve + 1
    trace := w.trace ++ [Event.bo_reserve bo no_wait ret] })

/-- Modelled from the spec: `ww_mutex_lock_slow_interruptible` (slow_reserve).
It answers the next result of the sequence; the lock is taken exactly when the
answer is 0. -/
def ww_mutex_lock_slow_interruptible (env : Env) (bo : Nat) (w : World) : Int × World :=
  let ret := env.lock_slow w.n_slow
  (ret, { w with
    held := fun b => if b = bo ∧ ret = 0 then true else w.held b
    n_slow := w.n_slow + 1
    trace := w.trace ++ [Event.lock_slow bo ret] })

/-- Modelled from the spec: `__ttm_bo_unreserve` (unreserve) releases the lock. -/
def __ttm_bo_unreserve (bo : Nat) (w : World) : World :=
  { w with
    held := fun b => if b = bo then false else w.held b
    trace := w.trace ++ [Event.bo_unreserve bo] }

/-- Modelled from the spec: `ttm_bo_add_to_lru` (add) links the object at the head. -/
def ttm_bo_add_to_lru (bo : Nat) (w : World) : World :=
  { w with lru := bo :: w.lru, trace := w.trace ++ [Event.add_to_lru bo] }

/-- Modelled from the spec: `ttm_bo_del_from_lru` (remove) unlinks the object and
answers the number of references the caller owes, which may be zero. -/
def ttm_bo_del_from_lru (env : Env) (bo : Nat) (w : World) : Nat × World :=
  let n := env.del_from_lru w.n_del
  (n, { w with
    lru := w.lru.filter (fun b => b ≠ bo)
    n_del := w.n_del + 1
    trace := w.trace ++ [Event.del_from_lru bo n] })

/-- The read `atomic_read(&bo->cpu_writers)`. -/
def atomic_read_cpu_writers (env : Env) (bo : Nat) (w : World) : Int × World :=
  let v := env.cpu_writers w.n_cpu
  (v, { w with n_cpu := w.n_cpu + 1, trace := w.trace ++ [Event.cpu_writers bo v] })

/-- `ttm_eu_backoff_reservation_locked`. -/
def ttm_eu_backoff_reservation_locked :
    List ttm_validate_buffer → World → List ttm_validate_buffer × World
  | [], w => ([], w)
  | entry :: rest, w =>
    if entry.reserved = false then
      let r := ttm_eu_backoff_reservation_locked rest w
      (entry :: r.1, r.2)
    else
      let e1 := { entry with reserved := false }
      let (e2, w2) :=
        if e1.removed = true then
          ({ e1 with removed := false }, ttm_bo_add_to_lru e1.bo w)
        else (e1, w)
      let w3 := __ttm_bo_unreserve e2.bo w2
      let r := ttm_eu_backoff_reservation_locked rest w3
      (e2 :: r.1, r.2)

/-- `ttm_eu_del_from_lru_locked`. -/
def ttm_eu_del_from_lru_locked (env : Env) :
    List ttm_validate_buffer → World → List ttm_validate_buffer × World
  | [], w => ([], w)
  | entry :: rest, w =>
    if entry.reserved = false then
      let r := ttm_eu_del_from_lru_locked env rest w
      (entry :: r.1, r.2)
    else if entry.removed = false then
      let (n, w1) := ttm_bo_del_from_lru env entry.bo w
      let r := ttm_eu_del_from_lru_locked env rest w1
      ({ entry with put_count := n, removed := true } :: r.1, r.2)
    else
      let r := ttm_eu_del_from_lru_locked env rest w
      (entry :: r.1, r.2)

/-- `ttm_eu_list_ref_sub`; `ttm_bo_list_ref_sub` only drops references, which the
world does not hold, so the call is recorded and nothing else changes. -/
def ttm_eu_list_ref_sub :
    List ttm_validate_buffer → World → List ttm_validate_buffer × World
  | [], w => ([], w)
  | entry :: rest, w =>
    if entry.put_count ≠ 0 then
      let w1 := w.emit (Event.list_ref_sub entry.bo entry.put_count)
      let r := ttm_eu_list_ref_sub rest w1
      ({ entry with put_count := 0 } :: r.1, r.2)
    else
      let r := ttm_eu_list_ref_sub rest w
      (entry :: r.1, r.2)

/-- `ttm_eu_backoff_reservation`; `ticket` says whether the ticket pointer is
non-NULL. -/
def ttm_eu_backoff_reservation (ticket : Bool) (list : List ttm_validate_buffer)
    (w : World) : List ttm_validate_buffer × World :=
  match list with
  | [] => ([], w)
  | _ :: _ =>
    let w1 := w.emit Event.spin_lock_lru
    let (l2, w2) := ttm_eu_backoff_reservation_locked list w1
    let w3 := if ticket = true then w2.emit Event.ww_acquire_fini else w2
    (l2, w3.emit Event.spin_unlock_lru)

/-- Where one walk over the list (the body of the `retry:` loop of
`ttm_eu_reserve_buffers`) leaves: the loop ran to its end, or one of the three
`goto`s was taken, or `BUG_ON(ticket == NULL)` fired. -/
inductive Walk where
  | done (list : List ttm_validate_buffer) (w : World)
  | retry (list : List ttm_validate_buffer) (w : World)
  | err (ret : Int) (list : List ttm_validate_buffer) (w : World)
  | err_fini (ret : Int) (list : List ttm_validate_buffer) (w : World)
  | bug (list : List ttm_validate_buffer) (w : World)

/-- The store `entry->reserved = true` on the entry at position `i`. -/
def set_reserved : Nat → List ttm_validate_buffer → List ttm_validate_buffer
  | _, [] => []
  | 0, e :: rest => { e with reserved := true } :: rest
  | i + 1, e :: rest => e :: set_reserved i rest

/-- The block of `ttm_eu_reserve_buffers` that runs when `__ttm_bo_reserve`
answered `-EDEADLK` and the ticket is there, from the `spin_lock` after the
`BUG_ON` to `goto retry`; `pos` and `bo` are the position and the object of the
entry the walk stands at, `w1` the world after `__ttm_bo_reserve`. -/
def reserve_wound (env : Env) (pos : Nat) (bo : Nat) (list : List ttm_validate_buffer)
    (w1 : World) : Walk :=
  let w2 := w1.emit Event.spin_lock_lru
  let (l3, w3) := ttm_eu_backoff_reservation_locked list w2
  let w4 := w3.emit Event.spin_unlock_lru
  let (l5, w5) := ttm_eu_list_ref_sub l3 w4
  let (ret6, w6) := ww_mutex_lock_slow_interruptible env bo w5
  if ret6 ≠ 0 then
    Walk.err_fini (if ret6 = -env.EINTR then -env.ERESTARTSYS else ret6) l5 w6
  else
    let l7 := set_reserved pos l5
    let (v, w8) := atomic_read_cpu_writers env bo w6
    if 0 < v then Walk.err (-env.EBUSY) l7 w8
    else Walk.retry l7 w8

/-- The `list_for_each_entry` loop under `retry:`; `pre` are the entries already
walked, the second list the entries still to walk. -/
def reserve_walk (env : Env) (ticket : Bool) :
    List ttm_validate_buffer → List ttm_validate_buffer → World → Walk
  | pre, [], w => Walk.done pre w
  | pre, entry :: rest, w =>
    if entry.reserved = true then
      reserve_walk env ticket (pre ++ [entry]) rest w
    else
      let (ret, w1) := __ttm_bo_reserve env entry.bo (!ticket) w
      if ret = -env.EDEADLK then
        if ticket = false then Walk.bug (pre ++ entry :: rest) w1
        else reserve_wound env pre.length entry.bo (pre ++ entry :: rest) w1
      else if ret ≠ 0 then Walk.err ret (pre ++ entry :: rest) w1
      else
        let e1 := { entry with reserved := true }
        let (v, w2) := atomic_read_cpu_writers env entry.bo w1
        if 0 < v then Walk.err (-env.EBUSY) (pre ++ e1 :: rest) w2
        else reserve_walk env ticket (pre ++ [e1]) rest w2

/-- How a call of `ttm_eu_reserve_buffers` ends: it returns `ret`, or the kernel
stops at `BUG_ON`. -/
inductive Exit where
  | ret (ret : Int) (list : List ttm_validate_buffer) (w : World)
  | bug (list : List ttm_validate_buffer) (w : World)

/-- The return value, when the call returned. -/
def Exit.code : Exit → Option Int
  | Exit.ret r _ _ => some r
  | Exit.bug _ _ => none

/-- The validation list when the call ended. -/
def Exit.list : Exit → List ttm_validate_buffer
  | Exit.ret _ l _ => l
  | Exit.bug l _ => l

/-- The world when the call ended. -/
def Exit.world : Exit → World
  | Exit.ret _ _ w => w
  | Exit.bug _ w => w

/-- The labels `err:` and `err_fini:` of `ttm_eu_reserve_buffers`. -/
def reserve_err_fini (ticket : Bool) (ret : Int) (list : List ttm_validate_buffer)
    (w : World) : Exit :=
  let w1 := if ticket = true then
      (w.emit Event.ww_acquire_done).emit Event.ww_acquire_fini else w
  Exit.ret ret list w1

/-- The label `err:` of `ttm_eu_reserve_buffers`, which falls through to `err_fini:`. -/
def reserve_err (ticket : Bool) (ret : Int) (list : List ttm_validate_buffer)
    (w : World) : Exit :=
  let w1 := w.emit Event.spin_lock_lru
  let (l2, w2) := ttm_eu_backoff_reservation_locked list w1
  let w3 := w2.emit Event.spin_unlock_lru
  let (l4, w4) := ttm_eu_list_ref_sub l2 w3
  reserve_err_fini ticket ret l4 w4

/-- `ttm_eu_reserve_buffers` from the label `retry:` on; `fuel` bounds the number
of times the walk is started, `none` means the bound was reached. -/
def reserve_retry (env : Env) (ticket : Bool) :
    Nat → List ttm_validate_buffer → World → Option Exit
  | 0, _, _ => none
  | fuel + 1, list, w =>
    match reserve_walk env ticket [] list w with
    | Walk.done l1 w1 =>
      let w2 := if ticket = true then w1.emit Event.ww_acquire_done else w1
      let w3 := w2.emit Event.spin_lock_lru
      let (l4, w4) := ttm_eu_del_from_lru_locked env l1 w3
      let w5 := w4.emit Event.spin_unlock_lru
      let (l6, w6) := ttm_eu_list_ref_sub l4 w5
      some (Exit.ret 0 l6 w6)
    | Walk.retry l1 w1 => reserve_retry env ticket fuel l1 w1
    | Walk.err ret l1 w1 => some (reserve_err ticket ret l1 w1)
    | Walk.err_fini ret l1 w1 => some (reserve_err_fini ticket ret l1 w1)
    | Walk.bug l1 w1 => some (Exit.bug l1 w1)

/-- `ttm_eu_reserve_buffers`. -/
def ttm_eu_reserve_buffers (env : Env) (fuel : Nat) (ticket : Bool)
    (list : List ttm_validate_buffer) (w : World) : Option Exit :=
  match list with
  | [] => some (Exit.ret 0 [] w)
  | _ :: _ =>
    let l1 := list.map (fun entry =>
      { entry with reserved := false, put_count := 0, removed := false })
    let w1 := if ticket = true then w.emit Event.ww_acquire_init else w
    reserve_retry env ticket fuel l1 w1

/-- The first loop of `ttm_eu_fence_buffer_objects`, run with both spinlocks held. -/
def fence_loop (env : Env) (sync_obj : Option Nat) :
    List ttm_validate_buffer → World → List ttm_validate_buffer × World
  | [], w => ([], w)
  | entry :: rest, w =>
    let e1 := { entry with old_sync_obj := w.sync_obj entry.bo }
    let tok := env.sync_obj_ref sync_obj
    let w1 := { w.emit (Event.sync_obj_ref sync_obj) with
      sync_obj := fun b => if b = entry.bo then tok else w.sync_obj b }
    let w2 := ttm_bo_add_to_lru entry.bo w1
    let w3 := __ttm_bo_unreserve entry.bo w2
    let r := fence_loop env sync_obj rest w3
    ({ e1 with reserved := false } :: r.1, r.2)

/-- The second loop of `ttm_eu_fence_buffer_objects`; the driver is handed the
address of `old_sync_obj` and may store to it. -/
def fence_unref_loop (env : Env) :
    List ttm_validate_buffer → World → List ttm_validate_buffer × World
  | [], w => ([], w)
  | entry :: rest, w =>
    match entry.old_sync_obj with
    | some tok =>
      let w1 := w.emit (Event.sync_obj_unref tok)
      let r := fence_unref_loop env rest w1
      ({ entry with old_sync_obj := env.sync_obj_unref tok } :: r.1, r.2)
    | none =>
      let r := fence_unref_loop env rest w
      (entry :: r.1, r.2)

/-- `ttm_eu_fence_buffer_objects`. -/
def ttm_eu_fence_buffer_objects (env : Env) (ticket : Bool)
    (list : List ttm_validate_buffer) (sync_obj : Option Nat) (w : World) :
    List ttm_validate_buffer × World :=
  match list with
  | [] => ([], w)
  | _ :: _ =>
    let w1 := (w.emit Event.spin_lock_lru).emit Event.spin_lock_fence
    let (l2, w2) := fence_loop env sync_obj list w1
    let w3 := (w2.emit Event.spin_unlock_fence).emit Event.spin_unlock_lru
    let w4 := if ticket = true then w3.emit Event.ww_acquire_fini else w3
    fence_unref_loop env l2 w4

/-! ## Auxiliary definitions: what the loops compute, invariants, trace predicates -/

/-- What `ttm_eu_backoff_reservation_locked` does to one entry. -/
def unres (e : ttm_validate_buffer) : ttm_validate_buffer :=
  if e.reserved = true then { e with reserved := false, removed := false } else e

/-- The calls `ttm_eu_backoff_reservation_locked` makes. -/
def backoff_events : List ttm_validate_buffer → List Event
  | [] => []
  | e :: rest =>
    (if e.reserved = true then
      (if e.removed = true then [Event.add_to_lru e.bo] else []) ++ [Event.bo_unreserve e.bo]
     else []) ++ backoff_events rest

/-- The objects `ttm_eu_backoff_reservation_locked` links to the LRU, last one first. -/
def backoff_lru : List ttm_validate_buffer → List Nat → List Nat
  | [], lru => lru
  | e :: rest, lru =>
    backoff_lru rest (if e.reserved = true ∧ e.removed = true then e.bo :: lru else lru)

/-- The calls `ttm_eu_list_ref_sub` makes. -/
def ref_events : List ttm_validate_buffer → List Event
  | [] => []
  | e :: rest =>
    (if e.put_count ≠ 0 then [Event.list_ref_sub e.bo e.put_count] else []) ++ ref_events rest

/-- The errno constants the file names are nonzero, and `EDEADLK` differs from
the other three. -/
def Env.errno_ok (env : Env) : Prop :=
  env.EDEADLK ≠ 0 ∧ env.EBUSY ≠ 0 ∧ env.ERESTARTSYS ≠ 0 ∧
  env.EDEADLK ≠ env.EBUSY ∧ env.EDEADLK ≠ env.EINTR ∧ env.EDEADLK ≠ env.ERESTARTSYS

instance (env : Env) : Decidable env.errno_ok := by
  unfold Env.errno_ok; infer_instance

/-- What holds of the list and the world all through `ttm_eu_reserve_buffers`
until the loop has run to its end: no entry is off the LRU or owes references,
the flag `reserved` and the lock go together, and LRU and sync objects are as
in the world `w0` of the call. -/
structure SInv (w0 : World) (bos : List Nat) (l : List ttm_validate_buffer) (w : World) :
    Prop where
  fresh : ∀ e ∈ l, e.removed = false ∧ e.put_count = 0
  locked : ∀ e ∈ l, e.reserved = true → w.held e.bo = true
  owned : ∀ b, w.held b = true → w0.held b = true ∨ ∃ e ∈ l, e.reserved = true ∧ e.bo = b
  lru_eq : w.lru = w0.lru
  sync_eq : w.sync_obj = w0.sync_obj
  bos_eq : l.map (fun e => e.bo) = bos

/-- What the state invariant gives at each way out of the walk. -/
def Walk.sinv (P : List ttm_validate_buffer → World → Prop) : Walk → Prop
  | Walk.done l w => P l w ∧ ∀ e ∈ l, e.reserved = true
  | Walk.retry l w => P l w
  | Walk.err r l w => P l w ∧ r ≠ 0
  | Walk.err_fini r l w => P l w ∧ r ≠ 0 ∧ ∀ e ∈ l, e.reserved = false
  | Walk.bug _ _ => True

/-- The world in which `reserve_wound` calls the slow lock. -/
def wound_world (l : List ttm_validate_buffer) (w1 : World) : World :=
  (ttm_eu_list_ref_sub (ttm_eu_backoff_reservation_locked l (w1.emit Event.spin_lock_lru)).1
    ((ttm_eu_backoff_reservation_locked l (w1.emit Event.spin_lock_lru)).2.emit
      Event.spin_unlock_lru)).2

/-- The list with which `reserve_wound` calls the slow lock. -/
def wound_list (l : List ttm_validate_buffer) (w1 : World) : List ttm_validate_buffer :=
  (ttm_eu_list_ref_sub (ttm_eu_backoff_reservation_locked l (w1.emit Event.spin_lock_lru)).1
    ((ttm_eu_backoff_reservation_locked l (w1.emit Event.spin_lock_lru)).2.emit
      Event.spin_unlock_lru)).1

/-- The list `ttm_eu_del_from_lru_locked` leaves, `n` answers of
`ttm_bo_del_from_lru` being consumed before. -/
def del_list (env : Env) : Nat → List ttm_validate_buffer → List ttm_validate_buffer
  | _, [] => []
  | n, e :: rest =>
    if e.reserved = true ∧ e.removed = false then
      { e with put_count := env.del_from_lru n, removed := true } :: del_list env (n + 1) rest
    else e :: del_list env n rest

/-- The calls `ttm_eu_del_from_lru_locked` makes. -/
def del_events (env : Env) : Nat → List ttm_validate_buffer → List Event
  | _, [] => []
  | n, e :: rest =>
    if e.reserved = true ∧ e.removed = false then
      Event.del_from_lru e.bo (env.del_from_lru n) :: del_events env (n + 1) rest
    else del_events env n rest

/-- The entries `ttm_eu_del_from_lru_locked` takes off the LRU. -/
def del_targets (l : List ttm_validate_buffer) : List ttm_validate_buffer :=
  l.filter (fun e => e.reserved && !e.removed)

/-- What a call of `ttm_eu_reserve_buffers` that returned leaves, `w0` being the
world and `bos` the objects of the list at the call. -/
def Exit.spec (w0 : World) (bos : List Nat) : Exit → Prop
  | Exit.ret r l w =>
    l.map (fun e => e.bo) = bos ∧ w.sync_obj = w0.sync_obj ∧ (∀ e ∈ l, e.put_count = 0) ∧
    (r = 0 →
      (∀ e ∈ l, e.reserved = true ∧ e.removed = true ∧ w.held e.bo = true) ∧
      (∀ b, w.held b = true → w0.held b = true ∨ b ∈ bos) ∧
      w.lru = w0.lru.filter (fun b => decide (b ∉ bos))) ∧
    (r ≠ 0 →
      (∀ e ∈ l, e.reserved = false ∧ e.removed = false) ∧
      (∀ b, w.held b = true → w0.held b = true) ∧
      w.lru = w0.lru)
  | Exit.bug _ _ => True

/-- The world a walk leaves. -/
def Walk.world : Walk → World
  | Walk.done _ w => w
  | Walk.retry _ w => w
  | Walk.err _ _ w => w
  | Walk.err_fini _ _ w => w
  | Walk.bug _ w => w

/-- One call seen by the spinlock discipline; the state says whether `lru_lock`
and `fence_lock` are held.  `lru_lock` is taken only when no spinlock is held,
`fence_lock` only when `lru_lock` alone is held, `lru_lock` is released only
after `fence_lock`; a reservation lock is acquired, references are dropped and
old sync objects are released only when no spinlock is held.  `none` is a breach. -/
def spin_step (s : Bool × Bool) : Event → Option (Bool × Bool)
  | Event.spin_lock_lru => if s = (false, false) then some (true, false) else none
  | Event.spin_unlock_lru => if s = (true, false) then some (false, false) else none
  | Event.spin_lock_fence => if s = (true, false) then some (true, true) else none
  | Event.spin_unlock_fence => if s = (true, true) then some (true, false) else none
  | Event.bo_reserve _ _ _ => if s = (false, false) then some s else none
  | Event.lock_slow _ _ => if s = (false, false) then some s else none
  | Event.list_ref_sub _ _ => if s = (false, false) then some s else none
  | Event.sync_obj_unref _ => if s = (false, false) then some s else none
  | _ => some s

/-- The spinlock discipline run over a sequence of calls. -/
def spin_run : Bool × Bool → List Event → Option (Bool × Bool)
  | s, [] => some s
  | s, ev :: rest =>
    match spin_step s ev with
    | some s1 => spin_run s1 rest
    | none => none

/-- Calls on which the spinlock discipline puts no condition. -/
def spin_free : Event → Bool
  | Event.spin_lock_lru => false
  | Event.spin_unlock_lru => false
  | Event.spin_lock_fence => false
  | Event.spin_unlock_fence => false
  | Event.bo_reserve _ _ _ => false
  | Event.lock_slow _ _ => false
  | Event.list_ref_sub _ _ => false
  | Event.sync_obj_unref _ => false
  | _ => true

/-- Calls that the walk of `ttm_eu_reserve_buffers` and its back-off can make. -/
def walk_event : Event → Bool
  | Event.spin_lock_lru => true
  | Event.spin_unlock_lru => true
  | Event.bo_reserve _ _ _ => true
  | Event.lock_slow _ _ => true
  | Event.cpu_writers _ _ => true
  | Event.bo_unreserve _ => true
  | Event.add_to_lru _ => true
  | Event.list_ref_sub _ _ => true
  | _ => false

/-- Is the call a slow lock? -/
def is_slow : Event → Bool
  | Event.lock_slow _ _ => true
  | _ => false

/-- Is the call a `__ttm_bo_reserve` that answered `-EDEADLK`? -/
def is_deadlk (env : Env) : Event → Bool
  | Event.bo_reserve _ _ r => decide (r = -env.EDEADLK)
  | _ => false

/-- What holds of the calls made by the walk of `ttm_eu_reserve_buffers`. -/
structure WalkTrace (env : Env) (ticket : Bool) (evs : List Event) : Prop where
  spin : spin_run (false, false) evs = some (false, false)
  kind : ∀ ev ∈ evs, walk_event ev = true
  paired : ticket = true → evs.countP is_slow = evs.countP (is_deadlk env)

/-- The calls made between a `__ttm_bo_reserve` that answered `-EDEADLK` and the
slow lock, and at the label `err:`. -/
def unwind_events (l : List ttm_validate_buffer) : List Event :=
  [Event.spin_lock_lru] ++ backoff_events l ++ [Event.spin_unlock_lru] ++
    ref_events (l.map unres)

/-- The calls `ttm_eu_reserve_buffers` makes after the walk that ended the loop,
by the way the call ends: at `BUG_ON` none; on success `ww_acquire_done` (with
a ticket), then the LRU removals under `lru_lock`, then the reference drops; on
failure `ww_acquire_done` and `ww_acquire_fini` (with a ticket). -/
def TailTrace (ticket : Bool) (code : Option Int) (tail : List Event) : Prop :=
  match code with
  | none => ticket = false ∧ tail = []
  | some r =>
    (r = 0 ∧ ∃ dels refs,
      tail = (if ticket = true then [Event.ww_acquire_done] else []) ++
        [Event.spin_lock_lru] ++ dels ++ [Event.spin_unlock_lru] ++ refs ∧
      (∀ ev ∈ dels, ∃ b n, ev = Event.del_from_lru b n) ∧
      (∀ ev ∈ refs, ∃ b n, ev = Event.list_ref_sub b n)) ∨
    (r ≠ 0 ∧
      tail = if ticket = true then [Event.ww_acquire_done, Event.ww_acquire_fini] else [])

/-- The calls `ttm_eu_reserve_buffers` makes from the label `retry:` on. -/
def RetryTrace (env : Env) (ticket : Bool) (code : Option Int) (evs : List Event) : Prop :=
  ∃ body tail, evs = body ++ tail ∧ WalkTrace env ticket body ∧ TailTrace ticket code tail

/-- Errno values of the host kernel, for the examples. -/
def demo_env : Env where
  EDEADLK := 11
  EINTR := 4
  EBUSY := 16
  ERESTARTSYS := -3
  bo_reserve := fun k => if k = 1 then -11 else 0
  lock_slow := fun _ => 0
  cpu_writers := fun _ => 0
  del_from_lru := fun _ => 1
  sync_obj_ref := fun t => t
  sync_obj_unref := fun _ => none

/-- As `demo_env`, but the object locked by the slow path has a CPU writer. -/
def demo_env_busy : Env :=
  { demo_env with cpu_writers := fun k => if k = 1 then 1 else 0 }

/-- A world where the batch holds nothing, objects 1, 2, 3 are on the LRU and
object 2 carries the sync object 7. -/
def demo_world : World where
  held := fun _ => false
  lru := [1, 2, 3]
  sync_obj := fun b => if b = 2 then some 7 else none
  n_reserve := 0
  n_slow := 0
  n_cpu := 0
  n_del := 0
  trace := []

/-- A validation list naming objects 1, 2, 3, with stale flags. -/
def demo_list : List ttm_validate_buffer :=
  [⟨1, true, true, 5, none⟩, ⟨2, false, true, 0, some 9⟩, ⟨3, true, false, 2, none⟩]

/-- The exit of a call, for the examples. -/
def exit_of (env : Env) (fuel : Nat) (ticket : Bool) (l : List ttm_validate_buffer)
    (w : World) : Exit :=
  match ttm_eu_reserve_buffers env fuel ticket l w with
  | some x => x
  | none => Exit.bug l w

/-- The calls `ttm_eu_backoff_reservation` makes. -/
def backoff_call_events (ticket : Bool) (l : List ttm_validate_buffer) : List Event :=
  match l with
  | [] => []
  | _ :: _ =>
    [Event.spin_lock_lru] ++ backoff_events l ++
      (if ticket = true then [Event.ww_acquire_fini] else []) ++ [Event.spin_unlock_lru]

/-- The list the first loop of `ttm_eu_fence_buffer_objects` leaves, `s` being
the sync objects when the loop starts and `tok` the reference it stores. -/
def fence_list (tok : Option Nat) :
    (Nat → Option Nat) → List ttm_validate_buffer → List ttm_validate_buffer
  | _, [] => []
  | s, e :: rest =>
    { e with old_sync_obj := s e.bo, reserved := false } ::
      fence_list tok (fun b => if b = e.bo then tok else s b) rest

/-- The calls the first loop of `ttm_eu_fence_buffer_objects` makes. -/
def fence_events (sync_obj : Option Nat) : List ttm_validate_buffer → List Event
  | [] => []
  | e :: rest =>
    [Event.sync_obj_ref sync_obj, Event.add_to_lru e.bo, Event.bo_unreserve e.bo] ++
      fence_events sync_obj rest

/-- The calls the second loop of `ttm_eu_fence_buffer_objects` makes. -/
def unref_events : List ttm_validate_buffer → List Event
  | [] => []
  | e :: rest =>
    match e.old_sync_obj with
    | some tok => Event.sync_obj_unref tok :: unref_events rest
    | none => unref_events rest

/-- The calls `ttm_eu_fence_buffer_objects` makes on a list that is not empty,
`l2` being the list its first loop leaves. -/
def fence_call_events (ticket : Bool) (sync_obj : Option Nat)
    (l l2 : List ttm_validate_buffer) : List Event :=
  [Event.spin_lock_lru, Event.spin_lock_fence] ++ fence_events sync_obj l ++
    [Event.spin_unlock_fence, Event.spin_unlock_lru] ++
    (if ticket = true then [Event.ww_acquire_fini] else []) ++ unref_events l2

/-- The token a `sync_obj_unref` call is made on. -/
def unref_tok : Event → Option Nat
  | Event.sync_obj_unref tok => some tok
  | _ => none

/-- Is the call a `sync_obj_ref`? -/
def is_ref : Event → Bool
  | Event.sync_obj_ref _ => true
  | _ => false

/-- The list the second loop of `ttm_eu_fence_buffer_objects` leaves. -/
def unref_list (env : Env) : List ttm_validate_buffer → List ttm_validate_buffer
  | [] => []
  | e :: rest =>
    match e.old_sync_obj with
    | some tok => { e with old_sync_obj := env.sync_obj_unref tok } :: unref_list env rest
    | none => e :: unref_list env rest

/-- Among the calls `evs`, the lock of object `b` is acquired and the read of
`cpu_writers` that follows at once sees a value that is not positive. -/
def Observed (ticket : Bool) (b : Nat) (evs : List Event) : Prop :=
  ∃ pre post acq v, v ≤ 0 ∧ evs = pre ++ acq :: Event.cpu_writers b v :: post ∧
    (acq = Event.bo_reserve b (!ticket) 0 ∨ acq = Event.lock_slow b 0)

/-- Every read of `cpu_writers` among the calls saw a value that is not positive,
and the lock of every reserved entry was acquired with such a read right after. -/
def CInv (ticket : Bool) (l : List ttm_validate_buffer) (evs : List Event) : Prop :=
  (∀ b v, Event.cpu_writers b v ∈ evs → v ≤ 0) ∧
  ∀ e ∈ l, e.reserved = true → Observed ticket e.bo evs

/-- What `CInv` gives at each way out of the walk, `t0` being the calls made
before `ttm_eu_reserve_buffers` was called. -/
def Walk.cinv (ticket : Bool) (t0 : List Event) : Walk → Prop
  | Walk.done l w => ∃ evs, w.trace = t0 ++ evs ∧ CInv ticket l evs
  | Walk.retry l w => ∃ evs, w.trace = t0 ++ evs ∧ CInv ticket l evs
  | _ => True

/-- As `demo_env`, but every lock is free and every read of `cpu_writers` sees -1. -/
def demo_env_negative : Env :=
  { demo_env with bo_reserve := fun _ => 0, cpu_writers := fun _ => -1 }

/-- As `demo_env`, but every lock is free and every object has a CPU writer. -/
def demo_env_writer : Env :=
  { demo_env with bo_reserve := fun _ => 0, cpu_writers := fun _ => 1 }

/-- Where a returned value of `ttm_eu_reserve_buffers` comes from: it is 0, or
`-EBUSY`, or an answer of `__ttm_bo_reserve` other than 0 and `-EDEADLK`, or
`-ERESTARTSYS`, or an answer of the slow lock other than 0 and `-EINTR`. -/
def ret_origin (env : Env) (r : Int) : Prop :=
  r = 0 ∨ r = -env.EBUSY ∨
  (∃ k, r = env.bo_reserve k ∧ r ≠ -env.EDEADLK ∧ r ≠ 0) ∨
  r = -env.ERESTARTSYS ∨
  (∃ k, r = env.lock_slow k ∧ r ≠ -env.EINTR ∧ r ≠ 0)

/-- The value a walk leaves with at `err:` or `err_fini:` has an origin. -/
def Walk.origin (env : Env) : Walk → Prop
  | Walk.err r _ _ => ret_origin env r ∧ r ≠ 0
  | Walk.err_fini r _ _ => ret_origin env r
  | _ => True

/-- The world after the `__ttm_bo_reserve` of the walk on entry `e`. -/
def try_world (env : Env) (ticket : Bool) (e : ttm_validate_buffer) (w : World) : World :=
  (__ttm_bo_reserve env e.bo (!ticket) w).2

/-- The world after the read of `cpu_writers` that follows a `__ttm_bo_reserve`
of the walk on entry `e`. -/
def read_world (env : Env) (ticket : Bool) (e : ttm_validate_buffer) (w : World) : World :=
  (atomic_read_cpu_writers env e.bo (try_world env ticket e w)).2

/-- The world after the slow lock of `reserve_wound`. -/
def slow_world (env : Env) (bo : Nat) (l : List ttm_validate_buffer) (w1 : World) : World :=
  (ww_mutex_lock_slow_interruptible env bo (wound_world l w1)).2

/-- The world after the read of `cpu_writers` of `reserve_wound`. -/
def slow_read_world (env : Env) (bo : Nat) (l : List ttm_validate_buffer) (w1 : World) :
    World :=
  (atomic_read_cpu_writers env bo (slow_world env bo l w1)).2

/-- The `__ttm_bo_unreserve` calls of a back-off on a list with no entry off the LRU. -/
def unres_events : List ttm_validate_buffer → List Event
  | [] => []
  | e :: rest =>
    if e.reserved = true then Event.bo_unreserve e.bo :: unres_events rest
    else unres_events rest

/-- The list `reserve_wound` leaves when the slow lock succeeds. -/
def wound_marked (pre rest : List ttm_validate_buffer) (e : ttm_validate_buffer) :
    List ttm_validate_buffer :=
  pre.map unres ++ { unres e with reserved := true } :: rest.map unres

/-- Calls that the walk of `ttm_eu_reserve_buffers` and its back-off make when no
entry is off the LRU and no entry owes references. -/
def lock_event : Event → Bool
  | Event.spin_lock_lru => true
  | Event.spin_unlock_lru => true
  | Event.bo_reserve _ _ _ => true
  | Event.lock_slow _ _ => true
  | Event.cpu_writers _ _ => true
  | Event.bo_unreserve _ => true
  | _ => false

/-- The sum of the counts passed to `ttm_bo_list_ref_sub`. -/
def ref_total : List Event → Nat
  | [] => 0
  | Event.list_ref_sub _ n :: rest => n + ref_total rest
  | _ :: rest => ref_total rest

/-- The sum of the values `ttm_bo_del_from_lru` returned. -/
def del_total : List Event → Nat
  | [] => 0
  | Event.del_from_lru _ n :: rest => n + del_total rest
  | _ :: rest => del_total rest

/-- Is the call a `ttm_bo_del_from_lru`? -/
def is_del : Event → Bool
  | Event.del_from_lru _ _ => true
  | _ => false

/-- As `demo_env`, but every LRU removal answers that two references are owed. -/
def demo_env_two : Env :=
  { demo_env with del_from_lru := fun _ => 2 }

/-- How the value `r` that `ttm_eu_reserve_buffers` returns goes with the answers
of the primitives among its calls: an answer of `__ttm_bo_reserve` is 0 or
`-EDEADLK` or is `r` itself; an answer of the slow lock is 0, or is `-EINTR`
with `r` being `-ERESTARTSYS`, or is another value and `r` itself. -/
def FailMap (env : Env) (r : Int) (evs : List Event) : Prop :=
  (∀ b nw r1, Event.bo_reserve b nw r1 ∈ evs → r1 = 0 ∨ r1 = -env.EDEADLK ∨ r = r1) ∧
  (∀ b r1, Event.lock_slow b r1 ∈ evs →
    r1 = 0 ∨ (r1 = -env.EINTR ∧ r = -env.ERESTARTSYS) ∨ (r1 ≠ -env.EINTR ∧ r = r1))

/-- Among the calls every `__ttm_bo_reserve` answered 0 or `-EDEADLK` and every
slow lock answered 0. -/
def Clean (env : Env) (evs : List Event) : Prop :=
  (∀ b nw r1, Event.bo_reserve b nw r1 ∈ evs → r1 = 0 ∨ r1 = -env.EDEADLK) ∧
  (∀ b r1, Event.lock_slow b r1 ∈ evs → r1 = 0)

/-- What the answers seen so far are at each way out of the walk, `t0` being the
calls made before `ttm_eu_reserve_buffers` was called. -/
def Walk.failmap (env : Env) (t0 : List Event) : Walk → Prop
  | Walk.done _ w => ∃ evs, w.trace = t0 ++ evs ∧ Clean env evs
  | Walk.retry _ w => ∃ evs, w.trace = t0 ++ evs ∧ Clean env evs
  | Walk.err r _ w => ∃ evs, w.trace = t0 ++ evs ∧ FailMap env r evs
  | Walk.err_fini r _ w => ∃ evs, w.trace = t0 ++ evs ∧ FailMap env r evs
  | Walk.bug _ _ => True

/-- As `demo_env`, but every `__ttm_bo_reserve` is interrupted. -/
def demo_env_intr : Env :=
  { demo_env with bo_reserve := fun _ => -4 }

/-- Is the call a `__ttm_bo_reserve`? -/
def is_try : Event → Bool
  | Event.bo_reserve _ _ _ => true
  | _ => false

/-- Did the walk leave after an `-EDEADLK` of `__ttm_bo_reserve` by `goto retry`
or at `BUG_ON`? -/
def Walk.wounded : Walk → Bool
  | Walk.retry _ _ => true
  | Walk.bug _ _ => true
  | _ => false

/-- Between the worlds `w` and `w1` an answer `-EDEADLK` of `__ttm_bo_reserve` was
consumed. -/
def Consumed (env : Env) (w w1 : World) : Prop :=
  ∃ k, w.n_reserve ≤ k ∧ k < w1.n_reserve ∧ env.bo_reserve k = -env.EDEADLK

/-- How many of the answers `-EDEADLK`, all of which lie in `D`, are still to
come in the world `w`. -/
def wounds_left (D : Finset Nat) (w : World) : Nat :=
  (D.filter (fun k => w.n_reserve ≤ k)).card

/-- One call seen by the bookkeeping of reservation locks; the state is the list
of objects whose lock the batch holds and the object of an `-EDEADLK` answer
that waits for its slow lock.  `__ttm_bo_reserve` is called only on an object
whose lock the batch does not hold and with no slow lock pending; the slow lock
is called only on the object of the pending `-EDEADLK` and with no lock held;
`__ttm_bo_unreserve` is called only on an object whose lock the batch holds.
`none` is a breach. -/
def lock_step (env : Env) (s : List Nat × Option Nat) : Event → Option (List Nat × Option Nat)
  | Event.bo_reserve b _ r =>
    if b ∈ s.1 ∨ s.2.isSome = true then none
    else if r = 0 then some (b :: s.1, none)
    else if r = -env.EDEADLK then some (s.1, some b)
    else some (s.1, none)
  | Event.lock_slow b r =>
    if s.2 = some b ∧ s.1 = [] then some (if r = 0 then [b] else [], none) else none
  | Event.bo_unreserve b =>
    if b ∈ s.1 then some (s.1.filter (fun x => x ≠ b), s.2) else none
  | _ => some s

/-- The bookkeeping of reservation locks run over a sequence of calls. -/
def lock_run (env : Env) : List Nat × Option Nat → List Event → Option (List Nat × Option Nat)
  | s, [] => some s
  | s, ev :: rest =>
    match lock_step env s ev with
    | some s1 => lock_run env s1 rest
    | none => none

/-- Calls that the bookkeeping of reservation locks lets pass unchanged. -/
def lock_free : Event → Bool
  | Event.bo_reserve _ _ _ => false
  | Event.lock_slow _ _ => false
  | Event.bo_unreserve _ => false
  | _ => true

/-- The calls so far pass the bookkeeping of reservation locks, no slow lock is
pending, and the locks it counts as held are those the world has as held. -/
def LInv (env : Env) (evs : List Event) (w : World) : Prop :=
  ∃ H, lock_run env ([], none) evs = some (H, none) ∧ ∀ b, b ∈ H ↔ w.held b = true

/-- What the bookkeeping of reservation locks has at each way out of the walk,
`evs` being the calls made since `ttm_eu_reserve_buffers` was called. -/
def Walk.linv (env : Env) (evs : List Event) : Walk → Prop
  | Walk.done _ w => LInv env evs w
  | Walk.retry _ w => LInv env evs w
  | Walk.err _ _ w => LInv env evs w
  | Walk.err_fini _ _ w => LInv env evs w
  | Walk.bug _ _ => ∃ H b, lock_run env ([], none) evs = some (H, some b)

/-- What the bookkeeping of reservation locks has when `ttm_eu_reserve_buffers`
ends: at a return no slow lock is pending and the locks counted as held are
those the world has as held. -/
def Exit.linv (env : Env) (evs : List Event) : Exit → Prop
  | Exit.ret _ _ w => LInv env evs w
  | Exit.bug _ _ => ∃ H b, lock_run env ([], none) evs = some (H, some b)

/-- The statement of `ttm_execbuf_util.c` that was executed last. -/
inductive Pt where
  /-- The store `entry->reserved = false` of the first loop of `ttm_eu_reserve_buffers`. -/
  | init_reserved
  /-- The store `entry->put_count = 0` of the first loop of `ttm_eu_reserve_buffers`. -/
  | init_put_count
  /-- The store `entry->removed = false` of the first loop of `ttm_eu_reserve_buffers`. -/
  | init_removed
  /-- The call `ww_acquire_init(ticket, ...)`. -/
  | acquire_init
  /-- The call `ret = __ttm_bo_reserve(bo, true, (ticket == NULL), true, ticket)`. -/
  | try_reserve
  /-- The call `spin_lock(&glob->lru_lock)`. -/
  | lru_lock
  /-- The store `entry->reserved = false`. -/
  | clear_reserved
  /-- The call `ttm_bo_add_to_lru(bo)`. -/
  | add_to_lru
  /-- The store `entry->removed = false` of `ttm_eu_backoff_reservation_locked`. -/
  | clear_removed
  /-- The call `__ttm_bo_unreserve(bo)`. -/
  | unreserve
  /-- The call `spin_unlock(&glob->lru_lock)`. -/
  | lru_unlock
  /-- The call `ttm_bo_list_ref_sub(bo, entry->put_count, true)`. -/
  | list_ref_sub
  /-- The store `entry->put_count = 0` of `ttm_eu_list_ref_sub`. -/
  | clear_put_count
  /-- Control stands at the call of `ww_mutex_lock_slow_interruptible`, which has
  not been made yet. -/
  | call_slow
  /-- The call `ret = ww_mutex_lock_slow_interruptible(&bo->resv->lock, ticket)`. -/
  | slow_reserve
  /-- The store `entry->reserved = true`. -/
  | set_reserved
  /-- The read `atomic_read(&bo->cpu_writers)`. -/
  | cpu_writers
  /-- The jump `goto retry`. -/
  | goto_retry
  /-- The call `ww_acquire_done(ticket)`. -/
  | acquire_done
  /-- The call and store `entry->put_count = ttm_bo_del_from_lru(bo)`. -/
  | del_from_lru
  /-- The store `entry->removed = true`. -/
  | set_removed
  /-- The call `ww_acquire_fini(ticket)`. -/
  | acquire_fini
  /-- The call `spin_lock(&bdev->fence_lock)`. -/
  | fence_lock
  /-- The store `entry->old_sync_obj = bo->sync_obj`. -/
  | save_sync_obj
  /-- The call and store `bo->sync_obj = driver->sync_obj_ref(sync_obj)`. -/
  | sync_obj_ref
  /-- The call `spin_unlock(&bdev->fence_lock)`. -/
  | fence_unlock
  /-- The call `driver->sync_obj_unref(&entry->old_sync_obj)`. -/
  | sync_obj_unref
  deriving DecidableEq, Repr

/-- A state the program is in right after a statement: the statement, the
validation list and the world. -/
structure Step where
  pt : Pt
  list : List ttm_validate_buffer
  w : World

/-- The states `ttm_eu_backoff_reservation_locked` goes through, one after each
call or store; `pre` are the entries already walked. -/
def backoff_locked_steps :
    List ttm_validate_buffer → List ttm_validate_buffer → World → List Step
  | _, [], _ => []
  | pre, entry :: rest, w =>
    if entry.reserved = false then backoff_locked_steps (pre ++ [entry]) rest w
    else
      let e1 := { entry with reserved := false }
      let w2 := if e1.removed = true then ttm_bo_add_to_lru e1.bo w else w
      let e2 := if e1.removed = true then { e1 with removed := false } else e1
      let w3 := __ttm_bo_unreserve e2.bo w2
      [Step.mk Pt.clear_reserved (pre ++ e1 :: rest) w] ++
      (if e1.removed = true then
        [Step.mk Pt.add_to_lru (pre ++ e1 :: rest) w2,
         Step.mk Pt.clear_removed (pre ++ e2 :: rest) w2]
       else []) ++
      [Step.mk Pt.unreserve (pre ++ e2 :: rest) w3] ++
      backoff_locked_steps (pre ++ [e2]) rest w3

/-- The states `ttm_eu_del_from_lru_locked` goes through. -/
def del_steps (env : Env) :
    List ttm_validate_buffer → List ttm_validate_buffer → World → List Step
  | _, [], _ => []
  | pre, entry :: rest, w =>
    if entry.reserved = false then del_steps env (pre ++ [entry]) rest w
    else if entry.removed = false then
      let (n, w1) := ttm_bo_del_from_lru env entry.bo w
      let e1 := { entry with put_count := n }
      let e2 := { e1 with removed := true }
      Step.mk Pt.del_from_lru (pre ++ e1 :: rest) w1 ::
        Step.mk Pt.set_removed (pre ++ e2 :: rest) w1 ::
        del_steps env (pre ++ [e2]) rest w1
    else del_steps env (pre ++ [entry]) rest w

/-- The states `ttm_eu_list_ref_sub` goes through. -/
def ref_sub_steps :
    List ttm_validate_buffer → List ttm_validate_buffer → World → List Step
  | _, [], _ => []
  | pre, entry :: rest, w =>
    if entry.put_count ≠ 0 then
      let w1 := w.emit (Event.list_ref_sub entry.bo entry.put_count)
      let e1 := { entry with put_count := 0 }
      Step.mk Pt.list_ref_sub (pre ++ entry :: rest) w1 ::
        Step.mk Pt.clear_put_count (pre ++ e1 :: rest) w1 ::
        ref_sub_steps (pre ++ [e1]) rest w1
    else ref_sub_steps (pre ++ [entry]) rest w

/-- The states `ttm_eu_backoff_reservation` goes through. -/
def backoff_steps (ticket : Bool) (list : List ttm_validate_buffer) (w : World) :
    List Step :=
  match list with
  | [] => []
  | _ :: _ =>
    let w1 := w.emit Event.spin_lock_lru
    let (l2, w2) := ttm_eu_backoff_reservation_locked list w1
    let w3 := if ticket = true then w2.emit Event.ww_acquire_fini else w2
    [Step.mk Pt.lru_lock list w1] ++ backoff_locked_steps [] list w1 ++
      (if ticket = true then [Step.mk Pt.acquire_fini l2 w3] else []) ++
      [Step.mk Pt.lru_unlock l2 (w3.emit Event.spin_unlock_lru)]

/-- The states the block `reserve_wound` of `ttm_eu_reserve_buffers` goes through. -/
def wound_steps (env : Env) (pos : Nat) (bo : Nat) (list : List ttm_validate_buffer)
    (w1 : World) : List Step :=
  let w2 := w1.emit Event.spin_lock_lru
  let (l3, w3) := ttm_eu_backoff_reservation_locked list w2
  let w4 := w3.emit Event.spin_unlock_lru
  let (l5, w5) := ttm_eu_list_ref_sub l3 w4
  let (ret6, w6) := ww_mutex_lock_slow_interruptible env bo w5
  [Step.mk Pt.lru_lock list w2] ++ backoff_locked_steps [] list w2 ++
    [Step.mk Pt.lru_unlock l3 w4] ++ ref_sub_steps [] l3 w4 ++
    [Step.mk Pt.call_slow l5 w5, Step.mk Pt.slow_reserve l5 w6] ++
    if ret6 ≠ 0 then []
    else
      let l7 := set_reserved pos l5
      let (v, w8) := atomic_read_cpu_writers env bo w6
      [Step.mk Pt.set_reserved l7 w6, Step.mk Pt.cpu_writers l7 w8] ++
        if 0 < v then [] else [Step.mk Pt.goto_retry l7 w8]

/-- The states one walk of the loop under `retry:` goes through, up to where
the walk leaves the loop. -/
def walk_steps (env : Env) (ticket : Bool) :
    List ttm_validate_buffer → List ttm_validate_buffer → World → List Step
  | _, [], _ => []
  | pre, entry :: rest, w =>
    if entry.reserved = true then walk_steps env ticket (pre ++ [entry]) rest w
    else
      let (ret, w1) := __ttm_bo_reserve env entry.bo (!ticket) w
      Step.mk Pt.try_reserve (pre ++ entry :: rest) w1 ::
      if ret = -env.EDEADLK then
        if ticket = false then []
        else wound_steps env pre.length entry.bo (pre ++ entry :: rest) w1
      else if ret ≠ 0 then []
      else
        let e1 := { entry with reserved := true }
        let (v, w2) := atomic_read_cpu_writers env entry.bo w1
        Step.mk Pt.set_reserved (pre ++ e1 :: rest) w1 ::
        Step.mk Pt.cpu_writers (pre ++ e1 :: rest) w2 ::
        if 0 < v then [] else walk_steps env ticket (pre ++ [e1]) rest w2

/-- The states from the label `err_fini:` of `ttm_eu_reserve_buffers` on. -/
def err_fini_steps (ticket : Bool) (list : List ttm_validate_buffer) (w : World) :
    List Step :=
  if ticket = true then
    [Step.mk Pt.acquire_done list (w.emit Event.ww_acquire_done),
     Step.mk Pt.acquire_fini list
       ((w.emit Event.ww_acquire_done).emit Event.ww_acquire_fini)]
  else []

/-- The states from the label `err:` of `ttm_eu_reserve_buffers` on. -/
def err_steps (ticket : Bool) (list : List ttm_validate_buffer) (w : World) : List Step :=
  let w1 := w.emit Event.spin_lock_lru
  let (l2, w2) := ttm_eu_backoff_reservation_locked list w1
  let w3 := w2.emit Event.spin_unlock_lru
  let (l4, w4) := ttm_eu_list_ref_sub l2 w3
  [Step.mk Pt.lru_lock list w1] ++ backoff_locked_steps [] list w1 ++
    [Step.mk Pt.lru_unlock l2 w3] ++ ref_sub_steps [] l2 w3 ++ err_fini_steps ticket l4 w4

/-- The states `ttm_eu_reserve_buffers` goes through from the label `retry:` on;
`fuel` bounds the number of walks as in `reserve_retry`. -/
def retry_steps (env : Env) (ticket : Bool) :
    Nat → List ttm_validate_buffer → World → List Step
  | 0, _, _ => []
  | fuel + 1, list, w =>
    walk_steps env ticket [] list w ++
    match reserve_walk env ticket [] list w with
    | Walk.done l1 w1 =>
      let w2 := if ticket = true then w1.emit Event.ww_acquire_done else w1
      let w3 := w2.emit Event.spin_lock_lru
      let (l4, w4) := ttm_eu_del_from_lru_locked env l1 w3
      let w5 := w4.emit Event.spin_unlock_lru
      (if ticket = true then [Step.mk Pt.acquire_done l1 w2] else []) ++
        [Step.mk Pt.lru_lock l1 w3] ++ del_steps env [] l1 w3 ++
        [Step.mk Pt.lru_unlock l4 w5] ++ ref_sub_steps [] l4 w5
    | Walk.retry l1 w1 => retry_steps env ticket fuel l1 w1
    | Walk.err _ l1 w1 => err_steps ticket l1 w1
    | Walk.err_fini _ l1 w1 => err_fini_steps ticket l1 w1
    | Walk.bug _ _ => []

/-- The states the first loop of `ttm_eu_reserve_buffers` goes through. -/
def init_steps :
    List ttm_validate_buffer → List ttm_validate_buffer → World → List Step
  | _, [], _ => []
  | pre, entry :: rest, w =>
    let e1 := { entry with reserved := false }
    let e2 := { e1 with put_count := 0 }
    let e3 := { e2 with removed := false }
    Step.mk Pt.init_reserved (pre ++ e1 :: rest) w ::
      Step.mk Pt.init_put_count (pre ++ e2 :: rest) w ::
      Step.mk Pt.init_removed (pre ++ e3 :: rest) w ::
      init_steps (pre ++ [e3]) rest w

/-- The states `ttm_eu_reserve_buffers` goes through. -/
def reserve_steps (env : Env) (fuel : Nat) (ticket : Bool)
    (list : List ttm_validate_buffer) (w : World) : List Step :=
  match list with
  | [] => []
  | _ :: _ =>
    let l1 := list.map (fun entry =>
      { entry with reserved := false, put_count := 0, removed := false })
    let w1 := if ticket = true then w.emit Event.ww_acquire_init else w
    init_steps [] list w ++ (if ticket = true then [Step.mk Pt.acquire_init l1 w1] else []) ++
      retry_steps env ticket fuel l1 w1

/-- The states the first loop of `ttm_eu_fence_buffer_objects` goes through. -/
def fence_loop_steps (env : Env) (sync_obj : Option Nat) :
    List ttm_validate_buffer → List ttm_validate_buffer → World → List Step
  | _, [], _ => []
  | pre, entry :: rest, w =>
    let e1 := { entry with old_sync_obj := w.sync_obj entry.bo }
    let tok := env.sync_obj_ref sync_obj
    let w1 := { w.emit (Event.sync_obj_ref sync_obj) with
      sync_obj := fun b => if b = entry.bo then tok else w.sync_obj b }
    let w2 := ttm_bo_add_to_lru entry.bo w1
    let w3 := __ttm_bo_unreserve entry.bo w2
    let e2 := { e1 with reserved := false }
    Step.mk Pt.save_sync_obj (pre ++ e1 :: rest) w ::
      Step.mk Pt.sync_obj_ref (pre ++ e1 :: rest) w1 ::
      Step.mk Pt.add_to_lru (pre ++ e1 :: rest) w2 ::
      Step.mk Pt.unreserve (pre ++ e1 :: rest) w3 ::
      Step.mk Pt.clear_reserved (pre ++ e2 :: rest) w3 ::
      fence_loop_steps env sync_obj (pre ++ [e2]) rest w3

/-- The states the second loop of `ttm_eu_fence_buffer_objects` goes through. -/
def fence_unref_steps (env : Env) :
    List ttm_validate_buffer → List ttm_validate_buffer → World → List Step
  | _, [], _ => []
  | pre, entry :: rest, w =>
    match entry.old_sync_obj with
    | some tok =>
      let w1 := w.emit (Event.sync_obj_unref tok)
      let e1 := { entry with old_sync_obj := env.sync_obj_unref tok }
      Step.mk Pt.sync_obj_unref (pre ++ e1 :: rest) w1 ::
        fence_unref_steps env (pre ++ [e1]) rest w1
    | none => fence_unref_steps env (pre ++ [entry]) rest w

/-- The states `ttm_eu_fence_buffer_objects` goes through. -/
def fence_steps (env : Env) (ticket : Bool) (list : List ttm_validate_buffer)
    (sync_obj : Option Nat) (w : World) : List Step :=
  match list with
  | [] => []
  | _ :: _ =>
    let w0 := w.emit Event.spin_lock_lru
    let w1 := w0.emit Event.spin_lock_fence
    let (l2, w2) := fence_loop env sync_obj list w1
    let w3 := w2.emit Event.spin_unlock_fence
    let w4 := w3.emit Event.spin_unlock_lru
    let w5 := if ticket = true then w4.emit Event.ww_acquire_fini else w4
    [Step.mk Pt.lru_lock list w0, Step.mk Pt.fence_lock list w1] ++
      fence_loop_steps env sync_obj [] list w1 ++
      [Step.mk Pt.fence_unlock l2 w3, Step.mk Pt.lru_unlock l2 w4] ++
      (if ticket = true then [Step.mk Pt.acquire_fini l2 w5] else []) ++
      fence_unref_steps env [] l2 w5

/-- The flags of the entries and which of their locks are held, for the examples. -/
def Step.view (s : Step) : Pt × List (Nat × Bool × Bool × Bool) :=
  (s.pt, s.list.map (fun e => (e.bo, e.reserved, e.removed, s.w.held e.bo)))

/-- What a state inside a back-off keeps of the list `l` and the world `w` the
back-off started from: the objects named, that no entry is off the LRU or owes
references, and that the lock of every entry marked reserved is held. -/
def BackoffKeeps (l : List ttm_validate_buffer) (w : World) (s : Step) : Prop :=
  s.list.map (fun e => e.bo) = l.map (fun e => e.bo) ∧
  ((∀ e ∈ l, e.removed = false ∧ e.put_count = 0) →
    ∀ e ∈ s.list, e.removed = false ∧ e.put_count = 0) ∧
  ((l.map (fun e => e.bo)).Nodup →
    (∀ e ∈ l, e.reserved = true → w.held e.bo = true) →
    ∀ e ∈ s.list, e.reserved = true → s.w.held e.bo = true)

/-- What holds at every state of `ttm_eu_reserve_buffers` after its first loop,
`w0` being the world and `bos` the objects of the list at the call: an entry off
the LRU is reserved; with distinct objects the lock of a reserved entry is
held; where the slow lock is about to be called no entry is reserved and no
lock is held; a `__ttm_bo_reserve` was made on an object whose entry is not
reserved; and at `goto retry` the slow lock answered 0 and the read of
`cpu_writers` that followed saw a value that is not positive, the entry of that
object is the one reserved entry and its lock the one lock held. -/
structure StepInv (w0 : World) (bos : List Nat) (s : Step) : Prop where
  flags : ∀ e ∈ s.list, e.removed = true → e.reserved = true
  locked : bos.Nodup → ∀ e ∈ s.list, e.reserved = true → s.w.held e.bo = true
  at_slow : (∀ b, w0.held b = false) → s.pt = Pt.call_slow →
    (∀ e ∈ s.list, e.reserved = false) ∧ ∀ b, s.w.held b = false
  at_try : bos.Nodup → s.pt = Pt.try_reserve →
    ∃ t b nw r, s.w.trace = t ++ [Event.bo_reserve b nw r] ∧
      ∀ e ∈ s.list, e.bo = b → e.reserved = false
  at_retry : (∀ b, w0.held b = false) → bos.Nodup → s.pt = Pt.goto_retry →
    ∃ t b v, v ≤ 0 ∧ s.w.trace = t ++ [Event.lock_slow b 0, Event.cpu_writers b v] ∧
      (∀ e ∈ s.list, (e.reserved = true ↔ e.bo = b)) ∧ ∀ x, (s.w.held x = true ↔ x = b)

/-- A validation list naming objects 1, 2, 3, every entry free. -/
def demo_list_free : List ttm_validate_buffer :=
  [⟨1, false, false, 0, none⟩, ⟨2, false, false, 0, none⟩, ⟨3, false, false, 0, none⟩]

end TTM

/-!
# Raw sockets: delivery of an incoming packet

A shallow embedding of `equal` and `raw_input` of `sys/net/raw_usrreq.c`.  The list
`rawcb` of control blocks is a `List rawcb`; the mbuf and socket primitives are
outside the file, their answers are read from the `Host` and every call is
appended to `Net.calls`, in program order.
-/

namespace Raw

/-- Modelled from the spec: `struct sockaddr` (sys/socket.h) as the bytes at its
address; the first byte is the length field `sa_len`. -/
structure sockaddr where
  byte : Nat → Nat

/-- The length field, `a->sa_len`. -/
def sockaddr.sa_len (a : sockaddr) : Nat := a.byte 0

/-- Modelled from the spec: the C library's `memcmp` on the `n` bytes from
offset `i` on: 0 when they are the same, else the difference of the first two
bytes that differ. -/
def memcmp_from (a1 a2 : sockaddr) : Nat → Nat → Int
  | _, 0 => 0
  | i, n + 1 =>
    if a1.byte i = a2.byte i then memcmp_from a1 a2 (i + 1) n
    else (a1.byte i : Int) - (a2.byte i : Int)

/-- Modelled from the spec: `memcmp(a1, a2, n)`. -/
def memcmp (a1 a2 : sockaddr) (n : Nat) : Int := memcmp_from a1 a2 0 n

/-- `equal`: `memcmp(a1, a2, a1->sa_len) == 0`. -/
def equal (a1 a2 : sockaddr) : Bool := decide (memcmp a1 a2 a1.sa_len = 0)

/-- An mbuf chain: the packet handed to `raw_input`, or the chain the `k`-th call
of `m_copy` returned. -/
inductive Mbuf where
  | packet
  | copy (k : Nat)
  deriving DecidableEq, Repr

/-- Calls `raw_input` makes, in the order they are made. -/
inductive Call where
  | m_copy (ret : Option Mbuf)
  | sbappendaddr (so : Nat) (m : Mbuf) (ret : Int)
  | m_freem (m : Mbuf)
  | sorwakeup (so : Nat)
  deriving DecidableEq, Repr

/-- What `raw_input` takes from outside: whether the `k`-th call of `m_copy`
finds memory, and what the `k`-th call of `sbappendaddr` answers (0 when the
receive buffer has no room). -/
structure Host where
  m_copy : Nat → Bool
  sbappendaddr : Nat → Int

/-- How many answers of each primitive have been consumed, and the calls made
so far. -/
structure Net where
  n_copy : Nat
  n_append : Nat
  calls : List Call

/-- Modelled from the spec: `m_copy(m, 0, M_COPYALL)` answers a fresh chain, or
NULL when there is no memory. -/
def m_copy (h : Host) (w : Net) : Option Mbuf × Net :=
  let ret := if h.m_copy w.n_copy = true then some (Mbuf.copy w.n_copy) else none
  (ret, { w with n_copy := w.n_copy + 1, calls := w.calls ++ [Call.m_copy ret] })

/-- Modelled from the spec: `sbappendaddr(&so->so_rcv, src, m, NULL)` answers 0
when it could not append. -/
def sbappendaddr (h : Host) (so : Nat) (m : Mbuf) (w : Net) : Int × Net :=
  let ret := h.sbappendaddr w.n_append
  (ret, { w with n_append := w.n_append + 1,
                 calls := w.calls ++ [Call.sbappendaddr so m ret] })

/-- Modelled from the spec: `m_freem(m)`. -/
def m_freem (m : Mbuf) (w : Net) : Net :=
  { w with calls := w.calls ++ [Call.m_freem m] }

/-- Modelled from the spec: `sorwakeup(so)`. -/
def sorwakeup (so : Nat) (w : Net) : Net :=
  { w with calls := w.calls ++ [Call.sorwakeup so] }

/-- In the words of the claim: two socket addresses are equal when their length
fields are the same and the bytes that the length counts are the same. -/
def sockaddr.same (a1 a2 : sockaddr) : Bool :=
  decide (a1.sa_len = a2.sa_len) &&
    (List.range a1.sa_len).all (fun i => decide (a1.byte i = a2.byte i))

end Raw

namespace TTM

/-! ## Lemmas and the claims -/

theorem backoff_fst (l : List ttm_validate_buffer) (w : World) :
    (ttm_eu_backoff_reservation_locked l w).1 = l.map unres := by
  induction l generalizing w with
  | nil => rfl
  | cons e rest ih =>
    rw [ttm_eu_backoff_reservation_locked]
    by_cases hr : e.reserved = true
    · by_cases hm : e.removed = true <;> simp [hr, hm, ih, unres]
    · simp [hr, ih, unres]

theorem backoff_trace (l : List ttm_validate_buffer) (w : World) :
    (ttm_eu_backoff_reservation_locked l w).2.trace = w.trace ++ backoff_events l := by
  induction l generalizing w with
  | nil => simp [ttm_eu_backoff_reservation_locked, backoff_events]
  | cons e rest ih =>
    rw [ttm_eu_backoff_reservation_locked]
    by_cases hr : e.reserved = true
    · by_cases hm : e.removed = true <;>
        simp [hr, hm, ih, backoff_events, __ttm_bo_unreserve, ttm_bo_add_to_lru]
    · simp [hr, ih, backoff_events]

theorem backoff_held (l : List ttm_validate_buffer) (w : World) (b : Nat) :
    (ttm_eu_backoff_reservation_locked l w).2.held b =
      (w.held b && !(l.any (fun e => e.reserved && decide (e.bo = b)))) := by
  induction l generalizing w with
  | nil => simp [ttm_eu_backoff_reservation_locked]
  | cons e rest ih =>
    rw [ttm_eu_backoff_reservation_locked]
    by_cases hr : e.reserved = true
    · by_cases hm : e.removed = true <;>
        simp only [hr, hm, if_true, if_false, Bool.true_eq_false, Bool.false_eq_true] <;>
        rw [ih] <;> by_cases hb : b = e.bo <;>
        simp [hr, hb, __ttm_bo_unreserve, ttm_bo_add_to_lru, eq_comm]
    · simp [hr, ih]

theorem backoff_lru_eq (l : List ttm_validate_buffer) (w : World) :
    (ttm_eu_backoff_reservation_locked l w).2.lru = backoff_lru l w.lru := by
  induction l generalizing w with
  | nil => simp [ttm_eu_backoff_reservation_locked, backoff_lru]
  | cons e rest ih =>
    rw [ttm_eu_backoff_reservation_locked]
    by_cases hr : e.reserved = true
    · by_cases hm : e.removed = true <;>
        simp [hr, hm, ih, backoff_lru, __ttm_bo_unreserve, ttm_bo_add_to_lru]
    · simp [hr, ih, backoff_lru]

theorem backoff_rest (l : List ttm_validate_buffer) (w : World) :
    (ttm_eu_backoff_reservation_locked l w).2.sync_obj = w.sync_obj ∧
    (ttm_eu_backoff_reservation_locked l w).2.n_reserve = w.n_reserve ∧
    (ttm_eu_backoff_reservation_locked l w).2.n_slow = w.n_slow ∧
    (ttm_eu_backoff_reservation_locked l w).2.n_cpu = w.n_cpu ∧
    (ttm_eu_backoff_reservation_locked l w).2.n_del = w.n_del := by
  induction l generalizing w with
  | nil => simp [ttm_eu_backoff_reservation_locked]
  | cons e rest ih =>
    rw [ttm_eu_backoff_reservation_locked]
    by_cases hr : e.reserved = true
    · by_cases hm : e.removed = true <;>
        simp [hr, hm, ih, __ttm_bo_unreserve, ttm_bo_add_to_lru]
    · simp [hr, ih]

theorem ref_sub_fst (l : List ttm_validate_buffer) (w : World) :
    (ttm_eu_list_ref_sub l w).1 = l.map (fun e => { e with put_count := 0 }) := by
  induction l generalizing w with
  | nil => rfl
  | cons e rest ih =>
    rw [ttm_eu_list_ref_sub]
    by_cases hp : e.put_count = 0
    · simp only [hp, ne_eq, not_true_eq_false, if_false, ih, List.map_cons]
      congr 1
      cases e
      simp_all
    · simp [hp, ih]

theorem ref_sub_snd (l : List ttm_validate_buffer) (w : World) :
    (ttm_eu_list_ref_sub l w).2 = { w with trace := w.trace ++ ref_events l } := by
  induction l generalizing w with
  | nil => simp [ttm_eu_list_ref_sub, ref_events]
  | cons e rest ih =>
    rw [ttm_eu_list_ref_sub]
    by_cases hp : e.put_count = 0
    · simp [hp, ih, ref_events]
    · simp [hp, ih, ref_events, World.emit]

theorem ref_events_of_zero (l : List ttm_validate_buffer)
    (h : ∀ e ∈ l, e.put_count = 0) : ref_events l = [] := by
  induction l with
  | nil => rfl
  | cons e rest ih =>
    simp only [List.mem_cons, forall_eq_or_imp] at h
    simp [ref_events, h.1, ih h.2]

theorem set_reserved_append (pre : List ttm_validate_buffer) (e : ttm_validate_buffer)
    (rest : List ttm_validate_buffer) (n : Nat) (hn : pre.length = n) :
    set_reserved n (pre ++ e :: rest) = pre ++ { e with reserved := true } :: rest := by
  induction pre generalizing n with
  | nil => subst hn; rfl
  | cons a pre ih =>
    subst hn
    simp [set_reserved, ih]

theorem backoff_lru_of_fresh (l : List ttm_validate_buffer) (lru : List Nat)
    (h : ∀ e ∈ l, e.removed = false) : backoff_lru l lru = lru := by
  induction l generalizing lru with
  | nil => rfl
  | cons e rest ih =>
    simp only [List.mem_cons, forall_eq_or_imp] at h
    simp [backoff_lru, h.1, ih _ h.2]

theorem unres_reserved (e : ttm_validate_buffer) : (unres e).reserved = false := by
  by_cases hr : e.reserved = true <;> simp [unres, hr]

theorem unres_bo (e : ttm_validate_buffer) : (unres e).bo = e.bo := by
  by_cases hr : e.reserved = true <;> simp [unres, hr]

theorem unres_put_count (e : ttm_validate_buffer) : (unres e).put_count = e.put_count := by
  by_cases hr : e.reserved = true <;> simp [unres, hr]

theorem unres_removed (e : ttm_validate_buffer) (h : e.removed = false) :
    (unres e).removed = false := by
  by_cases hr : e.reserved = true <;> simp [unres, hr, h]

theorem unres_old_sync_obj (e : ttm_validate_buffer) :
    (unres e).old_sync_obj = e.old_sync_obj := by
  by_cases hr : e.reserved = true <;> simp [unres, hr]

/-- The internal back-off of `ttm_eu_reserve_buffers` (lock, back off, unlock,
drop references) when no entry is off the LRU or owes references. -/
theorem backoff_ref_sub_fresh (l : List ttm_validate_buffer) (w : World)
    (h : ∀ e ∈ l, e.removed = false ∧ e.put_count = 0) :
    (ttm_eu_list_ref_sub (ttm_eu_backoff_reservation_locked l w).1
      ((ttm_eu_backoff_reservation_locked l w).2.emit Event.spin_unlock_lru)).1 = l.map unres ∧
    (ttm_eu_list_ref_sub (ttm_eu_backoff_reservation_locked l w).1
      ((ttm_eu_backoff_reservation_locked l w).2.emit Event.spin_unlock_lru)).2 =
      { w with
        held := fun b => (w.held b && !(l.any (fun e => e.reserved && decide (e.bo = b))))
        trace := w.trace ++ backoff_events l ++ [Event.spin_unlock_lru] } := by
  have hz : ∀ e ∈ l.map unres, e.put_count = 0 := by
    intro e he
    simp only [List.mem_map] at he
    obtain ⟨a, ha, rfl⟩ := he
    rw [unres_put_count]; exact (h a ha).2
  constructor
  · rw [ref_sub_fst, backoff_fst]
    conv_rhs => rw [← List.map_id (l.map unres)]
    apply List.map_congr_left
    intro e he
    have := hz e he
    cases e; simp_all
  · rw [ref_sub_snd, backoff_fst, ref_events_of_zero _ hz]
    have h1 := backoff_trace l w
    have h2 := backoff_lru_eq l w
    have h3 := backoff_rest l w
    have h4 : (ttm_eu_backoff_reservation_locked l w).2.held =
        fun b => (w.held b && !(l.any (fun e => e.reserved && decide (e.bo = b)))) :=
      funext (backoff_held l w)
    rw [backoff_lru_of_fresh l _ (fun e he => (h e he).1)] at h2
    generalize (ttm_eu_backoff_reservation_locked l w).2 = w2 at *
    cases w2; cases w
    simp_all [World.emit]

theorem reserve_walk_cons (env : Env) (ticket : Bool) (pre rest : List ttm_validate_buffer)
    (entry : ttm_validate_buffer) (w : World) :
    reserve_walk env ticket pre (entry :: rest) w =
      if entry.reserved = true then reserve_walk env ticket (pre ++ [entry]) rest w
      else
        if (__ttm_bo_reserve env entry.bo (!ticket) w).1 = -env.EDEADLK then
          if ticket = false then
            Walk.bug (pre ++ entry :: rest) (__ttm_bo_reserve env entry.bo (!ticket) w).2
          else reserve_wound env pre.length entry.bo (pre ++ entry :: rest)
            (__ttm_bo_reserve env entry.bo (!ticket) w).2
        else if (__ttm_bo_reserve env entry.bo (!ticket) w).1 ≠ 0 then
          Walk.err (__ttm_bo_reserve env entry.bo (!ticket) w).1 (pre ++ entry :: rest)
            (__ttm_bo_reserve env entry.bo (!ticket) w).2
        else
          if 0 < (atomic_read_cpu_writers env entry.bo
              (__ttm_bo_reserve env entry.bo (!ticket) w).2).1 then
            Walk.err (-env.EBUSY) (pre ++ { entry with reserved := true } :: rest)
              (atomic_read_cpu_writers env entry.bo
                (__ttm_bo_reserve env entry.bo (!ticket) w).2).2
          else
            reserve_walk env ticket (pre ++ [{ entry with reserved := true }]) rest
              (atomic_read_cpu_writers env entry.bo
                (__ttm_bo_reserve env entry.bo (!ticket) w).2).2 := by
  rw [reserve_walk]

theorem reserve_wound_eq (env : Env) (pos bo : Nat) (l : List ttm_validate_buffer)
    (w1 : World) :
    reserve_wound env pos bo l w1 =
      if (ww_mutex_lock_slow_interruptible env bo (wound_world l w1)).1 ≠ 0 then
        Walk.err_fini
          (if (ww_mutex_lock_slow_interruptible env bo (wound_world l w1)).1 = -env.EINTR
            then -env.ERESTARTSYS
            else (ww_mutex_lock_slow_interruptible env bo (wound_world l w1)).1)
          (wound_list l w1)
          (ww_mutex_lock_slow_interruptible env bo (wound_world l w1)).2
      else
        if 0 < (atomic_read_cpu_writers env bo
            (ww_mutex_lock_slow_interruptible env bo (wound_world l w1)).2).1 then
          Walk.err (-env.EBUSY) (set_reserved pos (wound_list l w1))
            (atomic_read_cpu_writers env bo
              (ww_mutex_lock_slow_interruptible env bo (wound_world l w1)).2).2
        else
          Walk.retry (set_reserved pos (wound_list l w1))
            (atomic_read_cpu_writers env bo
              (ww_mutex_lock_slow_interruptible env bo (wound_world l w1)).2).2 := rfl

theorem SInv.acquire {w0 : World} {bos : List Nat} {pre rest : List ttm_validate_buffer}
    {e : ttm_validate_buffer} {w w1 : World} (h : SInv w0 bos (pre ++ e :: rest) w)
    (hh : ∀ b, w1.held b = if b = e.bo then true else w.held b)
    (hl : w1.lru = w.lru) (hs : w1.sync_obj = w.sync_obj) :
    SInv w0 bos (pre ++ { e with reserved := true } :: rest) w1 := by
  have hmem : ∀ x, x ∈ pre ++ { e with reserved := true } :: rest →
      x = { e with reserved := true } ∨ x ∈ pre ++ e :: rest := by
    intro x hx
    simp only [List.mem_append, List.mem_cons] at hx ⊢
    tauto
  refine ⟨?_, ?_, ?_, by rw [hl, h.lru_eq], by rw [hs, h.sync_eq], ?_⟩
  · intro x hx
    rcases hmem x hx with rfl | hx
    · exact h.fresh e (by simp)
    · exact h.fresh x hx
  · intro x hx hr
    rw [hh]
    rcases hmem x hx with rfl | hx
    · simp
    · by_cases hb : x.bo = e.bo
      · simp [hb]
      · simp [hb, h.locked x hx hr]
  · intro b hb
    rw [hh] at hb
    by_cases hbe : b = e.bo
    · right
      exact ⟨{ e with reserved := true }, by simp, rfl, hbe.symm⟩
    · simp only [hbe, if_false] at hb
      rcases h.owned b hb with h0 | ⟨x, hx, hr, hxb⟩
      · exact Or.inl h0
      · right
        have hne : x ≠ e := by
          rintro rfl
          exact hbe hxb.symm
        refine ⟨x, ?_, hr, hxb⟩
        simp only [List.mem_append, List.mem_cons] at hx ⊢
        tauto
  · rw [← h.bos_eq]; simp

theorem SInv.same {w0 : World} {bos : List Nat} {l : List ttm_validate_buffer}
    {w w1 : World} (h : SInv w0 bos l w)
    (hh : w1.held = w.held) (hl : w1.lru = w.lru) (hs : w1.sync_obj = w.sync_obj) :
    SInv w0 bos l w1 :=
  ⟨h.fresh, fun e he hr => by rw [hh]; exact h.locked e he hr,
    fun b hb => h.owned b (by rw [← hh]; exact hb),
    by rw [hl, h.lru_eq], by rw [hs, h.sync_eq], h.bos_eq⟩

theorem SInv.backoff {w0 : World} {bos : List Nat} {l : List ttm_validate_buffer}
    {w w1 : World} (h : SInv w0 bos l w)
    (hh : ∀ b, w1.held b = (w.held b && !(l.any (fun e => e.reserved && decide (e.bo = b)))))
    (hl : w1.lru = w.lru) (hs : w1.sync_obj = w.sync_obj) :
    SInv w0 bos (l.map unres) w1 := by
  refine ⟨?_, ?_, ?_, by rw [hl, h.lru_eq], by rw [hs, h.sync_eq], ?_⟩
  · intro x hx
    simp only [List.mem_map] at hx
    obtain ⟨a, ha, rfl⟩ := hx
    exact ⟨unres_removed a (h.fresh a ha).1, by rw [unres_put_count]; exact (h.fresh a ha).2⟩
  · intro x hx hr
    simp only [List.mem_map] at hx
    obtain ⟨a, _, rfl⟩ := hx
    rw [unres_reserved] at hr
    exact absurd hr (by simp)
  · intro b hb
    rw [hh] at hb
    simp only [Bool.and_eq_true, Bool.not_eq_true', List.any_eq_false, decide_eq_true_eq,
      not_and] at hb
    rcases h.owned b hb.1 with h0 | ⟨x, hx, hr, hxb⟩
    · exact Or.inl h0
    · exact absurd hxb (hb.2 x hx hr)
  · rw [← h.bos_eq, List.map_map]
    apply List.map_congr_left
    intro a _
    exact unres_bo a

theorem wound_fresh (l : List ttm_validate_buffer) (w1 : World)
    (h : ∀ e ∈ l, e.removed = false ∧ e.put_count = 0) :
    wound_list l w1 = l.map unres ∧
    wound_world l w1 = { w1 with
      held := fun b => (w1.held b && !(l.any (fun e => e.reserved && decide (e.bo = b))))
      trace := w1.trace ++ [Event.spin_lock_lru] ++ backoff_events l ++
        [Event.spin_unlock_lru] } := by
  have := backoff_ref_sub_fresh l (w1.emit Event.spin_lock_lru) h
  exact ⟨this.1, this.2⟩

theorem wound_sinv (env : Env) (hE : env.errno_ok) (w0 : World) (bos : List Nat)
    (pre rest : List ttm_validate_buffer) (e : ttm_validate_buffer) (w1 : World)
    (h : SInv w0 bos (pre ++ e :: rest) w1) :
    Walk.sinv (SInv w0 bos) (reserve_wound env pre.length e.bo (pre ++ e :: rest) w1) := by
  obtain ⟨hl, hw⟩ := wound_fresh (pre ++ e :: rest) w1 h.fresh
  have hb : SInv w0 bos ((pre ++ e :: rest).map unres) (wound_world (pre ++ e :: rest) w1) :=
    h.backoff (by intro b; rw [hw]) (by rw [hw]) (by rw [hw])
  rw [reserve_wound_eq, hl]
  by_cases hs : env.lock_slow (wound_world (pre ++ e :: rest) w1).n_slow = 0
  · have hb2 : SInv w0 bos
        (set_reserved pre.length ((pre ++ e :: rest).map unres))
        (atomic_read_cpu_writers env e.bo
          (ww_mutex_lock_slow_interruptible env e.bo
            (wound_world (pre ++ e :: rest) w1)).2).2 := by
      rw [List.map_append, List.map_cons, set_reserved_append _ _ _ _ (by simp)]
      rw [List.map_append, List.map_cons] at hb
      refine hb.acquire ?_ rfl rfl
      intro b
      simp [atomic_read_cpu_writers, ww_mutex_lock_slow_interruptible, hs, unres_bo]
    simp only [ww_mutex_lock_slow_interruptible, hs, ne_eq, not_true_eq_false, if_false]
    simp only [ww_mutex_lock_slow_interruptible, hs] at hb2
    split
    · exact ⟨hb2, by simpa using hE.2.1⟩
    · exact hb2
  · simp only [ww_mutex_lock_slow_interruptible, hs, ne_eq, not_false_eq_true, if_true]
    refine ⟨hb.same ?_ rfl rfl, ?_, ?_⟩
    · funext b; simp [hs]
    · split
      · simpa using hE.2.2.1
      · exact hs
    · intro x hx
      simp only [List.mem_map] at hx
      obtain ⟨a, _, rfl⟩ := hx
      exact unres_reserved a

theorem walk_sinv (env : Env) (hE : env.errno_ok) (ticket : Bool) (w0 : World)
    (bos : List Nat) : ∀ (rest pre : List ttm_validate_buffer) (w : World),
    SInv w0 bos (pre ++ rest) w → (∀ e ∈ pre, e.reserved = true) →
    Walk.sinv (SInv w0 bos) (reserve_walk env ticket pre rest w) := by
  intro rest
  induction rest with
  | nil =>
    intro pre w h hp
    rw [reserve_walk]
    exact ⟨by simpa using h, hp⟩
  | cons e rest ih =>
    intro pre w h hp
    rw [reserve_walk_cons]
    by_cases hr : e.reserved = true
    · rw [if_pos hr]
      apply ih
      · simpa using h
      · intro x hx
        simp only [List.mem_append, List.mem_singleton] at hx
        rcases hx with hx | rfl
        · exact hp x hx
        · exact hr
    · rw [if_neg hr]
      by_cases hd : env.bo_reserve w.n_reserve = -env.EDEADLK
      · have hnz : env.bo_reserve w.n_reserve ≠ 0 := by
          rw [hd]; simpa using hE.1
        have h1 : SInv w0 bos (pre ++ e :: rest) (__ttm_bo_reserve env e.bo (!ticket) w).2 :=
          h.same (by funext b; simp [__ttm_bo_reserve, hnz]) rfl rfl
        rw [if_pos (by simpa [__ttm_bo_reserve] using hd)]
        cases ticket
        · simp [Walk.sinv]
        · simp only [Bool.true_eq_false, if_false]
          exact wound_sinv env hE w0 bos pre rest e _ h1
      · rw [if_neg (by simpa [__ttm_bo_reserve] using hd)]
        by_cases hz : env.bo_reserve w.n_reserve = 0
        · rw [if_neg (by simpa [__ttm_bo_reserve] using hz)]
          have h2 : SInv w0 bos (pre ++ { e with reserved := true } :: rest)
              (atomic_read_cpu_writers env e.bo
                (__ttm_bo_reserve env e.bo (!ticket) w).2).2 :=
            h.acquire (by intro b; simp [atomic_read_cpu_writers, __ttm_bo_reserve, hz])
              rfl rfl
          split
          · exact ⟨h2, by simpa using hE.2.1⟩
          · apply ih
            · simpa using h2
            · intro x hx
              simp only [List.mem_append, List.mem_singleton] at hx
              rcases hx with hx | rfl
              · exact hp x hx
              · rfl
        · rw [if_pos (by simpa [__ttm_bo_reserve] using hz)]
          exact ⟨h.same (by funext b; simp [__ttm_bo_reserve, hz]) rfl rfl,
            by simpa [__ttm_bo_reserve] using hz⟩

theorem del_fst (env : Env) (l : List ttm_validate_buffer) (w : World) :
    (ttm_eu_del_from_lru_locked env l w).1 = del_list env w.n_del l := by
  induction l generalizing w with
  | nil => rfl
  | cons e rest ih =>
    rw [ttm_eu_del_from_lru_locked]
    by_cases hr : e.reserved = true
    · by_cases hm : e.removed = true <;>
        simp [hr, hm, ih, del_list, ttm_bo_del_from_lru]
    · simp [hr, ih, del_list]

theorem del_trace (env : Env) (l : List ttm_validate_buffer) (w : World) :
    (ttm_eu_del_from_lru_locked env l w).2.trace = w.trace ++ del_events env w.n_del l := by
  induction l generalizing w with
  | nil => simp [ttm_eu_del_from_lru_locked, del_events]
  | cons e rest ih =>
    rw [ttm_eu_del_from_lru_locked]
    by_cases hr : e.reserved = true
    · by_cases hm : e.removed = true <;>
        simp [hr, hm, ih, del_events, ttm_bo_del_from_lru]
    · simp [hr, ih, del_events]

theorem del_lru (env : Env) (l : List ttm_validate_buffer) (w : World) :
    (ttm_eu_del_from_lru_locked env l w).2.lru =
      w.lru.filter (fun b => !((del_targets l).any (fun e => decide (e.bo = b)))) := by
  induction l generalizing w with
  | nil => simp [ttm_eu_del_from_lru_locked, del_targets]
  | cons e rest ih =>
    rw [ttm_eu_del_from_lru_locked]
    by_cases hr : e.reserved = true
    · by_cases hm : e.removed = true
      · simp [hr, hm, ih, del_targets]
      · simp only [hr, hm, Bool.true_eq_false, if_false, Bool.not_eq_true, if_true, ih,
          ttm_bo_del_from_lru, del_targets, List.filter_filter]
        apply List.filter_congr
        intro b _
        simp [List.filter_cons, hr, hm, eq_comm, Bool.and_comm]
    · simp [hr, ih, del_targets, List.filter_cons]

theorem del_rest (env : Env) (l : List ttm_validate_buffer) (w : World) :
    (ttm_eu_del_from_lru_locked env l w).2.held = w.held ∧
    (ttm_eu_del_from_lru_locked env l w).2.sync_obj = w.sync_obj ∧
    (ttm_eu_del_from_lru_locked env l w).2.n_reserve = w.n_reserve ∧
    (ttm_eu_del_from_lru_locked env l w).2.n_slow = w.n_slow ∧
    (ttm_eu_del_from_lru_locked env l w).2.n_cpu = w.n_cpu := by
  induction l generalizing w with
  | nil => simp [ttm_eu_del_from_lru_locked]
  | cons e rest ih =>
    rw [ttm_eu_del_from_lru_locked]
    by_cases hr : e.reserved = true
    · by_cases hm : e.removed = true <;>
        simp [hr, hm, ih, ttm_bo_del_from_lru]
    · simp [hr, ih]

theorem del_list_mem (env : Env) (l : List ttm_validate_buffer) (n : Nat)
    (e : ttm_validate_buffer) (h : e ∈ del_list env n l) :
    ∃ a ∈ l, e.bo = a.bo ∧ e.reserved = a.reserved ∧ e.old_sync_obj = a.old_sync_obj ∧
      (a.reserved = true → e.removed = true) ∧
      (a.reserved = false → e = a) := by
  induction l generalizing n with
  | nil => simp [del_list] at h
  | cons a rest ih =>
    rw [del_list] at h
    split at h
    · rename_i hc
      simp only [List.mem_cons] at h
      rcases h with rfl | h
      · exact ⟨a, by simp, rfl, rfl, rfl, fun _ => rfl, fun hf => by simp [hc.1] at hf⟩
      · obtain ⟨x, hx, hp⟩ := ih _ h
        exact ⟨x, by simp [hx], hp⟩
    · rename_i hc
      simp only [List.mem_cons] at h
      rcases h with rfl | h
      · refine ⟨e, by simp, rfl, rfl, rfl, fun hr => ?_, fun _ => rfl⟩
        by_contra hm
        exact hc ⟨hr, by simpa using hm⟩
      · obtain ⟨x, hx, hp⟩ := ih _ h
        exact ⟨x, by simp [hx], hp⟩

theorem del_list_bo (env : Env) (l : List ttm_validate_buffer) (n : Nat) :
    (del_list env n l).map (fun e => e.bo) = l.map (fun e => e.bo) := by
  induction l generalizing n with
  | nil => rfl
  | cons a rest ih =>
    rw [del_list]
    split <;> simp [ih]

theorem reserve_err_eq (ticket : Bool) (r : Int) (l : List ttm_validate_buffer) (w : World) :
    reserve_err ticket r l w = reserve_err_fini ticket r (wound_list l w) (wound_world l w) :=
  rfl

theorem reserve_retry_succ (env : Env) (ticket : Bool) (fuel : Nat)
    (l : List ttm_validate_buffer) (w : World) :
    reserve_retry env ticket (fuel + 1) l w =
      match reserve_walk env ticket [] l w with
      | Walk.done l1 w1 =>
        some (Exit.ret 0
          (ttm_eu_list_ref_sub
            (ttm_eu_del_from_lru_locked env l1
              ((if ticket = true then w1.emit Event.ww_acquire_done else w1).emit
                Event.spin_lock_lru)).1
            ((ttm_eu_del_from_lru_locked env l1
              ((if ticket = true then w1.emit Event.ww_acquire_done else w1).emit
                Event.spin_lock_lru)).2.emit Event.spin_unlock_lru)).1
          (ttm_eu_list_ref_sub
            (ttm_eu_del_from_lru_locked env l1
              ((if ticket = true then w1.emit Event.ww_acquire_done else w1).emit
                Event.spin_lock_lru)).1
            ((ttm_eu_del_from_lru_locked env l1
              ((if ticket = true then w1.emit Event.ww_acquire_done else w1).emit
                Event.spin_lock_lru)).2.emit Event.spin_unlock_lru)).2)
      | Walk.retry l1 w1 => reserve_retry env ticket fuel l1 w1
      | Walk.err ret l1 w1 => some (reserve_err ticket ret l1 w1)
      | Walk.err_fini ret l1 w1 => some (reserve_err_fini ticket ret l1 w1)
      | Walk.bug l1 w1 => some (Exit.bug l1 w1) := by
  rw [reserve_retry]

theorem err_fini_spec (ticket : Bool) (w0 : World) (bos : List Nat) (r : Int)
    (l : List ttm_validate_buffer) (w : World) (h : SInv w0 bos l w) (hr : r ≠ 0)
    (hu : ∀ e ∈ l, e.reserved = false) :
    Exit.spec w0 bos (reserve_err_fini ticket r l w) := by
  have hw : ∀ w1 : World, w1 = (if ticket = true then
      (w.emit Event.ww_acquire_done).emit Event.ww_acquire_fini else w) →
      w1.held = w.held ∧ w1.lru = w.lru ∧ w1.sync_obj = w.sync_obj := by
    intro w1 h1
    cases ticket <;> simp [h1, World.emit]
  obtain ⟨h1, h2, h3⟩ := hw _ rfl
  refine ⟨h.bos_eq, by rw [h3, h.sync_eq], fun e he => (h.fresh e he).2,
    fun h0 => absurd h0 hr, fun _ => ⟨fun e he => ⟨hu e he, (h.fresh e he).1⟩, ?_,
      by rw [h2, h.lru_eq]⟩⟩
  intro b hb
  rw [h1] at hb
  rcases h.owned b hb with h0 | ⟨e, he, hre, _⟩
  · exact h0
  · rw [hu e he] at hre
    exact absurd hre (by simp)

theorem err_spec (ticket : Bool) (w0 : World) (bos : List Nat) (r : Int)
    (l : List ttm_validate_buffer) (w : World) (h : SInv w0 bos l w) (hr : r ≠ 0) :
    Exit.spec w0 bos (reserve_err ticket r l w) := by
  rw [reserve_err_eq]
  obtain ⟨hl, hw⟩ := wound_fresh l w h.fresh
  apply err_fini_spec ticket w0 bos r _ _ _ hr
  · rw [hl]
    intro e he
    simp only [List.mem_map] at he
    obtain ⟨a, _, rfl⟩ := he
    exact unres_reserved a
  · rw [hl]
    exact h.backoff (by intro b; rw [hw]) (by rw [hw]) (by rw [hw])

theorem done_spec (env : Env) (ticket : Bool) (w0 : World) (bos : List Nat)
    (l : List ttm_validate_buffer) (w : World) (h : SInv w0 bos l w)
    (hall : ∀ e ∈ l, e.reserved = true) :
    Exit.spec w0 bos (Exit.ret 0
      (ttm_eu_list_ref_sub
        (ttm_eu_del_from_lru_locked env l
          ((if ticket = true then w.emit Event.ww_acquire_done else w).emit
            Event.spin_lock_lru)).1
        ((ttm_eu_del_from_lru_locked env l
          ((if ticket = true then w.emit Event.ww_acquire_done else w).emit
            Event.spin_lock_lru)).2.emit Event.spin_unlock_lru)).1
      (ttm_eu_list_ref_sub
        (ttm_eu_del_from_lru_locked env l
          ((if ticket = true then w.emit Event.ww_acquire_done else w).emit
            Event.spin_lock_lru)).1
        ((ttm_eu_del_from_lru_locked env l
          ((if ticket = true then w.emit Event.ww_acquire_done else w).emit
            Event.spin_lock_lru)).2.emit Event.spin_unlock_lru)).2) := by
  generalize hw3 : (if ticket = true then w.emit Event.ww_acquire_done else w).emit
    Event.spin_lock_lru = w3
  have hw3f : w3.held = w.held ∧ w3.lru = w.lru ∧ w3.sync_obj = w.sync_obj := by
    subst hw3
    cases ticket <;> simp [World.emit]
  obtain ⟨h3h, h3l, h3s⟩ := hw3f
  obtain ⟨hdh, hds, -, -, -⟩ := del_rest env l w3
  have hdl := del_lru env l w3
  rw [ref_sub_fst, ref_sub_snd, del_fst]
  have htargets : del_targets l = l := by
    rw [del_targets, List.filter_eq_self]
    intro e he
    simp [hall e he, (h.fresh e he).1]
  refine ⟨?_, ?_, ?_, fun _ => ⟨?_, ?_, ?_⟩, fun hne => absurd rfl hne⟩
  · rw [List.map_map, ← h.bos_eq, ← del_list_bo env l w3.n_del]
    apply List.map_congr_left
    intro a _
    rfl
  · show ((ttm_eu_del_from_lru_locked env l w3).2.emit Event.spin_unlock_lru).sync_obj = _
    simp only [World.emit]
    rw [hds, h3s, h.sync_eq]
  · intro e he
    simp only [List.mem_map] at he
    obtain ⟨a, _, rfl⟩ := he
    rfl
  · intro e he
    simp only [List.mem_map] at he
    obtain ⟨a, ha, rfl⟩ := he
    obtain ⟨x, hx, hbo, hres, -, hrem, -⟩ := del_list_mem env l _ a ha
    refine ⟨?_, ?_, ?_⟩
    · show a.reserved = true
      rw [hres]; exact hall x hx
    · show a.removed = true
      exact hrem (hall x hx)
    · show ((ttm_eu_del_from_lru_locked env l w3).2.emit Event.spin_unlock_lru).held a.bo = true
      simp only [World.emit]
      rw [hdh, h3h, hbo]
      exact h.locked x hx (hall x hx)
  · intro b hb
    have hb2 : w.held b = true := by
      have : ((ttm_eu_del_from_lru_locked env l w3).2.emit Event.spin_unlock_lru).held b
          = true := hb
      simp only [World.emit] at this
      rw [hdh, h3h] at this
      exact this
    rcases h.owned b hb2 with h0 | ⟨e, he, _, heb⟩
    · exact Or.inl h0
    · right
      rw [← h.bos_eq, ← heb]
      exact List.mem_map_of_mem _ he
  · show ((ttm_eu_del_from_lru_locked env l w3).2.emit Event.spin_unlock_lru).lru = _
    simp only [World.emit]
    rw [hdl, htargets, h3l, h.lru_eq]
    apply List.filter_congr
    intro b _
    rw [← h.bos_eq, Bool.eq_iff_iff]
    simp only [Bool.not_eq_true', List.any_eq_false, decide_eq_true_eq, List.mem_map,
      not_exists, not_and]

theorem retry_spec (env : Env) (hE : env.errno_ok) (ticket : Bool) (w0 : World)
    (bos : List Nat) : ∀ (fuel : Nat) (l : List ttm_validate_buffer) (w : World) (x : Exit),
    SInv w0 bos l w → reserve_retry env ticket fuel l w = some x → Exit.spec w0 bos x := by
  intro fuel
  induction fuel with
  | zero => intro l w x _ h; simp [reserve_retry] at h
  | succ fuel ih =>
    intro l w x hI h
    rw [reserve_retry_succ] at h
    have hw := walk_sinv env hE ticket w0 bos l [] w (by simpa using hI) (by simp)
    cases hwalk : reserve_walk env ticket [] l w with
    | done l1 w1 =>
      rw [hwalk] at h hw
      simp only [Option.some.injEq] at h
      subst h
      exact done_spec env ticket w0 bos l1 w1 hw.1 hw.2
    | retry l1 w1 =>
      rw [hwalk] at h hw
      exact ih l1 w1 x hw h
    | err r l1 w1 =>
      rw [hwalk] at h hw
      simp only [Option.some.injEq] at h
      subst h
      exact err_spec ticket w0 bos r l1 w1 hw.1 hw.2
    | err_fini r l1 w1 =>
      rw [hwalk] at h hw
      simp only [Option.some.injEq] at h
      subst h
      exact err_fini_spec ticket w0 bos r l1 w1 hw.1 hw.2.1 hw.2.2
    | bug l1 w1 =>
      rw [hwalk] at h
      simp only [Option.some.injEq] at h
      subst h
      trivial

theorem reserve_spec (env : Env) (hE : env.errno_ok) (ticket : Bool) (fuel : Nat)
    (l : List ttm_validate_buffer) (w : World) (x : Exit)
    (h : ttm_eu_reserve_buffers env fuel ticket l w = some x) :
    Exit.spec w (l.map (fun e => e.bo)) x := by
  cases l with
  | nil =>
    simp only [ttm_eu_reserve_buffers, Option.some.injEq] at h
    subst h
    simp [Exit.spec]
  | cons a rest =>
    simp only [ttm_eu_reserve_buffers] at h
    refine retry_spec env hE ticket w _ fuel _ _ x ?_ h
    refine ⟨?_, ?_, ?_, ?_, ?_, ?_⟩
    · intro e he
      simp only [List.mem_map, List.mem_cons] at he
      obtain ⟨a, _, rfl⟩ := he
      exact ⟨rfl, rfl⟩
    · intro e he hr
      simp only [List.mem_map, List.mem_cons] at he
      obtain ⟨a, _, rfl⟩ := he
      simp at hr
    · intro b hb
      left
      cases ticket <;> simpa [World.emit] using hb
    · cases ticket <;> simp [World.emit]
    · cases ticket <;> simp [World.emit]
    · simp [List.map_map, Function.comp]

theorem spin_run_append (s : Bool × Bool) (a b : List Event) :
    spin_run s (a ++ b) = (spin_run s a).bind (fun s1 => spin_run s1 b) := by
  induction a generalizing s with
  | nil => rfl
  | cons ev a ih =>
    simp only [List.cons_append, spin_run]
    cases spin_step s ev with
    | none => rfl
    | some s1 => exact ih s1

theorem spin_run_free (s : Bool × Bool) (evs : List Event)
    (h : ∀ ev ∈ evs, spin_free ev = true) : spin_run s evs = some s := by
  induction evs with
  | nil => rfl
  | cons ev evs ih =>
    simp only [List.mem_cons, forall_eq_or_imp] at h
    have : spin_step s ev = some s := by
      have h1 := h.1
      cases ev <;> simp [spin_free] at h1 <;> rfl
    simp only [spin_run, this]
    exact ih h.2

theorem backoff_events_kind (l : List ttm_validate_buffer) :
    ∀ ev ∈ backoff_events l, spin_free ev = true ∧ walk_event ev = true ∧
      is_slow ev = false ∧ (∀ env, is_deadlk env ev = false) := by
  induction l with
  | nil => simp [backoff_events]
  | cons e l ih =>
    intro ev hev
    rw [backoff_events] at hev
    simp only [List.mem_append] at hev
    rcases hev with hev | hev
    · by_cases hr : e.reserved = true
      · by_cases hm : e.removed = true
        · simp only [hr, hm, if_true, List.mem_append, List.mem_singleton] at hev
          rcases hev with rfl | rfl <;> simp [spin_free, walk_event, is_slow, is_deadlk]
        · simp only [Bool.not_eq_true] at hm
          simp only [hr, hm, if_true, Bool.false_eq_true, if_false, List.nil_append,
            List.mem_singleton] at hev
          subst hev
          simp [spin_free, walk_event, is_slow, is_deadlk]
      · simp [hr] at hev
    · exact ih ev hev

theorem ref_events_kind (l : List ttm_validate_buffer) :
    ∀ ev ∈ ref_events l, ∃ b n, ev = Event.list_ref_sub b n := by
  induction l with
  | nil => simp [ref_events]
  | cons e l ih =>
    intro ev hev
    rw [ref_events] at hev
    simp only [List.mem_append] at hev
    rcases hev with hev | hev
    · by_cases hp : e.put_count = 0
      · simp [hp] at hev
      · simp only [ne_eq, hp, not_false_eq_true, if_true, List.mem_singleton] at hev
        exact ⟨_, _, hev⟩
    · exact ih ev hev

theorem spin_run_refs (evs : List Event)
    (h : ∀ ev ∈ evs, ∃ b n, ev = Event.list_ref_sub b n) :
    spin_run (false, false) evs = some (false, false) := by
  induction evs with
  | nil => rfl
  | cons ev evs ih =>
    simp only [List.mem_cons, forall_eq_or_imp] at h
    obtain ⟨b, n, rfl⟩ := h.1
    simp only [spin_run, spin_step, if_true]
    exact ih h.2

theorem countP_eq_zero_of {p : Event → Bool} (evs : List Event)
    (h : ∀ ev ∈ evs, p ev = false) : evs.countP p = 0 := by
  rw [List.countP_eq_zero]
  intro ev hev
  simp [h ev hev]

theorem WalkTrace.nil (env : Env) (ticket : Bool) : WalkTrace env ticket [] :=
  ⟨rfl, by simp, by simp⟩

theorem WalkTrace.append {env : Env} {ticket : Bool} {a b : List Event}
    (ha : WalkTrace env ticket a) (hb : WalkTrace env ticket b) :
    WalkTrace env ticket (a ++ b) := by
  refine ⟨?_, ?_, ?_⟩
  · rw [spin_run_append, ha.spin]; exact hb.spin
  · intro ev hev
    simp only [List.mem_append] at hev
    rcases hev with hev | hev
    · exact ha.kind ev hev
    · exact hb.kind ev hev
  · intro ht
    rw [List.countP_append, List.countP_append, ha.paired ht, hb.paired ht]

theorem wound_world_trace (l : List ttm_validate_buffer) (w1 : World) :
    (wound_world l w1).trace = w1.trace ++ unwind_events l := by
  rw [wound_world, ref_sub_snd, backoff_fst]
  simp [World.emit, backoff_trace, unwind_events]

theorem spin_run_unwind (l : List ttm_validate_buffer) :
    spin_run (false, false) (unwind_events l) = some (false, false) := by
  rw [unwind_events, spin_run_append, spin_run_append, spin_run_append]
  have h1 : spin_run (false, false) [Event.spin_lock_lru] = some (true, false) := rfl
  have h2 := spin_run_free (true, false) (backoff_events l)
    (fun ev hev => (backoff_events_kind l ev hev).1)
  have h3 : spin_run (true, false) [Event.spin_unlock_lru] = some (false, false) := rfl
  rw [h1]
  simp only [Option.bind]
  rw [h2]
  simp only [h3]
  exact spin_run_refs _ (ref_events_kind _)

theorem unwind_kind (l : List ttm_validate_buffer) :
    ∀ ev ∈ unwind_events l, walk_event ev = true ∧ is_slow ev = false ∧
      (∀ env, is_deadlk env ev = false) := by
  intro ev hev
  simp only [unwind_events, List.mem_append, List.mem_singleton] at hev
  rcases hev with ((rfl | hev) | rfl) | hev
  · simp [walk_event, is_slow, is_deadlk]
  · exact (backoff_events_kind l ev hev).2
  · simp [walk_event, is_slow, is_deadlk]
  · obtain ⟨b, n, rfl⟩ := ref_events_kind _ ev hev
    simp [walk_event, is_slow, is_deadlk]

theorem WalkTrace.unwind (env : Env) (ticket : Bool) (l : List ttm_validate_buffer) :
    WalkTrace env ticket (unwind_events l) :=
  ⟨spin_run_unwind l, fun ev hev => (unwind_kind l ev hev).1, fun _ => by
    rw [countP_eq_zero_of _ (fun ev hev => (unwind_kind l ev hev).2.1),
      countP_eq_zero_of _ (fun ev hev => (unwind_kind l ev hev).2.2 env)]⟩

theorem WalkTrace.cpu (env : Env) (ticket : Bool) (b : Nat) (v : Int) :
    WalkTrace env ticket [Event.cpu_writers b v] :=
  ⟨rfl, by simp [walk_event], by simp [is_slow, is_deadlk]⟩

theorem WalkTrace.try_other (env : Env) (ticket : Bool) (b : Nat) (nw : Bool) (r : Int)
    (h : r ≠ -env.EDEADLK) : WalkTrace env ticket [Event.bo_reserve b nw r] :=
  ⟨rfl, by simp [walk_event], by simp [is_slow, is_deadlk, h]⟩

theorem WalkTrace.try_bug (env : Env) (b : Nat) (nw : Bool) (r : Int) :
    WalkTrace env false [Event.bo_reserve b nw r] :=
  ⟨rfl, by simp [walk_event], by simp⟩

theorem WalkTrace.wound (env : Env) (ticket : Bool) (b b2 : Nat) (nw : Bool) (r : Int)
    (l : List ttm_validate_buffer) :
    WalkTrace env ticket
      ([Event.bo_reserve b nw (-env.EDEADLK)] ++ unwind_events l ++ [Event.lock_slow b2 r]) := by
  have hu := WalkTrace.unwind env ticket l
  refine ⟨?_, ?_, ?_⟩
  · rw [spin_run_append, spin_run_append]
    have h1 : spin_run (false, false) [Event.bo_reserve b nw (-env.EDEADLK)] =
        some (false, false) := rfl
    rw [h1]
    simp only [Option.bind]
    rw [hu.spin]
    rfl
  · intro ev hev
    simp only [List.mem_append, List.mem_singleton] at hev
    rcases hev with (rfl | hev) | rfl
    · rfl
    · exact hu.kind ev hev
    · rfl
  · intro ht
    simp only [List.countP_append, hu.paired ht]
    simp [List.countP_cons, is_slow, is_deadlk]
    omega

theorem wound_trace (env : Env) (ticket : Bool) (pos bo : Nat)
    (l : List ttm_validate_buffer) (w1 : World) :
    ∃ evs, (reserve_wound env pos bo l w1).world.trace = w1.trace ++ evs ∧
      ∀ b nw, WalkTrace env ticket ([Event.bo_reserve b nw (-env.EDEADLK)] ++ evs) := by
  rw [reserve_wound_eq]
  have ht := wound_world_trace l w1
  split
  · refine ⟨unwind_events l ++ [Event.lock_slow bo (env.lock_slow (wound_world l w1).n_slow)],
      ?_, ?_⟩
    · simp [Walk.world, ww_mutex_lock_slow_interruptible, ht]
    · intro b nw
      have := WalkTrace.wound env ticket b bo nw (env.lock_slow (wound_world l w1).n_slow) l
      simpa using this
  · have hev : ∃ v, (atomic_read_cpu_writers env bo
        (ww_mutex_lock_slow_interruptible env bo (wound_world l w1)).2).2.trace =
        w1.trace ++ (unwind_events l ++
          [Event.lock_slow bo (env.lock_slow (wound_world l w1).n_slow)] ++
          [Event.cpu_writers bo v]) := by
      exact ⟨env.cpu_writers (ww_mutex_lock_slow_interruptible env bo (wound_world l w1)).2.n_cpu,
        by simp [atomic_read_cpu_writers, ww_mutex_lock_slow_interruptible, ht]⟩
    obtain ⟨v, hv⟩ := hev
    refine ⟨unwind_events l ++
      [Event.lock_slow bo (env.lock_slow (wound_world l w1).n_slow)] ++
      [Event.cpu_writers bo v], ?_, ?_⟩
    · split <;> exact hv
    · intro b nw
      have h1 := WalkTrace.wound env ticket b bo nw (env.lock_slow (wound_world l w1).n_slow) l
      have h2 := h1.append (WalkTrace.cpu env ticket bo v)
      simpa using h2

theorem walk_trace (env : Env) (ticket : Bool) :
    ∀ (rest pre : List ttm_validate_buffer) (w : World),
    ∃ evs, (reserve_walk env ticket pre rest w).world.trace = w.trace ++ evs ∧
      WalkTrace env ticket evs := by
  intro rest
  induction rest with
  | nil =>
    intro pre w
    exact ⟨[], by simp [reserve_walk, Walk.world], WalkTrace.nil env ticket⟩
  | cons e rest ih =>
    intro pre w
    rw [reserve_walk_cons]
    by_cases hr : e.reserved = true
    · rw [if_pos hr]
      exact ih _ w
    · rw [if_neg hr]
      have ht : (__ttm_bo_reserve env e.bo (!ticket) w).2.trace =
          w.trace ++ [Event.bo_reserve e.bo (!ticket) (env.bo_reserve w.n_reserve)] := rfl
      by_cases hd : env.bo_reserve w.n_reserve = -env.EDEADLK
      · rw [if_pos (by simpa [__ttm_bo_reserve] using hd)]
        cases ticket
        · simp only [if_true]
          exact ⟨_, ht, WalkTrace.try_bug env _ _ _⟩
        · simp only [Bool.true_eq_false, if_false]
          obtain ⟨evs, h1, h2⟩ := wound_trace env true pre.length e.bo (pre ++ e :: rest)
            (__ttm_bo_reserve env e.bo (!true) w).2
          refine ⟨[Event.bo_reserve e.bo (!true) (-env.EDEADLK)] ++ evs, ?_, h2 _ _⟩
          rw [h1, ht, hd]
          simp
      · rw [if_neg (by simpa [__ttm_bo_reserve] using hd)]
        have hw1 := WalkTrace.try_other env ticket e.bo (!ticket) _ hd
        by_cases hz : env.bo_reserve w.n_reserve = 0
        · rw [if_neg (by simpa [__ttm_bo_reserve] using hz)]
          have hw2 := hw1.append (WalkTrace.cpu env ticket e.bo
            (env.cpu_writers (__ttm_bo_reserve env e.bo (!ticket) w).2.n_cpu))
          have ht2 : (atomic_read_cpu_writers env e.bo
              (__ttm_bo_reserve env e.bo (!ticket) w).2).2.trace = w.trace ++
              ([Event.bo_reserve e.bo (!ticket) (env.bo_reserve w.n_reserve)] ++
                [Event.cpu_writers e.bo
                  (env.cpu_writers (__ttm_bo_reserve env e.bo (!ticket) w).2.n_cpu)]) := by
            simp [atomic_read_cpu_writers, __ttm_bo_reserve]
          split
          · exact ⟨_, ht2, hw2⟩
          · obtain ⟨evs, h1, h2⟩ := ih (pre ++ [{ e with reserved := true }])
              (atomic_read_cpu_writers env e.bo (__ttm_bo_reserve env e.bo (!ticket) w).2).2
            refine ⟨_ ++ evs, ?_, hw2.append h2⟩
            rw [h1, ht2]
            simp
        · rw [if_pos (by simpa [__ttm_bo_reserve] using hz)]
          exact ⟨_, ht, hw1⟩

theorem del_events_kind (env : Env) (l : List ttm_validate_buffer) (n : Nat) :
    ∀ ev ∈ del_events env n l, ∃ b k, ev = Event.del_from_lru b k := by
  induction l generalizing n with
  | nil => simp [del_events]
  | cons e l ih =>
    intro ev hev
    rw [del_events] at hev
    split at hev
    · simp only [List.mem_cons] at hev
      rcases hev with rfl | hev
      · exact ⟨_, _, rfl⟩
      · exact ih _ ev hev
    · exact ih _ ev hev

theorem err_fini_trace (ticket : Bool) (r : Int) (l : List ttm_validate_buffer) (w : World) :
    (reserve_err_fini ticket r l w).world.trace = w.trace ++
      (if ticket = true then [Event.ww_acquire_done, Event.ww_acquire_fini] else []) ∧
    (reserve_err_fini ticket r l w).code = some r := by
  cases ticket <;> simp [reserve_err_fini, Exit.world, Exit.code, World.emit]

theorem err_trace (ticket : Bool) (r : Int) (l : List ttm_validate_buffer) (w : World) :
    (reserve_err ticket r l w).world.trace = w.trace ++ unwind_events l ++
      (if ticket = true then [Event.ww_acquire_done, Event.ww_acquire_fini] else []) ∧
    (reserve_err ticket r l w).code = some r := by
  rw [reserve_err_eq]
  have h := err_fini_trace ticket r (wound_list l w) (wound_world l w)
  rw [wound_world_trace] at h
  exact h

theorem walk_bug_ticket (env : Env) (ticket : Bool) :
    ∀ (rest pre : List ttm_validate_buffer) (w : World) (l1 : List ttm_validate_buffer)
      (w1 : World), reserve_walk env ticket pre rest w = Walk.bug l1 w1 → ticket = false := by
  intro rest
  induction rest with
  | nil => intro pre w l1 w1 h; simp [reserve_walk] at h
  | cons e rest ih =>
    intro pre w l1 w1 h
    rw [reserve_walk_cons] at h
    cases ticket
    · rfl
    · exfalso
      split at h
      · exact absurd (ih _ _ _ _ h) (by simp)
      · split at h
        · simp only [Bool.true_eq_false, if_false] at h
          rw [reserve_wound_eq] at h
          split at h
          · simp at h
          · split at h <;> simp at h
        · split at h
          · simp at h
          · split at h
            · simp at h
            · exact absurd (ih _ _ _ _ h) (by simp)

theorem retry_trace (env : Env) (hE : env.errno_ok) (ticket : Bool) (w0 : World)
    (bos : List Nat) : ∀ (fuel : Nat) (l : List ttm_validate_buffer) (w : World) (x : Exit),
    SInv w0 bos l w → reserve_retry env ticket fuel l w = some x →
    ∃ evs, x.world.trace = w.trace ++ evs ∧ RetryTrace env ticket x.code evs := by
  intro fuel
  induction fuel with
  | zero => intro l w x _ h; simp [reserve_retry] at h
  | succ fuel ih =>
    intro l w x hI h
    rw [reserve_retry_succ] at h
    have hw := walk_sinv env hE ticket w0 bos l [] w (by simpa using hI) (by simp)
    obtain ⟨body, hb, hwt⟩ := walk_trace env ticket l [] w
    cases hwalk : reserve_walk env ticket [] l w with
    | done l1 w1 =>
      rw [hwalk] at h hw hb
      simp only [Option.some.injEq] at h
      subst h
      simp only [Walk.world] at hb
      refine ⟨body ++ ((if ticket = true then [Event.ww_acquire_done] else []) ++
        [Event.spin_lock_lru] ++ del_events env w1.n_del l1 ++ [Event.spin_unlock_lru] ++
        ref_events (del_list env w1.n_del l1)), ?_, body, _, rfl, hwt, ?_⟩
      · simp only [Exit.world]
        rw [ref_sub_snd, del_fst]
        simp only [World.emit, del_trace]
        cases ticket <;> simp [hb]
      · simp only [Exit.code, TailTrace]
        left
        exact ⟨trivial, _, _, rfl, del_events_kind env l1 _, ref_events_kind _⟩
    | retry l1 w1 =>
      rw [hwalk] at h hw hb
      simp only [Walk.world] at hb
      obtain ⟨evs, h1, body2, tail, h2, h3, h4⟩ := ih l1 w1 x hw h
      refine ⟨body ++ evs, by rw [h1, hb]; simp, body ++ body2, tail, by rw [h2]; simp,
        hwt.append h3, h4⟩
    | err r l1 w1 =>
      rw [hwalk] at h hw hb
      simp only [Option.some.injEq] at h
      subst h
      simp only [Walk.world] at hb
      obtain ⟨h1, h2⟩ := err_trace ticket r l1 w1
      refine ⟨body ++ unwind_events l1 ++
        (if ticket = true then [Event.ww_acquire_done, Event.ww_acquire_fini] else []),
        by rw [h1, hb]; simp, body ++ unwind_events l1, _, rfl,
        hwt.append (WalkTrace.unwind env ticket l1), ?_⟩
      rw [h2]
      exact Or.inr ⟨hw.2, rfl⟩
    | err_fini r l1 w1 =>
      rw [hwalk] at h hw hb
      simp only [Option.some.injEq] at h
      subst h
      simp only [Walk.world] at hb
      obtain ⟨h1, h2⟩ := err_fini_trace ticket r l1 w1
      refine ⟨body ++
        (if ticket = true then [Event.ww_acquire_done, Event.ww_acquire_fini] else []),
        by rw [h1, hb]; simp, body, _, rfl, hwt, ?_⟩
      rw [h2]
      exact Or.inr ⟨hw.2.1, rfl⟩
    | bug l1 w1 =>
      rw [hwalk] at h hb
      simp only [Option.some.injEq] at h
      subst h
      simp only [Walk.world] at hb
      refine ⟨body, hb, body, [], by simp, hwt, ?_⟩
      simp only [Exit.code, TailTrace]
      exact ⟨walk_bug_ticket env ticket l [] w l1 w1 hwalk, trivial⟩

theorem reserve_trace (env : Env) (hE : env.errno_ok) (ticket : Bool) (fuel : Nat)
    (l : List ttm_validate_buffer) (w : World) (x : Exit) (hne : l ≠ [])
    (h : ttm_eu_reserve_buffers env fuel ticket l w = some x) :
    ∃ evs, x.world.trace =
        w.trace ++ (if ticket = true then [Event.ww_acquire_init] else []) ++ evs ∧
      RetryTrace env ticket x.code evs := by
  cases l with
  | nil => exact absurd rfl hne
  | cons a rest =>
    simp only [ttm_eu_reserve_buffers] at h
    have hI : SInv w ((a :: rest).map (fun e => e.bo))
        ((a :: rest).map (fun entry =>
          { entry with reserved := false, put_count := 0, removed := false }))
        (if ticket = true then w.emit Event.ww_acquire_init else w) := by
      refine ⟨?_, ?_, ?_, ?_, ?_, ?_⟩
      · intro e he
        simp only [List.mem_map, List.mem_cons] at he
        obtain ⟨a, _, rfl⟩ := he
        exact ⟨rfl, rfl⟩
      · intro e he hr
        simp only [List.mem_map, List.mem_cons] at he
        obtain ⟨a, _, rfl⟩ := he
        simp at hr
      · intro b hb
        left
        cases ticket <;> simpa [World.emit] using hb
      · cases ticket <;> simp [World.emit]
      · cases ticket <;> simp [World.emit]
      · simp [List.map_map, Function.comp]
    obtain ⟨evs, h1, h2⟩ := retry_trace env hE ticket w _ fuel _ _ x hI h
    refine ⟨evs, ?_, h2⟩
    rw [h1]
    cases ticket <;> simp [World.emit]

/-- C1: when `ttm_eu_reserve_buffers` returns 0, the list names the same objects
as at the call, and every entry has `reserved` and `removed` set and the batch
holds the reservation lock of the entry's object; this for every list, with or
without a ticket, and for every sequence of answers of the primitives. -/
theorem reserve_ok_all_reserved (env : Env) (hE : env.errno_ok) (fuel : Nat) (ticket : Bool)
    (l : List ttm_validate_buffer) (w : World) (l1 : List ttm_validate_buffer) (w1 : World)
    (h : ttm_eu_reserve_buffers env fuel ticket l w = some (Exit.ret 0 l1 w1)) :
    l1.map (fun e => e.bo) = l.map (fun e => e.bo) ∧
    ∀ e ∈ l1, e.reserved = true ∧ e.removed = true ∧ w1.held e.bo = true := by
  have hs := reserve_spec env hE ticket fuel l w _ h
  exact ⟨hs.1, (hs.2.2.2.1 rfl).1⟩

theorem reserve_ok_all_reserved_witness :
    (exit_of demo_env 2 true demo_list demo_world).list.map (fun e => e.bo) =
      demo_list.map (fun e => e.bo) ∧
    ∀ e ∈ (exit_of demo_env 2 true demo_list demo_world).list,
      e.reserved = true ∧ e.removed = true ∧
      (exit_of demo_env 2 true demo_list demo_world).world.held e.bo = true :=
  reserve_ok_all_reserved demo_env (by decide) 2 true demo_list demo_world
    (exit_of demo_env 2 true demo_list demo_world).list
    (exit_of demo_env 2 true demo_list demo_world).world rfl

/-- C2: when `ttm_eu_reserve_buffers` returns a nonzero value, called by a batch
that holds no reservation lock, then every entry has `reserved` and `removed`
clear and `put_count` 0, the batch holds no reservation lock, the LRU list is
the one of the call, and with a ticket the calls made are `ww_acquire_init`,
then calls that do not finalize, then `ww_acquire_done` and `ww_acquire_fini`. -/
theorem reserve_fail_rolled_back (env : Env) (hE : env.errno_ok) (fuel : Nat) (ticket : Bool)
    (l : List ttm_validate_buffer) (w : World) (r : Int) (l1 : List ttm_validate_buffer)
    (w1 : World) (hfree : ∀ b, w.held b = false) (hr : r ≠ 0)
    (h : ttm_eu_reserve_buffers env fuel ticket l w = some (Exit.ret r l1 w1)) :
    l1.map (fun e => e.bo) = l.map (fun e => e.bo) ∧
    (∀ e ∈ l1, e.reserved = false ∧ e.removed = false ∧ e.put_count = 0) ∧
    (∀ b, w1.held b = false) ∧
    w1.lru = w.lru ∧
    (ticket = true → ∃ evs, w1.trace = w.trace ++ [Event.ww_acquire_init] ++ evs ++
      [Event.ww_acquire_done, Event.ww_acquire_fini] ∧ Event.ww_acquire_fini ∉ evs) := by
  have hs := reserve_spec env hE ticket fuel l w _ h
  obtain ⟨h1, -, h3, -, h5⟩ := hs
  obtain ⟨h5a, h5b, h5c⟩ := h5 hr
  refine ⟨h1, fun e he => ⟨(h5a e he).1, (h5a e he).2, h3 e he⟩, ?_, h5c, ?_⟩
  · intro b
    cases hb : w1.held b with
    | false => rfl
    | true => rw [← hfree b]; exact (h5b b hb).symm
  · intro ht
    have hne : l ≠ [] := by
      rintro rfl
      simp only [ttm_eu_reserve_buffers, Option.some.injEq, Exit.ret.injEq] at h
      exact hr h.1.symm
    obtain ⟨evs, h6, body, tail, h7, h8, h9⟩ := reserve_trace env hE ticket fuel l w _ hne h
    simp only [Exit.code, TailTrace] at h9
    rcases h9 with ⟨h0, -⟩ | ⟨-, h9⟩
    · exact absurd h0 hr
    · refine ⟨body, ?_, ?_⟩
      · simp only [Exit.world] at h6
        rw [h6, h7, h9]
        simp [ht]
      · intro hmem
        have := h8.kind _ hmem
        simp [walk_event] at this

theorem reserve_fail_rolled_back_witness :
    (exit_of demo_env_busy 2 true demo_list demo_world).list.map (fun e => e.bo) =
      demo_list.map (fun e => e.bo) ∧
    (∀ e ∈ (exit_of demo_env_busy 2 true demo_list demo_world).list,
      e.reserved = false ∧ e.removed = false ∧ e.put_count = 0) ∧
    (∀ b, (exit_of demo_env_busy 2 true demo_list demo_world).world.held b = false) ∧
    (exit_of demo_env_busy 2 true demo_list demo_world).world.lru = demo_world.lru ∧
    (true = true → ∃ evs, (exit_of demo_env_busy 2 true demo_list demo_world).world.trace =
      demo_world.trace ++ [Event.ww_acquire_init] ++ evs ++
        [Event.ww_acquire_done, Event.ww_acquire_fini] ∧ Event.ww_acquire_fini ∉ evs) :=
  reserve_fail_rolled_back demo_env_busy (by decide) 2 true demo_list demo_world (-16)
    (exit_of demo_env_busy 2 true demo_list demo_world).list
    (exit_of demo_env_busy 2 true demo_list demo_world).world (fun _ => rfl) (by decide) rfl

theorem backoff_lru_mem (l : List ttm_validate_buffer) (lru : List Nat) (b : Nat) :
    b ∈ backoff_lru l lru ↔
      b ∈ lru ∨ ∃ e ∈ l, e.reserved = true ∧ e.removed = true ∧ e.bo = b := by
  induction l generalizing lru with
  | nil => simp [backoff_lru]
  | cons a l ih =>
    rw [backoff_lru, ih]
    by_cases hc : a.reserved = true ∧ a.removed = true
    · simp only [hc, and_self, if_true, List.mem_cons, exists_eq_or_imp, true_and]
      constructor
      · rintro ((rfl | h) | h)
        · exact Or.inr (Or.inl rfl)
        · exact Or.inl h
        · exact Or.inr (Or.inr h)
      · rintro (h | h | h)
        · exact Or.inl (Or.inr h)
        · exact Or.inl (Or.inl h.symm)
        · exact Or.inr h
    · simp only [hc, if_false, List.mem_cons, exists_eq_or_imp]
      constructor
      · rintro (h | h)
        · exact Or.inl h
        · exact Or.inr (Or.inr h)
      · rintro (h | ⟨h1, h2, _⟩ | h)
        · exact Or.inl h
        · exact absurd ⟨h1, h2⟩ hc
        · exact Or.inr h

theorem backoff_call (ticket : Bool) (l : List ttm_validate_buffer) (w : World) :
    (ttm_eu_backoff_reservation ticket l w).1 = l.map unres ∧
    (∀ b, (ttm_eu_backoff_reservation ticket l w).2.held b =
      (w.held b && !(l.any (fun e => e.reserved && decide (e.bo = b))))) ∧
    (ttm_eu_backoff_reservation ticket l w).2.lru = backoff_lru l w.lru ∧
    (ttm_eu_backoff_reservation ticket l w).2.sync_obj = w.sync_obj ∧
    (ttm_eu_backoff_reservation ticket l w).2.trace = w.trace ++ backoff_call_events ticket l := by
  cases l with
  | nil => simp [ttm_eu_backoff_reservation, backoff_lru, backoff_call_events]
  | cons a l =>
    have e1 : ttm_eu_backoff_reservation ticket (a :: l) w =
        ((ttm_eu_backoff_reservation_locked (a :: l) (w.emit Event.spin_lock_lru)).1,
          (if ticket = true then
            (ttm_eu_backoff_reservation_locked (a :: l)
              (w.emit Event.spin_lock_lru)).2.emit Event.ww_acquire_fini
           else (ttm_eu_backoff_reservation_locked (a :: l)
              (w.emit Event.spin_lock_lru)).2).emit Event.spin_unlock_lru) := rfl
    rw [e1]
    have h1 := backoff_fst (a :: l) (w.emit Event.spin_lock_lru)
    have h2 := backoff_held (a :: l) (w.emit Event.spin_lock_lru)
    have h3 := backoff_lru_eq (a :: l) (w.emit Event.spin_lock_lru)
    have h4 := backoff_rest (a :: l) (w.emit Event.spin_lock_lru)
    have h5 := backoff_trace (a :: l) (w.emit Event.spin_lock_lru)
    refine ⟨h1, ?_, ?_, ?_, ?_⟩
    · intro b
      have := h2 b
      cases ticket <;> simpa [World.emit] using this
    · cases ticket <;> simpa [World.emit] using h3
    · cases ticket <;> simpa [World.emit] using h4.1
    · cases ticket
      · show (ttm_eu_backoff_reservation_locked (a :: l)
          (w.emit Event.spin_lock_lru)).2.trace ++ [Event.spin_unlock_lru] = _
        rw [h5]
        simp [World.emit, backoff_call_events]
      · show ((ttm_eu_backoff_reservation_locked (a :: l)
          (w.emit Event.spin_lock_lru)).2.trace ++ [Event.ww_acquire_fini]) ++
            [Event.spin_unlock_lru] = _
        rw [h5]
        simp [World.emit, backoff_call_events]

/-- C3: after `ttm_eu_backoff_reservation` on the list a call of
`ttm_eu_reserve_buffers` left, whatever that call returned, every entry has
`reserved` and `removed` clear, its object is on the LRU list and its lock is
not held by the batch; the objects were on the LRU list and the batch held no
lock when `ttm_eu_reserve_buffers` was called. -/
theorem backoff_after_reserve (env : Env) (hE : env.errno_ok) (fuel : Nat) (ticket : Bool)
    (l : List ttm_validate_buffer) (w : World) (r : Int) (l1 : List ttm_validate_buffer)
    (w1 : World) (hfree : ∀ b, w.held b = false) (hlru : ∀ e ∈ l, e.bo ∈ w.lru)
    (h : ttm_eu_reserve_buffers env fuel ticket l w = some (Exit.ret r l1 w1)) :
    (ttm_eu_backoff_reservation ticket l1 w1).1.map (fun e => e.bo) =
      l.map (fun e => e.bo) ∧
    ∀ e ∈ (ttm_eu_backoff_reservation ticket l1 w1).1,
      e.reserved = false ∧ e.removed = false ∧
      e.bo ∈ (ttm_eu_backoff_reservation ticket l1 w1).2.lru ∧
      (ttm_eu_backoff_reservation ticket l1 w1).2.held e.bo = false := by
  obtain ⟨hs1, -, -, hs0, hsn⟩ := reserve_spec env hE ticket fuel l w _ h
  obtain ⟨hb1, hb2, hb3, -, -⟩ := backoff_call ticket l1 w1
  rw [hb1, hb3]
  have hbo : ∀ a ∈ l1, ∃ x ∈ l, x.bo = a.bo := by
    intro a ha
    have : a.bo ∈ l.map (fun e => e.bo) := by
      rw [← hs1]; exact List.mem_map_of_mem _ ha
    simpa using this
  refine ⟨?_, ?_⟩
  · rw [← hs1, List.map_map]
    apply List.map_congr_left
    intro a _
    exact unres_bo a
  · intro e he
    simp only [List.mem_map] at he
    obtain ⟨a, ha, rfl⟩ := he
    rw [hb2, unres_bo, backoff_lru_mem]
    by_cases hr : r = 0
    · obtain ⟨h0, -, -⟩ := hs0 hr
      obtain ⟨har, ham, -⟩ := h0 a ha
      refine ⟨unres_reserved a, by simp [unres, har], Or.inr ⟨a, ha, har, ham, rfl⟩, ?_⟩
      have : l1.any (fun e => e.reserved && decide (e.bo = a.bo)) = true := by
        rw [List.any_eq_true]
        exact ⟨a, ha, by simp [har]⟩
      simp [this]
    · obtain ⟨h0, h1, h2⟩ := hsn hr
      obtain ⟨x, hx, hxb⟩ := hbo a ha
      refine ⟨unres_reserved a, unres_removed a (h0 a ha).2, Or.inl ?_, ?_⟩
      · rw [h2, ← hxb]; exact hlru x hx
      · have : w1.held a.bo = false := by
          cases hb : w1.held a.bo with
          | false => rfl
          | true => rw [← hfree a.bo]; exact (h1 _ hb).symm
        simp [this]

theorem backoff_after_reserve_witness :
    (ttm_eu_backoff_reservation true (exit_of demo_env_busy 2 true demo_list demo_world).list
      (exit_of demo_env_busy 2 true demo_list demo_world).world).1.map (fun e => e.bo) =
      demo_list.map (fun e => e.bo) ∧
    ∀ e ∈ (ttm_eu_backoff_reservation true
        (exit_of demo_env_busy 2 true demo_list demo_world).list
        (exit_of demo_env_busy 2 true demo_list demo_world).world).1,
      e.reserved = false ∧ e.removed = false ∧
      e.bo ∈ (ttm_eu_backoff_reservation true
        (exit_of demo_env_busy 2 true demo_list demo_world).list
        (exit_of demo_env_busy 2 true demo_list demo_world).world).2.lru ∧
      (ttm_eu_backoff_reservation true
        (exit_of demo_env_busy 2 true demo_list demo_world).list
        (exit_of demo_env_busy 2 true demo_list demo_world).world).2.held e.bo = false :=
  backoff_after_reserve demo_env_busy (by decide) 2 true demo_list demo_world (-16)
    (exit_of demo_env_busy 2 true demo_list demo_world).list
    (exit_of demo_env_busy 2 true demo_list demo_world).world (fun _ => rfl) (by decide) rfl

theorem fence_loop_fst (env : Env) (sync_obj : Option Nat) (l : List ttm_validate_buffer)
    (w : World) :
    (fence_loop env sync_obj l w).1 = fence_list (env.sync_obj_ref sync_obj) w.sync_obj l := by
  induction l generalizing w with
  | nil => rfl
  | cons e rest ih =>
    rw [fence_loop]
    simp [ih, fence_list, World.emit, ttm_bo_add_to_lru, __ttm_bo_unreserve]

theorem fence_loop_trace (env : Env) (sync_obj : Option Nat) (l : List ttm_validate_buffer)
    (w : World) :
    (fence_loop env sync_obj l w).2.trace = w.trace ++ fence_events sync_obj l := by
  induction l generalizing w with
  | nil => simp [fence_loop, fence_events]
  | cons e rest ih =>
    rw [fence_loop]
    simp [ih, fence_events, World.emit, ttm_bo_add_to_lru, __ttm_bo_unreserve]

theorem fence_loop_held (env : Env) (sync_obj : Option Nat) (l : List ttm_validate_buffer)
    (w : World) (b : Nat) :
    (fence_loop env sync_obj l w).2.held b =
      (w.held b && !(l.any (fun e => decide (e.bo = b)))) := by
  induction l generalizing w with
  | nil => simp [fence_loop]
  | cons e rest ih =>
    rw [fence_loop]
    simp only []
    rw [ih]
    by_cases hb : b = e.bo <;>
      simp [hb, World.emit, ttm_bo_add_to_lru, __ttm_bo_unreserve, eq_comm]

theorem fence_loop_lru (env : Env) (sync_obj : Option Nat) (l : List ttm_validate_buffer)
    (w : World) (b : Nat) :
    b ∈ (fence_loop env sync_obj l w).2.lru ↔ b ∈ w.lru ∨ ∃ e ∈ l, e.bo = b := by
  induction l generalizing w with
  | nil => simp [fence_loop]
  | cons e rest ih =>
    rw [fence_loop]
    simp only []
    rw [ih]
    simp only [World.emit, ttm_bo_add_to_lru, __ttm_bo_unreserve, List.mem_cons,
      exists_eq_or_imp]
    constructor
    · rintro ((rfl | h) | h)
      · exact Or.inr (Or.inl rfl)
      · exact Or.inl h
      · exact Or.inr (Or.inr h)
    · rintro (h | h | h)
      · exact Or.inl (Or.inr h)
      · exact Or.inl (Or.inl h.symm)
      · exact Or.inr h

theorem fence_loop_sync (env : Env) (sync_obj : Option Nat) (l : List ttm_validate_buffer)
    (w : World) (b : Nat) :
    (fence_loop env sync_obj l w).2.sync_obj b =
      if l.any (fun e => decide (e.bo = b)) = true then env.sync_obj_ref sync_obj
      else w.sync_obj b := by
  induction l generalizing w with
  | nil => simp [fence_loop]
  | cons e rest ih =>
    rw [fence_loop]
    simp only []
    rw [ih]
    by_cases hb : b = e.bo
    · subst hb
      simp [World.emit, ttm_bo_add_to_lru, __ttm_bo_unreserve]
    · have hb2 : ¬ e.bo = b := fun h => hb h.symm
      simp [hb, hb2, World.emit, ttm_bo_add_to_lru, __ttm_bo_unreserve]

theorem unref_loop_trace (env : Env) (l : List ttm_validate_buffer) (w : World) :
    (fence_unref_loop env l w).2 = { w with trace := w.trace ++ unref_events l } := by
  induction l generalizing w with
  | nil => simp [fence_unref_loop, unref_events]
  | cons e rest ih =>
    rw [fence_unref_loop, unref_events]
    cases e.old_sync_obj with
    | none => simp [ih]
    | some tok => simp [ih, World.emit]

theorem fence_list_mem (tok : Option Nat) (l : List ttm_validate_buffer)
    (s : Nat → Option Nat) (e : ttm_validate_buffer) (h : e ∈ fence_list tok s l) :
    e.reserved = false ∧ ∃ a ∈ l, e.bo = a.bo ∧ e.removed = a.removed ∧
      e.put_count = a.put_count := by
  induction l generalizing s with
  | nil => simp [fence_list] at h
  | cons a rest ih =>
    rw [fence_list] at h
    simp only [List.mem_cons] at h
    rcases h with rfl | h
    · exact ⟨rfl, a, by simp, rfl, rfl, rfl⟩
    · obtain ⟨h1, x, hx, hp⟩ := ih _ h
      exact ⟨h1, x, by simp [hx], hp⟩

theorem fence_list_bo (tok : Option Nat) (l : List ttm_validate_buffer)
    (s : Nat → Option Nat) :
    (fence_list tok s l).map (fun e => e.bo) = l.map (fun e => e.bo) := by
  induction l generalizing s with
  | nil => rfl
  | cons a rest ih => simp [fence_list, ih]

theorem unref_events_fence_list (tok : Option Nat) (l : List ttm_validate_buffer)
    (s : Nat → Option Nat) (hd : (l.map (fun e => e.bo)).Nodup) :
    (unref_events (fence_list tok s l)).filterMap unref_tok =
      l.filterMap (fun e => s e.bo) ∧
    ∀ ev ∈ unref_events (fence_list tok s l), ∃ t, ev = Event.sync_obj_unref t := by
  induction l generalizing s with
  | nil => simp [fence_list, unref_events]
  | cons a rest ih =>
    simp only [List.map_cons, List.nodup_cons] at hd
    obtain ⟨h1, h2⟩ := ih (fun b => if b = a.bo then tok else s b) hd.2
    have hcongr : rest.filterMap (fun e => if e.bo = a.bo then tok else s e.bo) =
        rest.filterMap (fun e => s e.bo) := by
      apply List.filterMap_congr
      intro e he
      have : e.bo ≠ a.bo := by
        intro heq
        exact hd.1 (by rw [← heq]; exact List.mem_map_of_mem _ he)
      simp [this]
    rw [hcongr] at h1
    rw [fence_list, unref_events]
    cases hs : s a.bo with
    | none =>
      simp only [hs]
      exact ⟨by rw [h1, List.filterMap_cons, hs], h2⟩
    | some t =>
      simp only [hs]
      refine ⟨by rw [List.filterMap_cons, List.filterMap_cons, hs, h1]; rfl, ?_⟩
      intro ev hev
      simp only [List.mem_cons] at hev
      rcases hev with rfl | hev
      · exact ⟨t, rfl⟩
      · exact h2 ev hev

theorem unref_loop_fst (env : Env) (l : List ttm_validate_buffer) (w : World) :
    (fence_unref_loop env l w).1 = unref_list env l := by
  induction l generalizing w with
  | nil => rfl
  | cons e rest ih =>
    rw [fence_unref_loop, unref_list]
    cases e.old_sync_obj with
    | none => simp [ih]
    | some tok => simp [ih]

theorem fence_call (env : Env) (ticket : Bool) (l : List ttm_validate_buffer)
    (tok : Option Nat) (w : World) :
    (ttm_eu_fence_buffer_objects env ticket l tok w).1 =
      unref_list env (fence_list (env.sync_obj_ref tok) w.sync_obj l) ∧
    (∀ b, (ttm_eu_fence_buffer_objects env ticket l tok w).2.held b =
      (w.held b && !(l.any (fun e => decide (e.bo = b))))) ∧
    (∀ b, b ∈ (ttm_eu_fence_buffer_objects env ticket l tok w).2.lru ↔
      b ∈ w.lru ∨ ∃ e ∈ l, e.bo = b) ∧
    (∀ b, (ttm_eu_fence_buffer_objects env ticket l tok w).2.sync_obj b =
      if l.any (fun e => decide (e.bo = b)) = true then env.sync_obj_ref tok
      else w.sync_obj b) ∧
    (l ≠ [] → (ttm_eu_fence_buffer_objects env ticket l tok w).2.trace = w.trace ++
      fence_call_events ticket tok l (fence_list (env.sync_obj_ref tok) w.sync_obj l)) := by
  cases l with
  | nil => simp [ttm_eu_fence_buffer_objects, fence_list, unref_list]
  | cons a l =>
    have e1 : ttm_eu_fence_buffer_objects env ticket (a :: l) tok w =
        fence_unref_loop env
          (fence_loop env tok (a :: l)
            ((w.emit Event.spin_lock_lru).emit Event.spin_lock_fence)).1
          (if ticket = true then
            (((fence_loop env tok (a :: l)
              ((w.emit Event.spin_lock_lru).emit Event.spin_lock_fence)).2.emit
                Event.spin_unlock_fence).emit Event.spin_unlock_lru).emit Event.ww_acquire_fini
           else
            ((fence_loop env tok (a :: l)
              ((w.emit Event.spin_lock_lru).emit Event.spin_lock_fence)).2.emit
                Event.spin_unlock_fence).emit Event.spin_unlock_lru) := rfl
    have hl : (fence_loop env tok (a :: l)
        ((w.emit Event.spin_lock_lru).emit Event.spin_lock_fence)).1 =
        fence_list (env.sync_obj_ref tok) w.sync_obj (a :: l) :=
      fence_loop_fst env tok (a :: l) _
    have h2 := fence_loop_held env tok (a :: l)
      ((w.emit Event.spin_lock_lru).emit Event.spin_lock_fence)
    have h3 := fence_loop_lru env tok (a :: l)
      ((w.emit Event.spin_lock_lru).emit Event.spin_lock_fence)
    have h4 := fence_loop_sync env tok (a :: l)
      ((w.emit Event.spin_lock_lru).emit Event.spin_lock_fence)
    have h5 := fence_loop_trace env tok (a :: l)
      ((w.emit Event.spin_lock_lru).emit Event.spin_lock_fence)
    rw [e1, hl, unref_loop_trace, unref_loop_fst]
    generalize (fence_loop env tok (a :: l)
      ((w.emit Event.spin_lock_lru).emit Event.spin_lock_fence)).2 = w2 at h2 h3 h4 h5
    simp only [World.emit] at h2 h3 h4 h5
    refine ⟨rfl, ?_, ?_, ?_, ?_⟩
    · intro b
      rw [← h2 b]
      cases ticket <;> rfl
    · intro b
      rw [← h3 b]
      cases ticket <;> exact Iff.rfl
    · intro b
      rw [← h4 b]
      cases ticket <;> rfl
    · intro _
      cases ticket
      · show ((w2.trace ++ [Event.spin_unlock_fence]) ++ [Event.spin_unlock_lru]) ++ _ = _
        rw [h5]
        simp [fence_call_events]
      · show (((w2.trace ++ [Event.spin_unlock_fence]) ++ [Event.spin_unlock_lru]) ++
          [Event.ww_acquire_fini]) ++ _ = _
        rw [h5]
        simp [fence_call_events]

theorem unref_list_mem (env : Env) (l : List ttm_validate_buffer)
    (e : ttm_validate_buffer) (h : e ∈ unref_list env l) :
    ∃ a ∈ l, e.bo = a.bo ∧ e.reserved = a.reserved ∧ e.removed = a.removed ∧
      e.put_count = a.put_count := by
  induction l with
  | nil => simp [unref_list] at h
  | cons a rest ih =>
    rw [unref_list] at h
    cases hs : a.old_sync_obj with
    | none =>
      simp only [hs, List.mem_cons] at h
      rcases h with rfl | h
      · exact ⟨e, by simp, rfl, rfl, rfl, rfl⟩
      · obtain ⟨x, hx, hp⟩ := ih h
        exact ⟨x, by simp [hx], hp⟩
    | some tok =>
      simp only [hs, List.mem_cons] at h
      rcases h with rfl | h
      · exact ⟨a, by simp, rfl, rfl, rfl, rfl⟩
      · obtain ⟨x, hx, hp⟩ := ih h
        exact ⟨x, by simp [hx], hp⟩

theorem fence_events_refs (tok : Option Nat) (l : List ttm_validate_buffer) :
    (fence_events tok l).filter is_ref = List.replicate l.length (Event.sync_obj_ref tok) ∧
    (fence_events tok l).filterMap unref_tok = [] := by
  induction l with
  | nil => simp [fence_events]
  | cons a rest ih =>
    rw [fence_events, List.filter_append, List.filterMap_append, ih.1, ih.2]
    simp [List.filter_cons, is_ref, unref_tok, List.replicate_succ]

theorem unref_events_not_ref (l : List ttm_validate_buffer) :
    (unref_events l).filter is_ref = [] := by
  induction l with
  | nil => simp [unref_events]
  | cons a rest ih =>
    rw [unref_events]
    cases a.old_sync_obj with
    | none => simpa using ih
    | some t => simpa [List.filter_cons, is_ref] using ih

/-- C4: after `ttm_eu_fence_buffer_objects` on a list of distinct objects that
`ttm_eu_reserve_buffers` reserved, with a driver whose `sync_obj_ref` answers
the token it is given, every object of the list has the token as `sync_obj`, is
on the LRU list and is not reserved by the batch; among the calls made,
`sync_obj_ref` is made once per entry, on the token, and the `sync_obj_unref`
calls are, in list order, one on the previous sync object of each entry whose
object had one, and none else. -/
theorem fence_after_reserve (env : Env) (hE : env.errno_ok) (fuel : Nat) (ticket : Bool)
    (l : List ttm_validate_buffer) (w : World) (l1 : List ttm_validate_buffer) (w1 : World)
    (tok : Option Nat) (hd : (l.map (fun e => e.bo)).Nodup)
    (href : env.sync_obj_ref tok = tok)
    (h : ttm_eu_reserve_buffers env fuel ticket l w = some (Exit.ret 0 l1 w1)) :
    l1.map (fun e => e.bo) = l.map (fun e => e.bo) ∧
    (∀ e ∈ l1,
      (ttm_eu_fence_buffer_objects env ticket l1 tok w1).2.sync_obj e.bo = tok ∧
      e.bo ∈ (ttm_eu_fence_buffer_objects env ticket l1 tok w1).2.lru ∧
      (ttm_eu_fence_buffer_objects env ticket l1 tok w1).2.held e.bo = false) ∧
    ∃ evs, (ttm_eu_fence_buffer_objects env ticket l1 tok w1).2.trace = w1.trace ++ evs ∧
      evs.filter is_ref = List.replicate l1.length (Event.sync_obj_ref tok) ∧
      evs.filterMap unref_tok = l1.filterMap (fun e => w1.sync_obj e.bo) := by
  obtain ⟨hbo, -⟩ := reserve_spec env hE ticket fuel l w _ h
  obtain ⟨-, f2, f3, f4, f5⟩ := fence_call env ticket l1 tok w1
  refine ⟨hbo, ?_, ?_⟩
  · intro e he
    have hany : l1.any (fun x => decide (x.bo = e.bo)) = true := by
      rw [List.any_eq_true]
      exact ⟨e, he, by simp⟩
    refine ⟨?_, ?_, ?_⟩
    · rw [f4, if_pos hany, href]
    · rw [f3]; exact Or.inr ⟨e, he, rfl⟩
    · rw [f2, hany]; simp
  · by_cases hne : l1 = []
    · subst hne
      exact ⟨[], by simp [ttm_eu_fence_buffer_objects], by simp, by simp⟩
    · refine ⟨_, f5 hne, ?_, ?_⟩
      · simp only [fence_call_events, List.filter_append, (fence_events_refs tok l1).1,
          unref_events_not_ref]
        cases ticket <;> simp [List.filter_cons, is_ref]
      · have hd1 : (l1.map (fun e => e.bo)).Nodup := by rw [hbo]; exact hd
        simp only [fence_call_events, List.filterMap_append, (fence_events_refs tok l1).2,
          (unref_events_fence_list _ l1 w1.sync_obj hd1).1]
        cases ticket <;> simp [List.filterMap_cons, unref_tok]

theorem fence_after_reserve_witness :
    (exit_of demo_env 2 true demo_list demo_world).list.map (fun e => e.bo) =
      demo_list.map (fun e => e.bo) ∧
    (∀ e ∈ (exit_of demo_env 2 true demo_list demo_world).list,
      (ttm_eu_fence_buffer_objects demo_env true
        (exit_of demo_env 2 true demo_list demo_world).list (some 9)
        (exit_of demo_env 2 true demo_list demo_world).world).2.sync_obj e.bo = some 9 ∧
      e.bo ∈ (ttm_eu_fence_buffer_objects demo_env true
        (exit_of demo_env 2 true demo_list demo_world).list (some 9)
        (exit_of demo_env 2 true demo_list demo_world).world).2.lru ∧
      (ttm_eu_fence_buffer_objects demo_env true
        (exit_of demo_env 2 true demo_list demo_world).list (some 9)
        (exit_of demo_env 2 true demo_list demo_world).world).2.held e.bo = false) ∧
    ∃ evs, (ttm_eu_fence_buffer_objects demo_env true
        (exit_of demo_env 2 true demo_list demo_world).list (some 9)
        (exit_of demo_env 2 true demo_list demo_world).world).2.trace =
        (exit_of demo_env 2 true demo_list demo_world).world.trace ++ evs ∧
      evs.filter is_ref =
        List.replicate (exit_of demo_env 2 true demo_list demo_world).list.length
          (Event.sync_obj_ref (some 9)) ∧
      evs.filterMap unref_tok =
        (exit_of demo_env 2 true demo_list demo_world).list.filterMap
          (fun e => (exit_of demo_env 2 true demo_list demo_world).world.sync_obj e.bo) :=
  fence_after_reserve demo_env (by decide) 2 true demo_list demo_world
    (exit_of demo_env 2 true demo_list demo_world).list
    (exit_of demo_env 2 true demo_list demo_world).world (some 9) (by decide) rfl rfl

/-- C5, as stated, fails: after a successful `ttm_eu_reserve_buffers` (it returns
0), `ttm_eu_fence_buffer_objects` leaves entries that do not have `removed`
clear. -/
theorem fence_leaves_removed :
    (exit_of demo_env 2 true demo_list demo_world).code = some 0 ∧
    ¬ ∀ e ∈ (ttm_eu_fence_buffer_objects demo_env true
        (exit_of demo_env 2 true demo_list demo_world).list (some 9)
        (exit_of demo_env 2 true demo_list demo_world).world).1,
      e.reserved = false ∧ e.removed = false ∧ e.put_count = 0 := by
  decide

/-- C5, amended: on a list that `ttm_eu_reserve_buffers` reserved,
`ttm_eu_backoff_reservation` leaves every entry with `reserved` and `removed`
clear and `put_count` 0, and `ttm_eu_fence_buffer_objects` leaves every entry
with `reserved` clear and `put_count` 0 and with `removed` still set, as
`ttm_eu_reserve_buffers` left it. -/
theorem release_after_reserve (env : Env) (hE : env.errno_ok) (fuel : Nat) (ticket : Bool)
    (l : List ttm_validate_buffer) (w : World) (l1 : List ttm_validate_buffer) (w1 : World)
    (tok : Option Nat)
    (h : ttm_eu_reserve_buffers env fuel ticket l w = some (Exit.ret 0 l1 w1)) :
    (∀ e ∈ (ttm_eu_backoff_reservation ticket l1 w1).1,
      e.reserved = false ∧ e.removed = false ∧ e.put_count = 0) ∧
    (∀ e ∈ (ttm_eu_fence_buffer_objects env ticket l1 tok w1).1,
      e.reserved = false ∧ e.removed = true ∧ e.put_count = 0) := by
  obtain ⟨-, -, hput, h0, -⟩ := reserve_spec env hE ticket fuel l w _ h
  obtain ⟨hall, -, -⟩ := h0 rfl
  constructor
  · intro e he
    rw [(backoff_call ticket l1 w1).1] at he
    simp only [List.mem_map] at he
    obtain ⟨a, ha, rfl⟩ := he
    refine ⟨unres_reserved a, ?_, ?_⟩
    · simp [unres, (hall a ha).1]
    · rw [unres_put_count]; exact hput a ha
  · intro e he
    rw [(fence_call env ticket l1 tok w1).1] at he
    obtain ⟨x, hx, -, hxr, hxm, hxp⟩ := unref_list_mem env _ e he
    obtain ⟨hr, a, ha, -, ham, hap⟩ := fence_list_mem _ _ _ x hx
    exact ⟨by rw [hxr, hr], by rw [hxm, ham, (hall a ha).2.1], by rw [hxp, hap, hput a ha]⟩

theorem release_after_reserve_witness :
    (∀ e ∈ (ttm_eu_backoff_reservation false
        (exit_of demo_env 1 false [⟨1, false, false, 0, none⟩] demo_world).list
        (exit_of demo_env 1 false [⟨1, false, false, 0, none⟩] demo_world).world).1,
      e.reserved = false ∧ e.removed = false ∧ e.put_count = 0) ∧
    (∀ e ∈ (ttm_eu_fence_buffer_objects demo_env false
        (exit_of demo_env 1 false [⟨1, false, false, 0, none⟩] demo_world).list none
        (exit_of demo_env 1 false [⟨1, false, false, 0, none⟩] demo_world).world).1,
      e.reserved = false ∧ e.removed = true ∧ e.put_count = 0) :=
  release_after_reserve demo_env (by decide) 1 false [⟨1, false, false, 0, none⟩] demo_world
    (exit_of demo_env 1 false [⟨1, false, false, 0, none⟩] demo_world).list
    (exit_of demo_env 1 false [⟨1, false, false, 0, none⟩] demo_world).world none rfl

theorem backoff_events_of_free (l : List ttm_validate_buffer)
    (h : ∀ e ∈ l, e.reserved = false) : backoff_events l = [] := by
  induction l with
  | nil => rfl
  | cons a l ih =>
    simp only [List.mem_cons, forall_eq_or_imp] at h
    simp [backoff_events, h.1, ih h.2]

theorem backoff_lru_of_free (l : List ttm_validate_buffer) (lru : List Nat)
    (h : ∀ e ∈ l, e.reserved = false) : backoff_lru l lru = lru := by
  induction l generalizing lru with
  | nil => rfl
  | cons a l ih =>
    simp only [List.mem_cons, forall_eq_or_imp] at h
    simp [backoff_lru, h.1, ih _ h.2]

/-- C6, as stated, fails: on a list that is not empty and whose entries all have
`reserved` and `removed` clear, `ttm_eu_backoff_reservation` with a ticket calls
`ww_acquire_fini`. -/
theorem backoff_again_finalizes :
    (∀ e ∈ [(⟨1, false, false, 0, none⟩ : ttm_validate_buffer)],
      e.reserved = false ∧ e.removed = false) ∧
    (ttm_eu_backoff_reservation true [⟨1, false, false, 0, none⟩] demo_world).2.trace =
      demo_world.trace ++
        [Event.spin_lock_lru, Event.ww_acquire_fini, Event.spin_unlock_lru] := by
  decide

/-- C6, amended: on a list whose entries all have `reserved` and `removed` clear,
`ttm_eu_backoff_reservation` changes no entry, no lock, not the LRU list and no
sync object.  On the empty list it makes no call; on any other list it takes
and releases `lru_lock`, and in between, when there is a ticket, it calls
`ww_acquire_fini` once; without a ticket it makes no call on a ticket. -/
theorem backoff_of_rolled_back (ticket : Bool) (l : List ttm_validate_buffer) (w : World)
    (h : ∀ e ∈ l, e.reserved = false ∧ e.removed = false) :
    (ttm_eu_backoff_reservation ticket l w).1 = l ∧
    (ttm_eu_backoff_reservation ticket l w).2.held = w.held ∧
    (ttm_eu_backoff_reservation ticket l w).2.lru = w.lru ∧
    (ttm_eu_backoff_reservation ticket l w).2.sync_obj = w.sync_obj ∧
    (ttm_eu_backoff_reservation ticket l w).2.trace = w.trace ++
      (if l.isEmpty = true then []
       else [Event.spin_lock_lru] ++
        (if ticket = true then [Event.ww_acquire_fini] else []) ++
        [Event.spin_unlock_lru]) := by
  have hfree : ∀ e ∈ l, e.reserved = false := fun e he => (h e he).1
  obtain ⟨h1, h2, h3, h4, h5⟩ := backoff_call ticket l w
  refine ⟨?_, ?_, ?_, h4, ?_⟩
  · rw [h1]
    conv_rhs => rw [← List.map_id l]
    apply List.map_congr_left
    intro e he
    simp [unres, hfree e he]
  · funext b
    rw [h2]
    have : l.any (fun e => e.reserved && decide (e.bo = b)) = false := by
      rw [List.any_eq_false]
      intro e he
      simp [hfree e he]
    simp [this]
  · rw [h3, backoff_lru_of_free l _ hfree]
  · rw [h5]
    cases l with
    | nil => simp [backoff_call_events]
    | cons a l =>
      simp [backoff_call_events, backoff_events_of_free _ hfree]

theorem backoff_of_rolled_back_witness :
    (ttm_eu_backoff_reservation true [⟨1, false, false, 0, none⟩] demo_world).1 =
      [⟨1, false, false, 0, none⟩] ∧
    (ttm_eu_backoff_reservation true [⟨1, false, false, 0, none⟩] demo_world).2.held =
      demo_world.held ∧
    (ttm_eu_backoff_reservation true [⟨1, false, false, 0, none⟩] demo_world).2.lru =
      demo_world.lru ∧
    (ttm_eu_backoff_reservation true [⟨1, false, false, 0, none⟩] demo_world).2.sync_obj =
      demo_world.sync_obj ∧
    (ttm_eu_backoff_reservation true [⟨1, false, false, 0, none⟩] demo_world).2.trace =
      demo_world.trace ++
      (if [(⟨1, false, false, 0, none⟩ : ttm_validate_buffer)].isEmpty = true then []
       else [Event.spin_lock_lru] ++
        (if true = true then [Event.ww_acquire_fini] else []) ++
        [Event.spin_unlock_lru]) :=
  backoff_of_rolled_back true [⟨1, false, false, 0, none⟩] demo_world (by decide)

theorem walk_busy (env : Env) (hE : env.EDEADLK ≠ 0) (ticket : Bool) :
    ∀ (rest pre : List ttm_validate_buffer) (w : World),
    (∀ e ∈ rest, e.reserved = false) →
    (∀ k, k < rest.length → env.bo_reserve (w.n_reserve + k) = 0) →
    (∃ i, i < rest.length ∧ 0 < env.cpu_writers (w.n_cpu + i)) →
    ∃ l1 w1, reserve_walk env ticket pre rest w = Walk.err (-env.EBUSY) l1 w1 := by
  intro rest
  induction rest with
  | nil =>
    intro pre w _ _ h
    obtain ⟨i, hi, _⟩ := h
    simp at hi
  | cons e rest ih =>
    intro pre w hfree hok hcpu
    have hr : e.reserved = false := hfree e (by simp)
    have h0 : env.bo_reserve w.n_reserve = 0 := by simpa using hok 0 (by simp)
    have hnd : ¬ env.bo_reserve w.n_reserve = -env.EDEADLK := by
      rw [h0]
      intro h
      exact hE (by omega)
    rw [reserve_walk_cons]
    rw [if_neg (by simp [hr]), if_neg (by simpa [__ttm_bo_reserve] using hnd),
      if_neg (by simpa [__ttm_bo_reserve] using h0)]
    by_cases hv : 0 < env.cpu_writers w.n_cpu
    · rw [if_pos (by simpa [atomic_read_cpu_writers, __ttm_bo_reserve] using hv)]
      exact ⟨_, _, rfl⟩
    · rw [if_neg (by simpa [atomic_read_cpu_writers, __ttm_bo_reserve] using hv)]
      apply ih
      · intro x hx
        exact hfree x (by simp [hx])
      · intro k hk
        have := hok (k + 1) (by simpa using hk)
        simpa [atomic_read_cpu_writers, __ttm_bo_reserve, Nat.add_assoc, Nat.add_comm 1 k]
          using this
      · obtain ⟨i, hi, hpos⟩ := hcpu
        cases i with
        | zero => exact absurd hpos hv
        | succ j =>
          refine ⟨j, by simpa using hi, ?_⟩
          simpa [atomic_read_cpu_writers, __ttm_bo_reserve, Nat.add_assoc, Nat.add_comm 1 j]
            using hpos

theorem Observed.extend {ticket : Bool} {b : Nat} {evs : List Event} (more : List Event)
    (h : Observed ticket b evs) : Observed ticket b (evs ++ more) := by
  obtain ⟨pre, post, acq, v, hv, h1, h2⟩ := h
  exact ⟨pre, post ++ more, acq, v, hv, by rw [h1]; simp, h2⟩

theorem wound_list_eq (l : List ttm_validate_buffer) (w1 : World) :
    wound_list l w1 = (l.map unres).map (fun e => { e with put_count := 0 }) := by
  rw [wound_list, ref_sub_fst, backoff_fst]

theorem backoff_events_shape (l : List ttm_validate_buffer) :
    ∀ ev ∈ backoff_events l, (∃ b, ev = Event.add_to_lru b) ∨ (∃ b, ev = Event.bo_unreserve b) := by
  induction l with
  | nil => simp [backoff_events]
  | cons e l ih =>
    intro ev hev
    rw [backoff_events] at hev
    simp only [List.mem_append] at hev
    rcases hev with hev | hev
    · by_cases hr : e.reserved = true
      · by_cases hm : e.removed = true
        · simp only [hr, hm, if_true, List.mem_append, List.mem_singleton] at hev
          rcases hev with rfl | rfl
          · exact Or.inl ⟨_, rfl⟩
          · exact Or.inr ⟨_, rfl⟩
        · simp only [Bool.not_eq_true] at hm
          simp only [hr, hm, if_true, Bool.false_eq_true, if_false, List.nil_append,
            List.mem_singleton] at hev
          exact Or.inr ⟨_, hev⟩
      · simp [hr] at hev
    · exact ih ev hev

theorem unwind_no_cpu (l : List ttm_validate_buffer) (b : Nat) (v : Int) :
    Event.cpu_writers b v ∉ unwind_events l := by
  intro h
  simp only [unwind_events, List.mem_append, List.mem_singleton] at h
  rcases h with ((h | h) | h) | h
  · cases h
  · rcases backoff_events_shape l _ h with ⟨_, h⟩ | ⟨_, h⟩ <;> cases h
  · cases h
  · obtain ⟨_, _, h⟩ := ref_events_kind _ _ h
    cases h

theorem walk_cinv (env : Env) (ticket : Bool) (t0 : List Event) :
    ∀ (rest pre : List ttm_validate_buffer) (w : World) (evs : List Event),
    w.trace = t0 ++ evs → CInv ticket (pre ++ rest) evs →
    Walk.cinv ticket t0 (reserve_walk env ticket pre rest w) := by
  intro rest
  induction rest with
  | nil =>
    intro pre w evs ht hc
    rw [reserve_walk]
    exact ⟨evs, ht, by simpa using hc⟩
  | cons e rest ih =>
    intro pre w evs ht hc
    rw [reserve_walk_cons]
    by_cases hr : e.reserved = true
    · rw [if_pos hr]
      exact ih _ w evs ht (by simpa using hc)
    · rw [if_neg hr]
      by_cases hd : env.bo_reserve w.n_reserve = -env.EDEADLK
      · rw [if_pos (by simpa [__ttm_bo_reserve] using hd)]
        cases ticket
        · simp [Walk.cinv]
        · simp only [Bool.true_eq_false, if_false]
          rw [reserve_wound_eq]
          split
          · trivial
          · rename_i hs
            split
            · trivial
            · rename_i hv
              have hs0 : env.lock_slow (wound_world (pre ++ e :: rest)
                  (__ttm_bo_reserve env e.bo (!true) w).2).n_slow = 0 := by
                simpa [ww_mutex_lock_slow_interruptible] using hs
              have hv0 : env.cpu_writers (wound_world (pre ++ e :: rest)
                  (__ttm_bo_reserve env e.bo (!true) w).2).n_cpu ≤ 0 := by
                simpa [atomic_read_cpu_writers, ww_mutex_lock_slow_interruptible] using hv
              refine ⟨evs ++ [Event.bo_reserve e.bo (!true) (env.bo_reserve w.n_reserve)] ++
                unwind_events (pre ++ e :: rest) ++
                [Event.lock_slow e.bo 0, Event.cpu_writers e.bo
                  (env.cpu_writers (wound_world (pre ++ e :: rest)
                    (__ttm_bo_reserve env e.bo (!true) w).2).n_cpu)], ?_, ?_, ?_⟩
              · show ((wound_world (pre ++ e :: rest)
                    (__ttm_bo_reserve env e.bo (!true) w).2).trace ++
                  [Event.lock_slow e.bo (env.lock_slow (wound_world (pre ++ e :: rest)
                    (__ttm_bo_reserve env e.bo (!true) w).2).n_slow)]) ++
                  [Event.cpu_writers e.bo (env.cpu_writers (wound_world (pre ++ e :: rest)
                    (__ttm_bo_reserve env e.bo (!true) w).2).n_cpu)] = _
                rw [hs0, wound_world_trace]
                show (((w.trace ++ [Event.bo_reserve e.bo (!true)
                  (env.bo_reserve w.n_reserve)]) ++ _) ++ _) ++ _ = _
                rw [ht]
                simp
              · intro b v hmem
                simp only [List.mem_append, List.mem_cons, List.not_mem_nil, or_false]
                  at hmem
                rcases hmem with ((hmem | hmem) | hmem) | hmem | hmem
                · exact hc.1 b v hmem
                · cases hmem
                · exact absurd hmem (unwind_no_cpu _ b v)
                · cases hmem
                · cases hmem; exact hv0
              · intro x hx hxr
                rw [wound_list_eq, List.map_map, List.map_append, List.map_cons,
                  set_reserved_append _ _ _ _ (by simp)] at hx
                simp only [List.mem_append, List.mem_cons, List.mem_map,
                  Function.comp] at hx
                rcases hx with ⟨a, _, rfl⟩ | rfl | ⟨a, _, rfl⟩
                · simp [unres_reserved] at hxr
                · simp only [unres_bo]
                  exact ⟨_, [], _, _, hv0, rfl, Or.inr rfl⟩
                · simp [unres_reserved] at hxr
      · rw [if_neg (by simpa [__ttm_bo_reserve] using hd)]
        by_cases hz : env.bo_reserve w.n_reserve = 0
        · rw [if_neg (by simpa [__ttm_bo_reserve] using hz)]
          split
          · trivial
          · rename_i hv
            have hv0 : env.cpu_writers w.n_cpu ≤ 0 := by
              simpa [atomic_read_cpu_writers, __ttm_bo_reserve] using hv
            apply ih _ _ (evs ++ [Event.bo_reserve e.bo (!ticket) 0,
              Event.cpu_writers e.bo (env.cpu_writers w.n_cpu)])
            · simp [atomic_read_cpu_writers, __ttm_bo_reserve, ht, hz]
            · refine ⟨?_, ?_⟩
              · intro b v hmem
                simp only [List.mem_append, List.mem_cons, List.not_mem_nil, or_false]
                  at hmem
                rcases hmem with hmem | hmem | hmem
                · exact hc.1 b v hmem
                · cases hmem
                · cases hmem; exact hv0
              · intro x hx hxr
                simp only [List.append_assoc, List.singleton_append, List.mem_append,
                  List.mem_cons] at hx
                rcases hx with hx | rfl | hx
                · exact (hc.2 x (by simp [hx]) hxr).extend _
                · exact ⟨evs, [], _, _, hv0, rfl, Or.inl rfl⟩
                · exact (hc.2 x (by simp [hx]) hxr).extend _
        · rw [if_pos (by simpa [__ttm_bo_reserve] using hz)]
          trivial

theorem retry_cinv (env : Env) (hE : env.errno_ok) (ticket : Bool) (w0 : World)
    (bos : List Nat) (t0 : List Event) :
    ∀ (fuel : Nat) (l : List ttm_validate_buffer) (w : World) (evs : List Event)
      (l1 : List ttm_validate_buffer) (w1 : World),
    SInv w0 bos l w → w.trace = t0 ++ evs → CInv ticket l evs →
    reserve_retry env ticket fuel l w = some (Exit.ret 0 l1 w1) →
    ∃ evs1, w1.trace = t0 ++ evs1 ∧ (∀ b v, Event.cpu_writers b v ∈ evs1 → v ≤ 0) ∧
      ∀ e ∈ l1, Observed ticket e.bo evs1 := by
  intro fuel
  induction fuel with
  | zero => intro l w evs l1 w1 _ _ _ h; simp [reserve_retry] at h
  | succ fuel ih =>
    intro l w evs l1 w1 hI ht hc h
    rw [reserve_retry_succ] at h
    have hw := walk_sinv env hE ticket w0 bos l [] w (by simpa using hI) (by simp)
    have hcv := walk_cinv env ticket t0 l [] w evs ht (by simpa using hc)
    cases hwalk : reserve_walk env ticket [] l w with
    | done l2 w2 =>
      rw [hwalk] at h hw hcv
      obtain ⟨evs2, ht2, hc2⟩ := hcv
      simp only [Option.some.injEq, Exit.ret.injEq, true_and] at h
      obtain ⟨hl, hwd⟩ := h
      refine ⟨evs2 ++ ((if ticket = true then [Event.ww_acquire_done] else []) ++
        [Event.spin_lock_lru] ++ del_events env w2.n_del l2 ++ [Event.spin_unlock_lru] ++
        ref_events (del_list env w2.n_del l2)), ?_, ?_, ?_⟩
      · rw [← hwd, ref_sub_snd, del_fst]
        simp only [World.emit, del_trace]
        cases ticket <;> simp [ht2]
      · intro b v hmem
        simp only [List.mem_append, List.mem_cons, List.not_mem_nil, or_false] at hmem
        rcases hmem with hmem | (((hmem | hmem) | hmem) | hmem) | hmem
        · exact hc2.1 b v hmem
        · cases ticket <;> simp at hmem
        · cases hmem
        · obtain ⟨_, _, h⟩ := del_events_kind env l2 _ _ hmem
          cases h
        · cases hmem
        · obtain ⟨_, _, h⟩ := ref_events_kind _ _ hmem
          cases h
      · intro e he
        have hbo : e.bo ∈ l2.map (fun x => x.bo) := by
          rw [← hl, ref_sub_fst, del_fst] at he
          simp only [List.mem_map] at he
          obtain ⟨a, ha, rfl⟩ := he
          rw [← del_list_bo env l2 (((if ticket = true then w2.emit Event.ww_acquire_done
            else w2).emit Event.spin_lock_lru).n_del)]
          exact List.mem_map_of_mem (fun x => x.bo) ha
        simp only [List.mem_map] at hbo
        obtain ⟨a, ha, hab⟩ := hbo
        rw [← hab]
        exact (hc2.2 a ha (hw.2 a ha)).extend _
    | retry l2 w2 =>
      rw [hwalk] at h hw hcv
      obtain ⟨evs2, ht2, hc2⟩ := hcv
      exact ih l2 w2 evs2 l1 w1 hw ht2 hc2 h
    | err r l2 w2 =>
      rw [hwalk] at h hw
      simp only [Option.some.injEq] at h
      have := (err_trace ticket r l2 w2).2
      rw [h] at this
      simp only [Exit.code, Option.some.injEq] at this
      exact absurd this.symm hw.2
    | err_fini r l2 w2 =>
      rw [hwalk] at h hw
      simp only [Option.some.injEq] at h
      have := (err_fini_trace ticket r l2 w2).2
      rw [h] at this
      simp only [Exit.code, Option.some.injEq] at this
      exact absurd this.symm hw.2.1
    | bug l2 w2 =>
      rw [hwalk] at h
      simp at h

theorem init_sinv (ticket : Bool) (l : List ttm_validate_buffer) (w : World) :
    SInv w (l.map (fun e => e.bo))
      (l.map (fun entry => { entry with reserved := false, put_count := 0, removed := false }))
      (if ticket = true then w.emit Event.ww_acquire_init else w) := by
  refine ⟨?_, ?_, ?_, ?_, ?_, ?_⟩
  · intro e he
    simp only [List.mem_map] at he
    obtain ⟨a, _, rfl⟩ := he
    exact ⟨rfl, rfl⟩
  · intro e he hr
    simp only [List.mem_map] at he
    obtain ⟨a, _, rfl⟩ := he
    simp at hr
  · intro b hb
    left
    cases ticket <;> simpa [World.emit] using hb
  · cases ticket <;> simp [World.emit]
  · cases ticket <;> simp [World.emit]
  · simp [List.map_map, Function.comp]

/-- C7, as stated, fails: the read of `cpu_writers` sees -1, which is not 0, and
`ttm_eu_reserve_buffers` returns 0: the test is `> 0`. -/
theorem negative_read_passes :
    (exit_of demo_env_negative 1 true [⟨1, false, false, 0, none⟩] demo_world).code = some 0 ∧
    (exit_of demo_env_negative 1 true [⟨1, false, false, 0, none⟩] demo_world).world.trace =
      [Event.ww_acquire_init, Event.bo_reserve 1 false 0, Event.cpu_writers 1 (-1),
       Event.ww_acquire_done, Event.spin_lock_lru, Event.del_from_lru 1 1,
       Event.spin_unlock_lru, Event.list_ref_sub 1 1] := by
  decide

/-- C7, amended: with a list that is not empty, when every `__ttm_bo_reserve` of
the call answers 0 and one of the reads of `cpu_writers` of the walk sees a
positive count, `ttm_eu_reserve_buffers` returns `-EBUSY`, no entry is reserved,
the batch holds no lock and the LRU list is the one of the call; and when
`ttm_eu_reserve_buffers` returns 0, every read of `cpu_writers` it made saw a
value that is not positive (0 or negative), and for every entry the lock of its
object was acquired with such a read right after. -/
theorem cpu_writer_refusal (env : Env) (hE : env.errno_ok) (fuel : Nat) (ticket : Bool)
    (l : List ttm_validate_buffer) (w : World) :
    (l ≠ [] → (∀ b, w.held b = false) →
      (∀ k, k < l.length → env.bo_reserve (w.n_reserve + k) = 0) →
      (∃ i, i < l.length ∧ 0 < env.cpu_writers (w.n_cpu + i)) →
      ∃ l1 w1, ttm_eu_reserve_buffers env (fuel + 1) ticket l w =
          some (Exit.ret (-env.EBUSY) l1 w1) ∧
        (∀ e ∈ l1, e.reserved = false) ∧ (∀ b, w1.held b = false) ∧ w1.lru = w.lru) ∧
    (∀ l1 w1, ttm_eu_reserve_buffers env fuel ticket l w = some (Exit.ret 0 l1 w1) →
      ∃ evs, w1.trace = w.trace ++ evs ∧
        (∀ b v, Event.cpu_writers b v ∈ evs → v ≤ 0) ∧
        ∀ e ∈ l1, Observed ticket e.bo evs) := by
  constructor
  · intro hne hfree hok hcpu
    cases l with
    | nil => exact absurd rfl hne
    | cons a rest =>
      have hwalk := walk_busy env hE.1 ticket
        ((a :: rest).map (fun entry =>
          { entry with reserved := false, put_count := 0, removed := false })) []
        (if ticket = true then w.emit Event.ww_acquire_init else w)
        (by
          intro e he
          simp only [List.mem_map] at he
          obtain ⟨x, _, rfl⟩ := he
          rfl)
        (by
          intro k hk
          have := hok k (by simpa using hk)
          cases ticket <;> simpa [World.emit] using this)
        (by
          obtain ⟨i, hi, hpos⟩ := hcpu
          refine ⟨i, by simpa using hi, ?_⟩
          cases ticket <;> simpa [World.emit] using hpos)
      obtain ⟨l2, w2, hw2⟩ := hwalk
      have hres : ttm_eu_reserve_buffers env (fuel + 1) ticket (a :: rest) w =
          some (reserve_err ticket (-env.EBUSY) l2 w2) := by
        simp only [ttm_eu_reserve_buffers]
        rw [reserve_retry_succ, hw2]
      have hcode := (err_trace ticket (-env.EBUSY) l2 w2).2
      cases hx : reserve_err ticket (-env.EBUSY) l2 w2 with
      | bug l3 w3 => rw [hx] at hcode; simp [Exit.code] at hcode
      | ret r l3 w3 =>
        rw [hx] at hcode hres
        simp only [Exit.code, Option.some.injEq] at hcode
        subst hcode
        have hr : -env.EBUSY ≠ 0 := by simpa using hE.2.1
        obtain ⟨-, -, -, -, h5⟩ := reserve_spec env hE ticket (fuel + 1) (a :: rest) w _ hres
        obtain ⟨h5a, h5b, h5c⟩ := h5 hr
        refine ⟨l3, w3, hres, fun e he => (h5a e he).1, ?_, h5c⟩
        intro b
        cases hb : w3.held b with
        | false => rfl
        | true => rw [← hfree b]; exact (h5b b hb).symm
  · intro l1 w1 h
    cases l with
    | nil =>
      simp only [ttm_eu_reserve_buffers, Option.some.injEq, Exit.ret.injEq, true_and] at h
      obtain ⟨rfl, rfl⟩ := h
      exact ⟨[], by simp, by simp, by simp⟩
    | cons a rest =>
      simp only [ttm_eu_reserve_buffers] at h
      obtain ⟨evs1, h1, h2, h3⟩ := retry_cinv env hE ticket w _ w.trace fuel _ _
        (if ticket = true then [Event.ww_acquire_init] else []) l1 w1
        (init_sinv ticket (a :: rest) w)
        (by cases ticket <;> simp [World.emit])
        (by
          refine ⟨?_, ?_⟩
          · intro b v hmem
            cases ticket <;> simp at hmem
          · intro e he hr
            simp only [List.mem_map] at he
            obtain ⟨x, _, rfl⟩ := he
            simp at hr)
        h
      exact ⟨evs1, h1, h2, h3⟩

theorem cpu_writer_refusal_witness :
    (∃ l1 w1, ttm_eu_reserve_buffers demo_env_writer (0 + 1) true
          [⟨1, false, false, 0, none⟩] demo_world =
          some (Exit.ret (-demo_env_writer.EBUSY) l1 w1) ∧
        (∀ e ∈ l1, e.reserved = false) ∧ (∀ b, w1.held b = false) ∧
        w1.lru = demo_world.lru) ∧
    (∃ evs, (exit_of demo_env 2 true demo_list demo_world).world.trace =
        demo_world.trace ++ evs ∧
      (∀ b v, Event.cpu_writers b v ∈ evs → v ≤ 0) ∧
      ∀ e ∈ (exit_of demo_env 2 true demo_list demo_world).list, Observed true e.bo evs) :=
  ⟨(cpu_writer_refusal demo_env_writer (by decide) 0 true [⟨1, false, false, 0, none⟩]
      demo_world).1 (by decide) (fun _ => rfl) (fun _ _ => rfl) ⟨0, by decide, by decide⟩,
   (cpu_writer_refusal demo_env (by decide) 2 true demo_list demo_world).2
      (exit_of demo_env 2 true demo_list demo_world).list
      (exit_of demo_env 2 true demo_list demo_world).world rfl⟩

theorem WalkTrace.no_ticket {env : Env} {ticket : Bool} {evs : List Event}
    (h : WalkTrace env ticket evs) :
    evs.count Event.ww_acquire_init = 0 ∧ evs.count Event.ww_acquire_done = 0 ∧
    evs.count Event.ww_acquire_fini = 0 := by
  refine ⟨?_, ?_, ?_⟩ <;>
  · apply List.count_eq_zero_of_not_mem
    intro hmem
    have := h.kind _ hmem
    simp [walk_event] at this

theorem count_zero_of_shape (evs : List Event) (ev : Event)
    (h : ∀ x ∈ evs, x ≠ ev) : evs.count ev = 0 :=
  List.count_eq_zero_of_not_mem (fun hmem => h ev hmem rfl)

theorem fence_events_no_ticket (tok : Option Nat) (l : List ttm_validate_buffer) :
    ∀ ev ∈ fence_events tok l, ev ≠ Event.ww_acquire_init ∧ ev ≠ Event.ww_acquire_fini := by
  induction l with
  | nil => simp [fence_events]
  | cons a l ih =>
    intro ev hev
    rw [fence_events] at hev
    simp only [List.mem_append, List.mem_cons, List.not_mem_nil, or_false] at hev
    rcases hev with (rfl | rfl | rfl) | hev
    · simp
    · simp
    · simp
    · exact ih ev hev

theorem unref_events_no_ticket (l : List ttm_validate_buffer) :
    ∀ ev ∈ unref_events l, ev ≠ Event.ww_acquire_init ∧ ev ≠ Event.ww_acquire_fini := by
  induction l with
  | nil => simp [unref_events]
  | cons a l ih =>
    intro ev hev
    rw [unref_events] at hev
    cases hs : a.old_sync_obj with
    | none => rw [hs] at hev; exact ih ev hev
    | some t =>
      rw [hs] at hev
      simp only [List.mem_cons] at hev
      rcases hev with rfl | hev
      · simp
      · exact ih ev hev

/-- C8, as stated, fails: a `ttm_eu_reserve_buffers` with a ticket that fails (it
returns `-EBUSY`) followed by `ttm_eu_backoff_reservation` calls
`ww_acquire_fini` twice. -/
theorem failed_reserve_backoff_finalizes_twice :
    (exit_of demo_env_busy 2 true demo_list demo_world).code = some (-16) ∧
    (ttm_eu_backoff_reservation true (exit_of demo_env_busy 2 true demo_list demo_world).list
      (exit_of demo_env_busy 2 true demo_list demo_world).world).2.trace.count
        Event.ww_acquire_fini = 2 := by
  decide

theorem backoff_call_events_count (l : List ttm_validate_buffer) (hne : l ≠ []) :
    (backoff_call_events true l).count Event.ww_acquire_init = 0 ∧
    (backoff_call_events true l).count Event.ww_acquire_fini = 1 := by
  cases l with
  | nil => exact absurd rfl hne
  | cons a l =>
    have h1 : (backoff_events (a :: l)).count Event.ww_acquire_init = 0 :=
      count_zero_of_shape _ _ (fun x hx => by
        rcases backoff_events_shape _ x hx with ⟨_, rfl⟩ | ⟨_, rfl⟩ <;> simp)
    have h2 : (backoff_events (a :: l)).count Event.ww_acquire_fini = 0 :=
      count_zero_of_shape _ _ (fun x hx => by
        rcases backoff_events_shape _ x hx with ⟨_, rfl⟩ | ⟨_, rfl⟩ <;> simp)
    simp only [backoff_call_events, if_true, List.count_append, h1, h2]
    exact ⟨by decide, by decide⟩

theorem fence_call_events_count (tok : Option Nat) (l l2 : List ttm_validate_buffer) :
    (fence_call_events true tok l l2).count Event.ww_acquire_init = 0 ∧
    (fence_call_events true tok l l2).count Event.ww_acquire_fini = 1 := by
  have h1 : (fence_events tok l).count Event.ww_acquire_init = 0 :=
    count_zero_of_shape _ _ (fun x hx => (fence_events_no_ticket tok l x hx).1)
  have h2 : (fence_events tok l).count Event.ww_acquire_fini = 0 :=
    count_zero_of_shape _ _ (fun x hx => (fence_events_no_ticket tok l x hx).2)
  have h3 : (unref_events l2).count Event.ww_acquire_init = 0 :=
    count_zero_of_shape _ _ (fun x hx => (unref_events_no_ticket l2 x hx).1)
  have h4 : (unref_events l2).count Event.ww_acquire_fini = 0 :=
    count_zero_of_shape _ _ (fun x hx => (unref_events_no_ticket l2 x hx).2)
  simp only [fence_call_events, if_true, List.count_append, h1, h2, h3, h4]
  exact ⟨by decide, by decide⟩

/-- C8, amended: with a list that is not empty and a ticket, a
`ttm_eu_reserve_buffers` that returns calls `ww_acquire_init` once, as its first
call, and `ww_acquire_done` once; it calls `ww_acquire_fini` not at all when it
returns 0 and once when it fails.  A following `ttm_eu_backoff_reservation`, and
likewise a following `ttm_eu_fence_buffer_objects`, calls `ww_acquire_init` not
at all and `ww_acquire_fini` once.  So the ticket is finalized once by a failed
reserve, once by a successful reserve followed by either release, and twice by
a failed reserve followed by `ttm_eu_backoff_reservation`. -/
theorem ticket_lifecycle (env : Env) (hE : env.errno_ok) (fuel : Nat)
    (l : List ttm_validate_buffer) (w : World) (r : Int) (l1 : List ttm_validate_buffer)
    (w1 : World) (tok : Option Nat) (hne : l ≠ [])
    (h : ttm_eu_reserve_buffers env fuel true l w = some (Exit.ret r l1 w1)) :
    (∃ evs, w1.trace = w.trace ++ Event.ww_acquire_init :: evs ∧
      evs.count Event.ww_acquire_init = 0 ∧ evs.count Event.ww_acquire_done = 1 ∧
      evs.count Event.ww_acquire_fini = if r = 0 then 0 else 1) ∧
    (∃ evs, (ttm_eu_backoff_reservation true l1 w1).2.trace = w1.trace ++ evs ∧
      evs.count Event.ww_acquire_init = 0 ∧ evs.count Event.ww_acquire_fini = 1) ∧
    (∃ evs, (ttm_eu_fence_buffer_objects env true l1 tok w1).2.trace = w1.trace ++ evs ∧
      evs.count Event.ww_acquire_init = 0 ∧ evs.count Event.ww_acquire_fini = 1) := by
  have hbo := (reserve_spec env hE true fuel l w _ h).1
  have hne1 : l1 ≠ [] := by
    rintro rfl
    cases l with
    | nil => exact hne rfl
    | cons a l => simp at hbo
  refine ⟨?_, ⟨_, (backoff_call true l1 w1).2.2.2.2, backoff_call_events_count l1 hne1⟩,
    ⟨_, (fence_call env true l1 tok w1).2.2.2.2 hne1, fence_call_events_count tok l1 _⟩⟩
  obtain ⟨evs, h1, body, tail, h2, h3, h4⟩ := reserve_trace env hE true fuel l w _ hne h
  obtain ⟨b1, b2, b3⟩ := h3.no_ticket
  refine ⟨evs, by simpa using h1, ?_⟩
  simp only [Exit.code, TailTrace] at h4
  rcases h4 with ⟨h0, dels, refs, ht, hdels, hrefs⟩ | ⟨h0, ht⟩
  · have d1 : ∀ ev : Event, (∀ b n, ev ≠ Event.del_from_lru b n) → dels.count ev = 0 :=
      fun ev hev => count_zero_of_shape _ _ (fun x hx => by
        obtain ⟨b, n, rfl⟩ := hdels x hx
        exact (hev b n).symm)
    have d2 : ∀ ev : Event, (∀ b n, ev ≠ Event.list_ref_sub b n) → refs.count ev = 0 :=
      fun ev hev => count_zero_of_shape _ _ (fun x hx => by
        obtain ⟨b, n, rfl⟩ := hrefs x hx
        exact (hev b n).symm)
    rw [h2, ht]
    simp only [if_true, List.count_append, b1, b2, b3, h0,
      d1 Event.ww_acquire_init (by simp), d1 Event.ww_acquire_done (by simp),
      d1 Event.ww_acquire_fini (by simp), d2 Event.ww_acquire_init (by simp),
      d2 Event.ww_acquire_done (by simp), d2 Event.ww_acquire_fini (by simp)]
    exact ⟨by decide, by decide, by decide⟩
  · rw [h2, ht]
    simp only [if_true, List.count_append, b1, b2, b3, if_neg h0]
    exact ⟨by decide, by decide, by decide⟩

theorem ticket_lifecycle_witness :
    (∃ evs, (exit_of demo_env 2 true demo_list demo_world).world.trace =
        demo_world.trace ++ Event.ww_acquire_init :: evs ∧
      evs.count Event.ww_acquire_init = 0 ∧ evs.count Event.ww_acquire_done = 1 ∧
      evs.count Event.ww_acquire_fini = if (0 : Int) = 0 then 0 else 1) ∧
    (∃ evs, (ttm_eu_backoff_reservation true
        (exit_of demo_env 2 true demo_list demo_world).list
        (exit_of demo_env 2 true demo_list demo_world).world).2.trace =
        (exit_of demo_env 2 true demo_list demo_world).world.trace ++ evs ∧
      evs.count Event.ww_acquire_init = 0 ∧ evs.count Event.ww_acquire_fini = 1) ∧
    (∃ evs, (ttm_eu_fence_buffer_objects demo_env true
        (exit_of demo_env 2 true demo_list demo_world).list (some 9)
        (exit_of demo_env 2 true demo_list demo_world).world).2.trace =
        (exit_of demo_env 2 true demo_list demo_world).world.trace ++ evs ∧
      evs.count Event.ww_acquire_init = 0 ∧ evs.count Event.ww_acquire_fini = 1) :=
  ticket_lifecycle demo_env (by decide) 2 demo_list demo_world 0
    (exit_of demo_env 2 true demo_list demo_world).list
    (exit_of demo_env 2 true demo_list demo_world).world (some 9) (by decide) rfl

theorem walk_origin (env : Env) (hE : env.errno_ok) (ticket : Bool) :
    ∀ (rest pre : List ttm_validate_buffer) (w : World),
    Walk.origin env (reserve_walk env ticket pre rest w) := by
  intro rest
  induction rest with
  | nil => intro pre w; rw [reserve_walk]; trivial
  | cons e rest ih =>
    intro pre w
    rw [reserve_walk_cons]
    have hbusy : ret_origin env (-env.EBUSY) ∧ -env.EBUSY ≠ 0 :=
      ⟨Or.inr (Or.inl rfl), by simpa using hE.2.1⟩
    split
    · exact ih _ _
    · split
      · split
        · trivial
        · rw [reserve_wound_eq]
          split
          · rename_i hs
            split
            · exact Or.inr (Or.inr (Or.inr (Or.inl rfl)))
            · rename_i hi
              exact Or.inr (Or.inr (Or.inr (Or.inr ⟨_, rfl, hi, hs⟩)))
          · split
            · exact hbusy
            · trivial
      · rename_i hd
        split
        · rename_i hz
          exact ⟨Or.inr (Or.inr (Or.inl ⟨_, rfl, hd, hz⟩)), hz⟩
        · split
          · exact hbusy
          · exact ih _ _

theorem retry_origin (env : Env) (hE : env.errno_ok) (ticket : Bool) :
    ∀ (fuel : Nat) (l : List ttm_validate_buffer) (w : World) (x : Exit),
    reserve_retry env ticket fuel l w = some x →
    (∃ r, x.code = some r ∧ ret_origin env r) ∨ (x.code = none ∧ ticket = false) := by
  intro fuel
  induction fuel with
  | zero => intro l w x h; simp [reserve_retry] at h
  | succ fuel ih =>
    intro l w x h
    rw [reserve_retry_succ] at h
    have ho := walk_origin env hE ticket l [] w
    cases hwalk : reserve_walk env ticket [] l w with
    | done l1 w1 =>
      rw [hwalk] at h
      simp only [Option.some.injEq] at h
      subst h
      exact Or.inl ⟨0, rfl, Or.inl rfl⟩
    | retry l1 w1 =>
      rw [hwalk] at h
      exact ih l1 w1 x h
    | err r l1 w1 =>
      rw [hwalk] at h ho
      simp only [Option.some.injEq] at h
      subst h
      exact Or.inl ⟨r, (err_trace ticket r l1 w1).2, ho.1⟩
    | err_fini r l1 w1 =>
      rw [hwalk] at h ho
      simp only [Option.some.injEq] at h
      subst h
      exact Or.inl ⟨r, (err_fini_trace ticket r l1 w1).2, ho⟩
    | bug l1 w1 =>
      rw [hwalk] at h
      simp only [Option.some.injEq] at h
      subst h
      exact Or.inr ⟨rfl, walk_bug_ticket env ticket l [] w l1 w1 hwalk⟩

theorem reserve_origin (env : Env) (hE : env.errno_ok) (ticket : Bool) (fuel : Nat)
    (l : List ttm_validate_buffer) (w : World) (x : Exit)
    (h : ttm_eu_reserve_buffers env fuel ticket l w = some x) :
    (∃ r, x.code = some r ∧ ret_origin env r) ∨ (x.code = none ∧ ticket = false) := by
  cases l with
  | nil =>
    simp only [ttm_eu_reserve_buffers, Option.some.injEq] at h
    subst h
    exact Or.inl ⟨0, rfl, Or.inl rfl⟩
  | cons a rest =>
    simp only [ttm_eu_reserve_buffers] at h
    exact retry_origin env hE ticket fuel _ _ x h

/-- The calls `ttm_eu_reserve_buffers` makes after the walk are neither a slow
lock nor a `__ttm_bo_reserve`, nor do they take `fence_lock`, and they keep the
spinlock discipline. -/
theorem TailTrace.facts {ticket : Bool} {code : Option Int} {tail : List Event}
    (h : TailTrace ticket code tail) :
    tail.countP is_slow = 0 ∧ (∀ env, tail.countP (is_deadlk env) = 0) ∧
    Event.spin_lock_fence ∉ tail ∧
    spin_run (false, false) tail = some (false, false) := by
  cases code with
  | none =>
    obtain ⟨-, rfl⟩ := h
    exact ⟨rfl, fun _ => rfl, by simp, rfl⟩
  | some r =>
    rcases h with ⟨-, dels, refs, rfl, hdels, hrefs⟩ | ⟨-, rfl⟩
    · have hdfree : ∀ ev ∈ dels, spin_free ev = true := by
        intro ev hev
        obtain ⟨b, n, rfl⟩ := hdels ev hev
        rfl
      refine ⟨?_, ?_, ?_, ?_⟩
      · apply countP_eq_zero_of
        intro ev hev
        simp only [List.mem_append, List.mem_cons, List.not_mem_nil, or_false] at hev
        rcases hev with (((hev | rfl) | hev) | rfl) | hev
        · cases ticket <;> simp at hev
          subst hev; rfl
        · rfl
        · obtain ⟨b, n, rfl⟩ := hdels ev hev; rfl
        · rfl
        · obtain ⟨b, n, rfl⟩ := hrefs ev hev; rfl
      · intro env
        apply countP_eq_zero_of
        intro ev hev
        simp only [List.mem_append, List.mem_cons, List.not_mem_nil, or_false] at hev
        rcases hev with (((hev | rfl) | hev) | rfl) | hev
        · cases ticket <;> simp at hev
          subst hev; rfl
        · rfl
        · obtain ⟨b, n, rfl⟩ := hdels ev hev; rfl
        · rfl
        · obtain ⟨b, n, rfl⟩ := hrefs ev hev; rfl
      · intro hev
        simp only [List.mem_append, List.mem_cons, List.not_mem_nil, or_false] at hev
        rcases hev with (((hev | hev) | hev) | hev) | hev
        · cases ticket <;> simp at hev
        · cases hev
        · obtain ⟨b, n, h⟩ := hdels _ hev; cases h
        · cases hev
        · obtain ⟨b, n, h⟩ := hrefs _ hev; cases h
      · rw [spin_run_append, spin_run_append, spin_run_append, spin_run_append]
        have h1 : spin_run (false, false)
            (if ticket = true then [Event.ww_acquire_done] else []) = some (false, false) := by
          cases ticket <;> rfl
        rw [h1]
        simp only [Option.bind]
        have h2 : spin_run (false, false) [Event.spin_lock_lru] = some (true, false) := rfl
        rw [h2]
        simp only []
        rw [spin_run_free _ _ hdfree]
        simp only []
        have h3 : spin_run (true, false) [Event.spin_unlock_lru] = some (false, false) := rfl
        rw [h3]
        exact spin_run_refs _ hrefs
    · cases ticket
      · exact ⟨rfl, fun _ => rfl, by simp, rfl⟩
      · exact ⟨rfl, fun _ => rfl, by simp, rfl⟩

/-- C9: with a ticket, when every `__ttm_bo_reserve` answers 0, `-EDEADLK`,
`-EBUSY` or `-EINTR` and every slow lock answers 0 or `-EINTR`, a
`ttm_eu_reserve_buffers` that ends returns a value, the value is one of 0,
`-EBUSY`, `-EINTR`, `-ERESTARTSYS` and is not `-EDEADLK`, and the call made as
many slow locks as it got `-EDEADLK` answers: each one was taken up by the
back-off and retry. -/
theorem deadlk_never_escapes (env : Env) (hE : env.errno_ok) (fuel : Nat)
    (l : List ttm_validate_buffer) (w : World) (x : Exit) (hne : l ≠ [])
    (htry : ∀ k, env.bo_reserve k = 0 ∨ env.bo_reserve k = -env.EDEADLK ∨
      env.bo_reserve k = -env.EBUSY ∨ env.bo_reserve k = -env.EINTR)
    (hslow : ∀ k, env.lock_slow k = 0 ∨ env.lock_slow k = -env.EINTR)
    (h : ttm_eu_reserve_buffers env fuel true l w = some x) :
    (∃ r, x.code = some r ∧ r ≠ -env.EDEADLK ∧
      (r = 0 ∨ r = -env.EBUSY ∨ r = -env.EINTR ∨ r = -env.ERESTARTSYS)) ∧
    ∃ evs, x.world.trace = w.trace ++ evs ∧
      evs.countP is_slow = evs.countP (is_deadlk env) := by
  obtain ⟨hE1, hE2, hE3, hE4, hE5, hE6⟩ := hE
  have hE' : env.errno_ok := ⟨hE1, hE2, hE3, hE4, hE5, hE6⟩
  constructor
  · rcases reserve_origin env hE' true fuel l w x h with ⟨r, hr, ho⟩ | ⟨-, ht⟩
    · refine ⟨r, hr, ?_⟩
      rcases ho with rfl | rfl | ⟨k, hk, hnd, hnz⟩ | rfl | ⟨k, hk, hni, hnz⟩
      · exact ⟨by intro h0; exact hE1 (by omega), Or.inl rfl⟩
      · exact ⟨by intro h0; exact hE4 (by omega), Or.inr (Or.inl rfl)⟩
      · refine ⟨hnd, ?_⟩
        rcases htry k with h0 | h0 | h0 | h0
        · exact absurd (hk.trans h0) hnz
        · exact absurd (hk.trans h0) hnd
        · exact Or.inr (Or.inl (hk.trans h0))
        · exact Or.inr (Or.inr (Or.inl (hk.trans h0)))
      · exact ⟨by intro h0; exact hE6 (by omega), Or.inr (Or.inr (Or.inr rfl))⟩
      · rcases hslow k with h0 | h0
        · exact absurd (hk.trans h0) hnz
        · exact absurd (hk.trans h0) hni
    · exact absurd ht (by simp)
  · obtain ⟨evs, h1, body, tail, h2, h3, h4⟩ := reserve_trace env hE' true fuel l w x hne h
    obtain ⟨t1, t2, -, -⟩ := h4.facts
    refine ⟨[Event.ww_acquire_init] ++ evs, by simpa using h1, ?_⟩
    rw [h2]
    simp only [List.countP_append, h3.paired rfl, t1, t2 env]
    simp [List.countP_cons, is_slow, is_deadlk]

theorem deadlk_never_escapes_witness :
    (∃ r, (exit_of demo_env 2 true demo_list demo_world).code = some r ∧
      r ≠ -demo_env.EDEADLK ∧
      (r = 0 ∨ r = -demo_env.EBUSY ∨ r = -demo_env.EINTR ∨ r = -demo_env.ERESTARTSYS)) ∧
    ∃ evs, (exit_of demo_env 2 true demo_list demo_world).world.trace =
        demo_world.trace ++ evs ∧
      evs.countP is_slow = evs.countP (is_deadlk demo_env) :=
  deadlk_never_escapes demo_env (by decide) 2 demo_list demo_world
    (exit_of demo_env 2 true demo_list demo_world) (by decide)
    (fun k => by
      by_cases hk : k = 1
      · exact Or.inr (Or.inl (by simp [demo_env, hk]))
      · exact Or.inl (by simp [demo_env, hk]))
    (fun _ => Or.inl rfl) rfl

theorem spin_run_unref (l : List ttm_validate_buffer) :
    spin_run (false, false) (unref_events l) = some (false, false) := by
  induction l with
  | nil => rfl
  | cons a l ih =>
    rw [unref_events]
    cases a.old_sync_obj with
    | none => exact ih
    | some t => simpa [spin_run, spin_step] using ih

theorem fence_events_free (tok : Option Nat) (l : List ttm_validate_buffer) :
    ∀ ev ∈ fence_events tok l, spin_free ev = true := by
  induction l with
  | nil => simp [fence_events]
  | cons a l ih =>
    intro ev hev
    rw [fence_events] at hev
    simp only [List.mem_append, List.mem_cons, List.not_mem_nil, or_false] at hev
    rcases hev with (rfl | rfl | rfl) | hev
    · rfl
    · rfl
    · rfl
    · exact ih ev hev

/-- C10: the calls of `ttm_eu_reserve_buffers` (however it ends), of
`ttm_eu_backoff_reservation` and of `ttm_eu_fence_buffer_objects` keep the
spinlock discipline of `spin_step` from no spinlock held to no spinlock held:
no reservation lock is acquired, no reference is dropped and no old sync object
is released while a spinlock is held, `fence_lock` is taken only under
`lru_lock` and released before it, and every spinlock taken is released; and
only `ttm_eu_fence_buffer_objects` takes `fence_lock`. -/
theorem spinlock_discipline (env : Env) (hE : env.errno_ok) (fuel : Nat) (ticket : Bool)
    (l : List ttm_validate_buffer) (w : World) (tok : Option Nat) :
    (∀ x, ttm_eu_reserve_buffers env fuel ticket l w = some x →
      ∃ evs, x.world.trace = w.trace ++ evs ∧
        spin_run (false, false) evs = some (false, false) ∧
        Event.spin_lock_fence ∉ evs) ∧
    (∃ evs, (ttm_eu_backoff_reservation ticket l w).2.trace = w.trace ++ evs ∧
      spin_run (false, false) evs = some (false, false) ∧ Event.spin_lock_fence ∉ evs) ∧
    (∃ evs, (ttm_eu_fence_buffer_objects env ticket l tok w).2.trace = w.trace ++ evs ∧
      spin_run (false, false) evs = some (false, false)) := by
  refine ⟨?_, ?_, ?_⟩
  · intro x h
    by_cases hne : l = []
    · subst hne
      simp only [ttm_eu_reserve_buffers, Option.some.injEq] at h
      subst h
      exact ⟨[], by simp [Exit.world], rfl, by simp⟩
    · obtain ⟨evs, h1, body, tail, h2, h3, h4⟩ := reserve_trace env hE ticket fuel l w x hne h
      obtain ⟨-, -, t3, t4⟩ := h4.facts
      refine ⟨(if ticket = true then [Event.ww_acquire_init] else []) ++ evs,
        by simpa using h1, ?_, ?_⟩
      · have h0 : spin_run (false, false)
            (if ticket = true then [Event.ww_acquire_init] else []) = some (false, false) := by
          cases ticket <;> rfl
        rw [h2, spin_run_append, h0]
        simp only [Option.bind]
        rw [spin_run_append, h3.spin]
        exact t4
      · rw [h2]
        intro hmem
        simp only [List.mem_append] at hmem
        rcases hmem with hmem | hmem | hmem
        · cases ticket <;> simp at hmem
        · have := h3.kind _ hmem
          simp [walk_event] at this
        · exact t3 hmem
  · refine ⟨_, (backoff_call ticket l w).2.2.2.2, ?_, ?_⟩
    · cases l with
      | nil => rfl
      | cons a l =>
        simp only [backoff_call_events]
        rw [spin_run_append, spin_run_append, spin_run_append]
        have h1 : spin_run (false, false) [Event.spin_lock_lru] = some (true, false) := rfl
        rw [h1]
        simp only [Option.bind]
        rw [spin_run_free _ _ (fun ev hev => (backoff_events_kind _ ev hev).1)]
        simp only []
        cases ticket <;> rfl
    · cases l with
      | nil => simp [backoff_call_events]
      | cons a l =>
        simp only [backoff_call_events]
        intro hmem
        simp only [List.mem_append, List.mem_cons, List.not_mem_nil, or_false] at hmem
        rcases hmem with ((hmem | hmem) | hmem) | hmem
        · cases hmem
        · rcases backoff_events_shape _ _ hmem with ⟨_, h⟩ | ⟨_, h⟩ <;> cases h
        · cases ticket <;> simp at hmem
        · cases hmem
  · by_cases hne : l = []
    · subst hne
      exact ⟨[], by simp [ttm_eu_fence_buffer_objects], rfl⟩
    · refine ⟨_, (fence_call env ticket l tok w).2.2.2.2 hne, ?_⟩
      simp only [fence_call_events]
      rw [spin_run_append, spin_run_append, spin_run_append, spin_run_append]
      have h1 : spin_run (false, false) [Event.spin_lock_lru, Event.spin_lock_fence] =
          some (true, true) := rfl
      rw [h1]
      simp only [Option.bind]
      rw [spin_run_free _ _ (fence_events_free tok l)]
      simp only []
      have h2 : spin_run (true, true) [Event.spin_unlock_fence, Event.spin_unlock_lru] =
          some (false, false) := rfl
      rw [h2]
      simp only []
      have h3 : spin_run (false, false)
          (if ticket = true then [Event.ww_acquire_fini] else []) = some (false, false) := by
        cases ticket <;> rfl
      rw [h3]
      exact spin_run_unref _

theorem spinlock_discipline_witness :
    ∃ evs, (exit_of demo_env 2 true demo_list demo_world).world.trace =
        demo_world.trace ++ evs ∧
      spin_run (false, false) evs = some (false, false) ∧
      Event.spin_lock_fence ∉ evs :=
  (spinlock_discipline demo_env (by decide) 2 true demo_list demo_world none).1
    (exit_of demo_env 2 true demo_list demo_world) rfl

theorem backoff_events_fresh (l : List ttm_validate_buffer)
    (h : ∀ e ∈ l, e.removed = false ∧ e.put_count = 0) :
    backoff_events l = unres_events l := by
  induction l with
  | nil => rfl
  | cons e l ih =>
    simp only [List.mem_cons, forall_eq_or_imp] at h
    rw [backoff_events, unres_events, ih h.2]
    by_cases hr : e.reserved = true <;> simp [hr, h.1.1]

theorem unwind_events_fresh (l : List ttm_validate_buffer)
    (h : ∀ e ∈ l, e.removed = false ∧ e.put_count = 0) :
    unwind_events l = [Event.spin_lock_lru] ++ unres_events l ++ [Event.spin_unlock_lru] := by
  have hz : ∀ e ∈ l.map unres, e.put_count = 0 := by
    intro e he
    simp only [List.mem_map] at he
    obtain ⟨a, ha, rfl⟩ := he
    rw [unres_put_count]; exact (h a ha).2
  rw [unwind_events, backoff_events_fresh l h, ref_events_of_zero _ hz]
  simp

/-- The cases of one step of the walk, on a state that satisfies `SInv`. -/
theorem walk_cases (env : Env) (hE : env.errno_ok) (ticket : Bool) (w0 : World)
    (bos : List Nat) (pre rest : List ttm_validate_buffer) (e : ttm_validate_buffer)
    (w : World) (h : SInv w0 bos (pre ++ e :: rest) w) :
    (e.reserved = true ∧
      reserve_walk env ticket pre (e :: rest) w =
        reserve_walk env ticket (pre ++ [e]) rest w) ∨
    (e.reserved = false ∧ env.bo_reserve w.n_reserve = -env.EDEADLK ∧ ticket = false ∧
      reserve_walk env ticket pre (e :: rest) w =
        Walk.bug (pre ++ e :: rest) (try_world env ticket e w)) ∨
    (e.reserved = false ∧ env.bo_reserve w.n_reserve = -env.EDEADLK ∧ ticket = true ∧
      SInv w0 bos (pre ++ e :: rest) (try_world env ticket e w) ∧
      reserve_walk env ticket pre (e :: rest) w =
        reserve_wound env pre.length e.bo (pre ++ e :: rest) (try_world env ticket e w)) ∨
    (e.reserved = false ∧ env.bo_reserve w.n_reserve ≠ -env.EDEADLK ∧
      env.bo_reserve w.n_reserve ≠ 0 ∧
      SInv w0 bos (pre ++ e :: rest) (try_world env ticket e w) ∧
      reserve_walk env ticket pre (e :: rest) w =
        Walk.err (env.bo_reserve w.n_reserve) (pre ++ e :: rest) (try_world env ticket e w)) ∨
    (e.reserved = false ∧ env.bo_reserve w.n_reserve = 0 ∧ 0 < env.cpu_writers w.n_cpu ∧
      SInv w0 bos (pre ++ { e with reserved := true } :: rest) (read_world env ticket e w) ∧
      reserve_walk env ticket pre (e :: rest) w =
        Walk.err (-env.EBUSY) (pre ++ { e with reserved := true } :: rest)
          (read_world env ticket e w)) ∨
    (e.reserved = false ∧ env.bo_reserve w.n_reserve = 0 ∧ env.cpu_writers w.n_cpu ≤ 0 ∧
      SInv w0 bos (pre ++ { e with reserved := true } :: rest) (read_world env ticket e w) ∧
      reserve_walk env ticket pre (e :: rest) w =
        reserve_walk env ticket (pre ++ [{ e with reserved := true }]) rest
          (read_world env ticket e w)) := by
  rw [reserve_walk_cons]
  by_cases hr : e.reserved = true
  · exact Or.inl ⟨hr, by rw [if_pos hr]⟩
  · have hr' : e.reserved = false := by simpa using hr
    right
    rw [if_neg hr]
    by_cases hd : env.bo_reserve w.n_reserve = -env.EDEADLK
    · have hnz : env.bo_reserve w.n_reserve ≠ 0 := by
        rw [hd]; simpa using hE.1
      have h1 : SInv w0 bos (pre ++ e :: rest) (try_world env ticket e w) :=
        h.same (by funext b; simp [try_world, __ttm_bo_reserve, hnz]) rfl rfl
      rw [if_pos (by simpa [__ttm_bo_reserve] using hd)]
      cases ticket
      · exact Or.inl ⟨hr', hd, rfl, by simp [try_world]⟩
      · exact Or.inr (Or.inl ⟨hr', hd, rfl, h1, by simp [try_world]⟩)
    · right; right
      rw [if_neg (by simpa [__ttm_bo_reserve] using hd)]
      by_cases hz : env.bo_reserve w.n_reserve = 0
      · right
        rw [if_neg (by simpa [__ttm_bo_reserve] using hz)]
        have h2 : SInv w0 bos (pre ++ { e with reserved := true } :: rest)
            (read_world env ticket e w) :=
          h.acquire (by intro b; simp [read_world, try_world, atomic_read_cpu_writers,
            __ttm_bo_reserve, hz]) rfl rfl
        by_cases hv : 0 < env.cpu_writers w.n_cpu
        · left
          rw [if_pos (by simpa [atomic_read_cpu_writers, __ttm_bo_reserve] using hv)]
          exact ⟨hr', hz, hv, h2, rfl⟩
        · right
          rw [if_neg (by simpa [atomic_read_cpu_writers, __ttm_bo_reserve] using hv)]
          exact ⟨hr', hz, by omega, h2, rfl⟩
      · left
        rw [if_pos (by simpa [__ttm_bo_reserve] using hz)]
        exact ⟨hr', hd, hz,
          h.same (by funext b; simp [try_world, __ttm_bo_reserve, hz]) rfl rfl, rfl⟩

/-- The cases of `reserve_wound`, on a state that satisfies `SInv`. -/
theorem wound_cases (env : Env) (w0 : World) (bos : List Nat)
    (pre rest : List ttm_validate_buffer) (e : ttm_validate_buffer) (w1 : World)
    (h : SInv w0 bos (pre ++ e :: rest) w1) :
    wound_list (pre ++ e :: rest) w1 = (pre ++ e :: rest).map unres ∧
    SInv w0 bos ((pre ++ e :: rest).map unres) (wound_world (pre ++ e :: rest) w1) ∧
    (wound_world (pre ++ e :: rest) w1).trace = w1.trace ++
      ([Event.spin_lock_lru] ++ unres_events (pre ++ e :: rest) ++ [Event.spin_unlock_lru]) ∧
    (wound_world (pre ++ e :: rest) w1).n_reserve = w1.n_reserve ∧
    (wound_world (pre ++ e :: rest) w1).n_slow = w1.n_slow ∧
    (wound_world (pre ++ e :: rest) w1).n_cpu = w1.n_cpu ∧
    ((env.lock_slow w1.n_slow ≠ 0 ∧
      SInv w0 bos ((pre ++ e :: rest).map unres) (slow_world env e.bo (pre ++ e :: rest) w1) ∧
      reserve_wound env pre.length e.bo (pre ++ e :: rest) w1 =
        Walk.err_fini (if env.lock_slow w1.n_slow = -env.EINTR then -env.ERESTARTSYS
            else env.lock_slow w1.n_slow)
          ((pre ++ e :: rest).map unres) (slow_world env e.bo (pre ++ e :: rest) w1)) ∨
     (env.lock_slow w1.n_slow = 0 ∧ 0 < env.cpu_writers w1.n_cpu ∧
      SInv w0 bos (wound_marked pre rest e) (slow_read_world env e.bo (pre ++ e :: rest) w1) ∧
      reserve_wound env pre.length e.bo (pre ++ e :: rest) w1 =
        Walk.err (-env.EBUSY) (wound_marked pre rest e)
          (slow_read_world env e.bo (pre ++ e :: rest) w1)) ∨
     (env.lock_slow w1.n_slow = 0 ∧ env.cpu_writers w1.n_cpu ≤ 0 ∧
      SInv w0 bos (wound_marked pre rest e) (slow_read_world env e.bo (pre ++ e :: rest) w1) ∧
      reserve_wound env pre.length e.bo (pre ++ e :: rest) w1 =
        Walk.retry (wound_marked pre rest e)
          (slow_read_world env e.bo (pre ++ e :: rest) w1))) := by
  obtain ⟨hl, hw⟩ := wound_fresh (pre ++ e :: rest) w1 h.fresh
  have hb : SInv w0 bos ((pre ++ e :: rest).map unres) (wound_world (pre ++ e :: rest) w1) :=
    h.backoff (by intro b; rw [hw]) (by rw [hw]) (by rw [hw])
  have hn1 : (wound_world (pre ++ e :: rest) w1).n_slow = w1.n_slow := by rw [hw]
  have hn2 : (wound_world (pre ++ e :: rest) w1).n_cpu = w1.n_cpu := by rw [hw]
  have hn3 : (wound_world (pre ++ e :: rest) w1).n_reserve = w1.n_reserve := by rw [hw]
  have hmark : set_reserved pre.length ((pre ++ e :: rest).map unres) =
      wound_marked pre rest e := by
    rw [List.map_append, List.map_cons, set_reserved_append _ _ _ _ (by simp)]
    rfl
  refine ⟨hl, hb, ?_, hn3, hn1, hn2, ?_⟩
  · rw [wound_world_trace, unwind_events_fresh _ h.fresh]
  · rw [reserve_wound_eq, hl, hmark]
    by_cases hs : env.lock_slow w1.n_slow = 0
    · right
      have hb2 : SInv w0 bos (wound_marked pre rest e)
          (slow_read_world env e.bo (pre ++ e :: rest) w1) := by
        rw [List.map_append, List.map_cons] at hb
        refine hb.acquire ?_ rfl rfl
        intro b
        simp [slow_read_world, slow_world, atomic_read_cpu_writers,
          ww_mutex_lock_slow_interruptible, hn1, hs, unres_bo]
      rw [if_neg (by simp [ww_mutex_lock_slow_interruptible, hn1, hs])]
      by_cases hv : 0 < env.cpu_writers w1.n_cpu
      · left
        rw [if_pos (by simpa [atomic_read_cpu_writers, ww_mutex_lock_slow_interruptible,
          hn2] using hv)]
        exact ⟨hs, hv, hb2, rfl⟩
      · right
        rw [if_neg (by simpa [atomic_read_cpu_writers, ww_mutex_lock_slow_interruptible,
          hn2] using hv)]
        exact ⟨hs, by omega, hb2, rfl⟩
    · left
      rw [if_pos (by simpa [ww_mutex_lock_slow_interruptible, hn1] using hs)]
      refine ⟨hs, hb.same ?_ rfl rfl, ?_⟩
      · funext b
        simp [slow_world, ww_mutex_lock_slow_interruptible, hn1, hs]
      · simp [ww_mutex_lock_slow_interruptible, hn1, slow_world]

theorem try_world_trace (env : Env) (ticket : Bool) (e : ttm_validate_buffer) (w : World) :
    (try_world env ticket e w).trace =
      w.trace ++ [Event.bo_reserve e.bo (!ticket) (env.bo_reserve w.n_reserve)] := rfl

theorem read_world_trace (env : Env) (ticket : Bool) (e : ttm_validate_buffer) (w : World) :
    (read_world env ticket e w).trace =
      w.trace ++ [Event.bo_reserve e.bo (!ticket) (env.bo_reserve w.n_reserve),
        Event.cpu_writers e.bo (env.cpu_writers w.n_cpu)] := by
  simp [read_world, try_world, atomic_read_cpu_writers, __ttm_bo_reserve]

theorem slow_world_trace (env : Env) (bo : Nat) (l : List ttm_validate_buffer) (w1 : World) :
    (slow_world env bo l w1).trace = (wound_world l w1).trace ++
      [Event.lock_slow bo (env.lock_slow (wound_world l w1).n_slow)] := rfl

theorem slow_read_world_trace (env : Env) (bo : Nat) (l : List ttm_validate_buffer)
    (w1 : World) :
    (slow_read_world env bo l w1).trace = (wound_world l w1).trace ++
      [Event.lock_slow bo (env.lock_slow (wound_world l w1).n_slow),
        Event.cpu_writers bo (env.cpu_writers (wound_world l w1).n_cpu)] := by
  simp [slow_read_world, slow_world, atomic_read_cpu_writers, ww_mutex_lock_slow_interruptible]

theorem unres_events_kind (l : List ttm_validate_buffer) :
    ∀ ev ∈ unres_events l, ∃ b, ev = Event.bo_unreserve b := by
  induction l with
  | nil => simp [unres_events]
  | cons e l ih =>
    intro ev hev
    rw [unres_events] at hev
    split at hev
    · simp only [List.mem_cons] at hev
      rcases hev with rfl | hev
      · exact ⟨_, rfl⟩
      · exact ih ev hev
    · exact ih ev hev

theorem wound_lock_events (env : Env) (w0 : World) (bos : List Nat)
    (pre rest : List ttm_validate_buffer) (e : ttm_validate_buffer) (w1 : World)
    (h : SInv w0 bos (pre ++ e :: rest) w1) :
    ∃ evs, (reserve_wound env pre.length e.bo (pre ++ e :: rest) w1).world.trace =
        w1.trace ++ evs ∧ ∀ ev ∈ evs, lock_event ev = true := by
  obtain ⟨-, -, ht, -, hn1, hn2, hc⟩ := wound_cases env w0 bos pre rest e w1 h
  have hu : ∀ ev ∈ [Event.spin_lock_lru] ++ unres_events (pre ++ e :: rest) ++
      [Event.spin_unlock_lru], lock_event ev = true := by
    intro ev hev
    simp only [List.mem_append, List.mem_cons, List.not_mem_nil, or_false] at hev
    rcases hev with (rfl | hev) | rfl
    · rfl
    · obtain ⟨b, rfl⟩ := unres_events_kind _ ev hev
      rfl
    · rfl
  generalize [Event.spin_lock_lru] ++ unres_events (pre ++ e :: rest) ++
    [Event.spin_unlock_lru] = U at ht hu
  rcases hc with ⟨-, -, heq⟩ | ⟨-, -, -, heq⟩ | ⟨-, -, -, heq⟩
  · rw [heq]
    refine ⟨U ++ [Event.lock_slow e.bo (env.lock_slow w1.n_slow)], ?_, ?_⟩
    · simp only [Walk.world, slow_world_trace, ht, hn1, List.append_assoc]
    · intro ev hev
      simp only [List.mem_append, List.mem_singleton] at hev
      rcases hev with hev | rfl
      · exact hu ev hev
      · rfl
  all_goals
    rw [heq]
    refine ⟨U ++ [Event.lock_slow e.bo (env.lock_slow w1.n_slow),
      Event.cpu_writers e.bo (env.cpu_writers w1.n_cpu)], ?_, ?_⟩
    · simp only [Walk.world, slow_read_world_trace, ht, hn1, hn2, List.append_assoc]
    · intro ev hev
      simp only [List.mem_append, List.mem_cons, List.not_mem_nil, or_false] at hev
      rcases hev with hev | rfl | rfl
      · exact hu ev hev
      · rfl
      · rfl

theorem walk_lock_events (env : Env) (hE : env.errno_ok) (ticket : Bool) (w0 : World)
    (bos : List Nat) : ∀ (rest pre : List ttm_validate_buffer) (w : World),
    SInv w0 bos (pre ++ rest) w →
    ∃ evs, (reserve_walk env ticket pre rest w).world.trace = w.trace ++ evs ∧
      ∀ ev ∈ evs, lock_event ev = true := by
  intro rest
  induction rest with
  | nil =>
    intro pre w _
    exact ⟨[], by simp [reserve_walk, Walk.world], by simp⟩
  | cons e rest ih =>
    intro pre w h
    rcases walk_cases env hE ticket w0 bos pre rest e w h with
      ⟨-, heq⟩ | ⟨-, -, -, heq⟩ | ⟨-, -, -, h1, heq⟩ | ⟨-, -, -, -, heq⟩ |
      ⟨-, -, -, -, heq⟩ | ⟨-, -, -, h2, heq⟩
    · rw [heq]
      exact ih _ w (by simpa using h)
    · rw [heq]
      exact ⟨_, try_world_trace env ticket e w, by simp [lock_event]⟩
    · rw [heq]
      obtain ⟨evs, ht, hk⟩ := wound_lock_events env w0 bos pre rest e _ h1
      refine ⟨[Event.bo_reserve e.bo (!ticket) (env.bo_reserve w.n_reserve)] ++ evs, ?_, ?_⟩
      · rw [ht, try_world_trace]; simp
      · intro ev hev
        simp only [List.mem_append, List.mem_singleton] at hev
        rcases hev with rfl | hev
        · rfl
        · exact hk ev hev
    · rw [heq]
      exact ⟨_, try_world_trace env ticket e w, by simp [lock_event]⟩
    · rw [heq]
      exact ⟨_, read_world_trace env ticket e w, by simp [lock_event]⟩
    · rw [heq]
      obtain ⟨evs, ht, hk⟩ := ih (pre ++ [{ e with reserved := true }])
        (read_world env ticket e w) (by simpa using h2)
      refine ⟨[Event.bo_reserve e.bo (!ticket) (env.bo_reserve w.n_reserve),
        Event.cpu_writers e.bo (env.cpu_writers w.n_cpu)] ++ evs, ?_, ?_⟩
      · rw [ht, read_world_trace]; simp
      · intro ev hev
        simp only [List.mem_append, List.mem_cons, List.not_mem_nil, or_false] at hev
        rcases hev with (rfl | rfl) | hev
        · rfl
        · rfl
        · exact hk ev hev

theorem ref_total_append (a b : List Event) :
    ref_total (a ++ b) = ref_total a + ref_total b := by
  induction a with
  | nil => simp [ref_total]
  | cons ev a ih =>
    cases ev <;> simp [ref_total, ih, Nat.add_assoc]

theorem del_total_append (a b : List Event) :
    del_total (a ++ b) = del_total a + del_total b := by
  induction a with
  | nil => simp [del_total]
  | cons ev a ih =>
    cases ev <;> simp [del_total, ih, Nat.add_assoc]

theorem totals_of_lock_events (evs : List Event) (h : ∀ ev ∈ evs, lock_event ev = true) :
    ref_total evs = 0 ∧ del_total evs = 0 ∧ evs.countP is_del = 0 := by
  induction evs with
  | nil => exact ⟨rfl, rfl, rfl⟩
  | cons ev evs ih =>
    simp only [List.mem_cons, forall_eq_or_imp] at h
    obtain ⟨h1, h2, h3⟩ := ih h.2
    have hev := h.1
    cases ev <;> simp [lock_event] at hev <;>
      simp [ref_total, del_total, List.countP_cons, is_del, h1, h2, h3]

theorem totals_of_del (env : Env) (l : List ttm_validate_buffer) (n : Nat)
    (h : ∀ e ∈ l, e.reserved = true ∧ e.removed = false) :
    ref_total (ref_events (del_list env n l)) = del_total (del_events env n l) ∧
    ref_total (del_events env n l) = 0 ∧
    del_total (ref_events (del_list env n l)) = 0 ∧
    (del_events env n l).countP is_del = l.length ∧
    (ref_events (del_list env n l)).countP is_del = 0 := by
  induction l generalizing n with
  | nil => simp [del_list, del_events, ref_events, ref_total, del_total]
  | cons e l ih =>
    simp only [List.mem_cons, forall_eq_or_imp] at h
    obtain ⟨h1, h2, h3, h4, h5⟩ := ih (n + 1) h.2
    rw [del_list, del_events, if_pos h.1, if_pos h.1, ref_events]
    by_cases hz : env.del_from_lru n = 0
    · simp [hz, ref_total, del_total, h1, h2, h3, h4, h5, List.countP_cons, is_del]
    · simp [hz, ref_total, del_total, ref_total_append, del_total_append, h1, h2, h3, h4,
        h5, List.countP_cons, is_del]

/-- The calls of a `ttm_eu_reserve_buffers` that returns 0, from `retry:` on:
lock calls of the walks, then `ww_acquire_done` (with a ticket), then under
`lru_lock` one LRU removal per entry, then the reference drops. -/
theorem retry_done_trace (env : Env) (hE : env.errno_ok) (ticket : Bool) (w0 : World)
    (bos : List Nat) : ∀ (fuel : Nat) (l : List ttm_validate_buffer) (w : World)
      (l1 : List ttm_validate_buffer) (w1 : World),
    SInv w0 bos l w → reserve_retry env ticket fuel l w = some (Exit.ret 0 l1 w1) →
    ∃ body l2 w2, w1.trace = w.trace ++ body ++
        ((if ticket = true then [Event.ww_acquire_done] else []) ++
          [Event.spin_lock_lru] ++ del_events env w2.n_del l2 ++ [Event.spin_unlock_lru] ++
          ref_events (del_list env w2.n_del l2)) ∧
      (∀ ev ∈ body, lock_event ev = true) ∧ SInv w0 bos l2 w2 ∧
      (∀ e ∈ l2, e.reserved = true) ∧ w2.trace = w.trace ++ body := by
  intro fuel
  induction fuel with
  | zero => intro l w l1 w1 _ h; simp [reserve_retry] at h
  | succ fuel ih =>
    intro l w l1 w1 hI h
    rw [reserve_retry_succ] at h
    have hw := walk_sinv env hE ticket w0 bos l [] w (by simpa using hI) (by simp)
    obtain ⟨body, hb, hk⟩ := walk_lock_events env hE ticket w0 bos l [] w (by simpa using hI)
    cases hwalk : reserve_walk env ticket [] l w with
    | done l2 w2 =>
      rw [hwalk] at h hw hb
      simp only [Option.some.injEq, Exit.ret.injEq, true_and] at h
      obtain ⟨-, hwd⟩ := h
      simp only [Walk.world] at hb
      refine ⟨body, l2, w2, ?_, hk, hw.1, hw.2, hb⟩
      rw [← hwd, ref_sub_snd, del_fst]
      simp only [World.emit, del_trace]
      cases ticket <;> simp [hb]
    | retry l2 w2 =>
      rw [hwalk] at h hw hb
      simp only [Walk.world] at hb
      obtain ⟨body2, l3, w3, h1, h2, h3, h4, h5⟩ := ih l2 w2 l1 w1 hw h
      refine ⟨body ++ body2, l3, w3, ?_, ?_, h3, h4, ?_⟩
      · rw [h1, hb]; simp
      · intro ev hev
        simp only [List.mem_append] at hev
        rcases hev with hev | hev
        · exact hk ev hev
        · exact h2 ev hev
      · rw [h5, hb]; simp
    | err r l2 w2 =>
      rw [hwalk] at h hw
      simp only [Option.some.injEq] at h
      have := (err_trace ticket r l2 w2).2
      rw [h] at this
      simp only [Exit.code, Option.some.injEq] at this
      exact absurd this.symm hw.2
    | err_fini r l2 w2 =>
      rw [hwalk] at h hw
      simp only [Option.some.injEq] at h
      have := (err_fini_trace ticket r l2 w2).2
      rw [h] at this
      simp only [Exit.code, Option.some.injEq] at this
      exact absurd this.symm hw.2.1
    | bug l2 w2 =>
      rw [hwalk] at h
      simp at h

/-- C11, as stated, fails: in a `ttm_eu_reserve_buffers` that returns 0 on three
entries, with `ttm_bo_del_from_lru` answering 2 each time, the counts passed
to `ttm_bo_list_ref_sub` add up to 6 while 3 LRU removals are made. -/
theorem put_counts_not_removals :
    (exit_of demo_env_two 2 true demo_list demo_world).code = some 0 ∧
    ref_total (exit_of demo_env_two 2 true demo_list demo_world).world.trace = 6 ∧
    (exit_of demo_env_two 2 true demo_list demo_world).world.trace.countP is_del = 3 := by
  decide

/-- C11, amended: in a `ttm_eu_reserve_buffers` that returns 0, the counts passed
to `ttm_bo_list_ref_sub` add up to the sum of the values that the
`ttm_bo_del_from_lru` calls of that call returned, and there is one such call
per entry of the list. -/
theorem reference_conservation (env : Env) (hE : env.errno_ok) (fuel : Nat) (ticket : Bool)
    (l : List ttm_validate_buffer) (w : World) (l1 : List ttm_validate_buffer) (w1 : World)
    (h : ttm_eu_reserve_buffers env fuel ticket l w = some (Exit.ret 0 l1 w1)) :
    ∃ evs, w1.trace = w.trace ++ evs ∧ ref_total evs = del_total evs ∧
      evs.countP is_del = l.length := by
  cases l with
  | nil =>
    simp only [ttm_eu_reserve_buffers, Option.some.injEq, Exit.ret.injEq, true_and] at h
    obtain ⟨-, rfl⟩ := h
    exact ⟨[], by simp, rfl, rfl⟩
  | cons a rest =>
    simp only [ttm_eu_reserve_buffers] at h
    obtain ⟨body, l2, w2, h1, h2, h3, h4, -⟩ := retry_done_trace env hE ticket w _ fuel _ _
      l1 w1 (init_sinv ticket (a :: rest) w) h
    obtain ⟨b1, b2, b3⟩ := totals_of_lock_events body h2
    obtain ⟨t1, t2, t3, t4, t5⟩ := totals_of_del env l2 w2.n_del
      (fun e he => ⟨h4 e he, (h3.fresh e he).1⟩)
    have hlen : l2.length = (a :: rest).length := by
      have := congrArg List.length h3.bos_eq
      simpa using this
    refine ⟨(if ticket = true then [Event.ww_acquire_init] else []) ++ body ++
      ((if ticket = true then [Event.ww_acquire_done] else []) ++
        [Event.spin_lock_lru] ++ del_events env w2.n_del l2 ++ [Event.spin_unlock_lru] ++
        ref_events (del_list env w2.n_del l2)), ?_, ?_, ?_⟩
    · rw [h1]
      cases ticket <;> simp [World.emit]
    · simp only [ref_total_append, del_total_append, b1, b2, t1, t2, t3]
      cases ticket <;> simp [ref_total, del_total]
    · simp only [List.countP_append, b3, t4, t5, hlen]
      cases ticket <;> simp [List.countP_cons, is_del]

theorem reference_conservation_witness :
    ∃ evs, (exit_of demo_env_two 2 true demo_list demo_world).world.trace =
        demo_world.trace ++ evs ∧ ref_total evs = del_total evs ∧
      evs.countP is_del = demo_list.length :=
  reference_conservation demo_env_two (by decide) 2 true demo_list demo_world
    (exit_of demo_env_two 2 true demo_list demo_world).list
    (exit_of demo_env_two 2 true demo_list demo_world).world rfl

/-- C12: on the empty list `ttm_eu_reserve_buffers` returns 0, whatever the fuel
and the ticket, and `ttm_eu_reserve_buffers`, `ttm_eu_backoff_reservation` and
`ttm_eu_fence_buffer_objects` leave the world as it is: no call on the ticket,
on a lock or on the driver is made. -/
theorem empty_list_no_calls (env : Env) (fuel : Nat) (ticket : Bool) (tok : Option Nat)
    (w : World) :
    ttm_eu_reserve_buffers env fuel ticket [] w = some (Exit.ret 0 [] w) ∧
    ttm_eu_backoff_reservation ticket [] w = ([], w) ∧
    ttm_eu_fence_buffer_objects env ticket [] tok w = ([], w) :=
  ⟨rfl, rfl, rfl⟩

theorem Clean.failmap {env : Env} {evs : List Event} (r : Int) (h : Clean env evs) :
    FailMap env r evs :=
  ⟨fun b nw r1 hm => by
      rcases h.1 b nw r1 hm with h0 | h0
      · exact Or.inl h0
      · exact Or.inr (Or.inl h0),
   fun b r1 hm => Or.inl (h.2 b r1 hm)⟩

theorem Clean.add {env : Env} {evs more : List Event} (h : Clean env evs)
    (h1 : ∀ b nw r1, Event.bo_reserve b nw r1 ∈ more → r1 = 0 ∨ r1 = -env.EDEADLK)
    (h2 : ∀ b r1, Event.lock_slow b r1 ∈ more → r1 = 0) : Clean env (evs ++ more) :=
  ⟨fun b nw r1 hm => by
      simp only [List.mem_append] at hm
      rcases hm with hm | hm
      · exact h.1 b nw r1 hm
      · exact h1 b nw r1 hm,
   fun b r1 hm => by
      simp only [List.mem_append] at hm
      rcases hm with hm | hm
      · exact h.2 b r1 hm
      · exact h2 b r1 hm⟩

theorem FailMap.quiet {env : Env} {r : Int} {evs more : List Event} (h : FailMap env r evs)
    (h1 : ∀ b nw r1, Event.bo_reserve b nw r1 ∉ more)
    (h2 : ∀ b r1, Event.lock_slow b r1 ∉ more) : FailMap env r (evs ++ more) :=
  ⟨fun b nw r1 hm => by
      simp only [List.mem_append] at hm
      rcases hm with hm | hm
      · exact h.1 b nw r1 hm
      · exact absurd hm (h1 b nw r1),
   fun b r1 hm => by
      simp only [List.mem_append] at hm
      rcases hm with hm | hm
      · exact h.2 b r1 hm
      · exact absurd hm (h2 b r1)⟩

theorem unres_events_no_lock (l : List ttm_validate_buffer) :
    (∀ b nw r1, Event.bo_reserve b nw r1 ∉
      [Event.spin_lock_lru] ++ unres_events l ++ [Event.spin_unlock_lru]) ∧
    (∀ b r1, Event.lock_slow b r1 ∉
      [Event.spin_lock_lru] ++ unres_events l ++ [Event.spin_unlock_lru]) := by
  constructor
  · intro b nw r1 hm
    simp only [List.mem_append, List.mem_cons, List.not_mem_nil, or_false] at hm
    rcases hm with (hm | hm) | hm
    · cases hm
    · obtain ⟨_, h⟩ := unres_events_kind l _ hm
      cases h
    · cases hm
  · intro b r1 hm
    simp only [List.mem_append, List.mem_cons, List.not_mem_nil, or_false] at hm
    rcases hm with (hm | hm) | hm
    · cases hm
    · obtain ⟨_, h⟩ := unres_events_kind l _ hm
      cases h
    · cases hm

theorem walk_failmap (env : Env) (hE : env.errno_ok) (ticket : Bool) (w0 : World)
    (bos : List Nat) (t0 : List Event) :
    ∀ (rest pre : List ttm_validate_buffer) (w : World) (evs : List Event),
    SInv w0 bos (pre ++ rest) w → w.trace = t0 ++ evs → Clean env evs →
    Walk.failmap env t0 (reserve_walk env ticket pre rest w) := by
  intro rest
  induction rest with
  | nil =>
    intro pre w evs _ ht hc
    rw [reserve_walk]
    exact ⟨evs, ht, hc⟩
  | cons e rest ih =>
    intro pre w evs h ht hc
    rcases walk_cases env hE ticket w0 bos pre rest e w h with
      ⟨-, heq⟩ | ⟨-, -, -, heq⟩ | ⟨-, hd, -, h1, heq⟩ | ⟨-, hnd, hnz, -, heq⟩ |
      ⟨-, hz, -, -, heq⟩ | ⟨-, hz, -, h2, heq⟩
    · rw [heq]
      exact ih _ w evs (by simpa using h) ht hc
    · rw [heq]; trivial
    · rw [heq]
      obtain ⟨-, -, htw, -, hn1, hn2, hcase⟩ := wound_cases env w0 bos pre rest e _ h1
      have hc1 : Clean env (evs ++
          [Event.bo_reserve e.bo (!ticket) (env.bo_reserve w.n_reserve)] ++
          ([Event.spin_lock_lru] ++ unres_events (pre ++ e :: rest) ++
            [Event.spin_unlock_lru])) := by
        refine (hc.add ?_ ?_).add ?_ ?_
        · intro b nw r1 hm
          simp only [List.mem_singleton, Event.bo_reserve.injEq] at hm
          exact Or.inr (hm.2.2 ▸ hd)
        · intro b r1 hm
          simp at hm
        · intro b nw r1 hm
          exact absurd hm ((unres_events_no_lock _).1 b nw r1)
        · intro b r1 hm
          exact absurd hm ((unres_events_no_lock _).2 b r1)
      have htw2 : (wound_world (pre ++ e :: rest) (try_world env ticket e w)).trace =
          t0 ++ (evs ++ [Event.bo_reserve e.bo (!ticket) (env.bo_reserve w.n_reserve)] ++
          ([Event.spin_lock_lru] ++ unres_events (pre ++ e :: rest) ++
            [Event.spin_unlock_lru])) := by
        rw [htw, try_world_trace, ht]; simp
      generalize evs ++ [Event.bo_reserve e.bo (!ticket) (env.bo_reserve w.n_reserve)] ++
          ([Event.spin_lock_lru] ++ unres_events (pre ++ e :: rest) ++
            [Event.spin_unlock_lru]) = E at hc1 htw2
      rcases hcase with ⟨hs, -, heq2⟩ | ⟨hs, -, -, heq2⟩ | ⟨hs, hv, -, heq2⟩
      · rw [heq2]
        refine ⟨E ++ [Event.lock_slow e.bo (env.lock_slow (try_world env ticket e w).n_slow)],
          ?_, ?_, ?_⟩
        · rw [slow_world_trace, htw2, hn1]; simp
        · intro b nw r1 hm
          simp only [List.mem_append, List.mem_singleton] at hm
          rcases hm with hm | hm
          · rcases hc1.1 b nw r1 hm with h0 | h0
            · exact Or.inl h0
            · exact Or.inr (Or.inl h0)
          · cases hm
        · intro b r1 hm
          simp only [List.mem_append, List.mem_singleton, Event.lock_slow.injEq] at hm
          rcases hm with hm | ⟨-, rfl⟩
          · exact Or.inl (hc1.2 b r1 hm)
          · right
            by_cases hi : env.lock_slow (try_world env ticket e w).n_slow = -env.EINTR
            · exact Or.inl ⟨hi, by rw [if_pos hi]⟩
            · exact Or.inr ⟨hi, by rw [if_neg hi]⟩
      · rw [heq2]
        refine ⟨E ++ [Event.lock_slow e.bo (env.lock_slow (try_world env ticket e w).n_slow),
          Event.cpu_writers e.bo (env.cpu_writers (try_world env ticket e w).n_cpu)],
          ?_, ?_⟩
        · rw [slow_read_world_trace, htw2, hn1, hn2]; simp
        · refine (hc1.add ?_ ?_).failmap _
          · intro b nw r1 hm
            simp at hm
          · intro b r1 hm
            simp only [List.mem_cons, Event.lock_slow.injEq, List.not_mem_nil, or_false,
              reduceCtorEq] at hm
            exact hm.2 ▸ hs
      · rw [heq2]
        refine ⟨E ++ [Event.lock_slow e.bo (env.lock_slow (try_world env ticket e w).n_slow),
          Event.cpu_writers e.bo (env.cpu_writers (try_world env ticket e w).n_cpu)],
          ?_, ?_⟩
        · rw [slow_read_world_trace, htw2, hn1, hn2]; simp
        · refine hc1.add ?_ ?_
          · intro b nw r1 hm
            simp at hm
          · intro b r1 hm
            simp only [List.mem_cons, Event.lock_slow.injEq, List.not_mem_nil, or_false,
              reduceCtorEq] at hm
            exact hm.2 ▸ hs
    · rw [heq]
      refine ⟨evs ++ [Event.bo_reserve e.bo (!ticket) (env.bo_reserve w.n_reserve)],
        by rw [try_world_trace, ht]; simp, ?_, ?_⟩
      · intro b nw r1 hm
        simp only [List.mem_append, List.mem_singleton, Event.bo_reserve.injEq] at hm
        rcases hm with hm | ⟨-, -, rfl⟩
        · rcases hc.1 b nw r1 hm with h0 | h0
          · exact Or.inl h0
          · exact Or.inr (Or.inl h0)
        · exact Or.inr (Or.inr rfl)
      · intro b r1 hm
        simp only [List.mem_append, List.mem_singleton, reduceCtorEq, or_false] at hm
        exact Or.inl (hc.2 b r1 hm)
    · rw [heq]
      refine ⟨evs ++ [Event.bo_reserve e.bo (!ticket) (env.bo_reserve w.n_reserve),
        Event.cpu_writers e.bo (env.cpu_writers w.n_cpu)],
        by rw [read_world_trace, ht]; simp, ?_⟩
      refine (hc.add ?_ ?_).failmap _
      · intro b nw r1 hm
        simp only [List.mem_cons, Event.bo_reserve.injEq, List.not_mem_nil, or_false,
          reduceCtorEq] at hm
        exact Or.inl (hm.2.2 ▸ hz)
      · intro b r1 hm
        simp at hm
    · rw [heq]
      refine ih _ _ (evs ++ [Event.bo_reserve e.bo (!ticket) (env.bo_reserve w.n_reserve),
        Event.cpu_writers e.bo (env.cpu_writers w.n_cpu)]) (by simpa using h2)
        (by rw [read_world_trace, ht]; simp) ?_
      refine hc.add ?_ ?_
      · intro b nw r1 hm
        simp only [List.mem_cons, Event.bo_reserve.injEq, List.not_mem_nil, or_false,
          reduceCtorEq] at hm
        exact Or.inl (hm.2.2 ▸ hz)
      · intro b r1 hm
        simp at hm

theorem retry_failmap (env : Env) (hE : env.errno_ok) (ticket : Bool) (w0 : World)
    (bos : List Nat) (t0 : List Event) :
    ∀ (fuel : Nat) (l : List ttm_validate_buffer) (w : World) (evs : List Event) (r : Int)
      (l1 : List ttm_validate_buffer) (w1 : World),
    SInv w0 bos l w → w.trace = t0 ++ evs → Clean env evs →
    reserve_retry env ticket fuel l w = some (Exit.ret r l1 w1) →
    ∃ evs1, w1.trace = t0 ++ evs1 ∧ FailMap env r evs1 := by
  intro fuel
  induction fuel with
  | zero => intro l w evs r l1 w1 _ _ _ h; simp [reserve_retry] at h
  | succ fuel ih =>
    intro l w evs r l1 w1 hI ht hc h
    rw [reserve_retry_succ] at h
    have hw := walk_sinv env hE ticket w0 bos l [] w (by simpa using hI) (by simp)
    have hf := walk_failmap env hE ticket w0 bos t0 l [] w evs (by simpa using hI) ht hc
    have hfin : ∀ b nw r1, Event.bo_reserve b nw r1 ∉
        (if ticket = true then [Event.ww_acquire_done, Event.ww_acquire_fini] else []) := by
      intro b nw r1 hm
      cases ticket <;> simp at hm
    have hfin2 : ∀ b r1, Event.lock_slow b r1 ∉
        (if ticket = true then [Event.ww_acquire_done, Event.ww_acquire_fini] else []) := by
      intro b r1 hm
      cases ticket <;> simp at hm
    cases hwalk : reserve_walk env ticket [] l w with
    | done l2 w2 =>
      rw [hwalk] at h hf
      obtain ⟨evs2, ht2, hc2⟩ := hf
      simp only [Option.some.injEq, Exit.ret.injEq] at h
      obtain ⟨hr, -, hwd⟩ := h
      refine ⟨evs2 ++ ((if ticket = true then [Event.ww_acquire_done] else []) ++
        [Event.spin_lock_lru] ++ del_events env w2.n_del l2 ++ [Event.spin_unlock_lru] ++
        ref_events (del_list env w2.n_del l2)), ?_, ?_⟩
      · rw [← hwd, ref_sub_snd, del_fst]
        simp only [World.emit, del_trace]
        cases ticket <;> simp [ht2]
      · refine (hc2.add ?_ ?_).failmap _
        · intro b nw r1 hm
          simp only [List.mem_append, List.mem_cons, List.not_mem_nil, or_false] at hm
          rcases hm with (((hm | hm) | hm) | hm) | hm
          · cases ticket <;> simp at hm
          · cases hm
          · obtain ⟨_, _, h0⟩ := del_events_kind env l2 _ _ hm
            cases h0
          · cases hm
          · obtain ⟨_, _, h0⟩ := ref_events_kind _ _ hm
            cases h0
        · intro b r1 hm
          simp only [List.mem_append, List.mem_cons, List.not_mem_nil, or_false] at hm
          rcases hm with (((hm | hm) | hm) | hm) | hm
          · cases ticket <;> simp at hm
          · cases hm
          · obtain ⟨_, _, h0⟩ := del_events_kind env l2 _ _ hm
            cases h0
          · cases hm
          · obtain ⟨_, _, h0⟩ := ref_events_kind _ _ hm
            cases h0
    | retry l2 w2 =>
      rw [hwalk] at h hw hf
      obtain ⟨evs2, ht2, hc2⟩ := hf
      exact ih l2 w2 evs2 r l1 w1 hw ht2 hc2 h
    | err r2 l2 w2 =>
      rw [hwalk] at h hw hf
      obtain ⟨evs2, ht2, hc2⟩ := hf
      simp only [Option.some.injEq] at h
      obtain ⟨h1, h2⟩ := err_trace ticket r2 l2 w2
      rw [h] at h1 h2
      simp only [Exit.code, Option.some.injEq, Exit.world] at h1 h2
      subst h2
      rw [unwind_events_fresh _ hw.1.fresh] at h1
      refine ⟨evs2 ++ ([Event.spin_lock_lru] ++ unres_events l2 ++ [Event.spin_unlock_lru]) ++
        (if ticket = true then [Event.ww_acquire_done, Event.ww_acquire_fini] else []),
        by rw [h1, ht2]; simp, ?_⟩
      exact (hc2.quiet (unres_events_no_lock l2).1 (unres_events_no_lock l2).2).quiet hfin hfin2
    | err_fini r2 l2 w2 =>
      rw [hwalk] at h hf
      obtain ⟨evs2, ht2, hc2⟩ := hf
      simp only [Option.some.injEq] at h
      obtain ⟨h1, h2⟩ := err_fini_trace ticket r2 l2 w2
      rw [h] at h1 h2
      simp only [Exit.code, Option.some.injEq, Exit.world] at h1 h2
      subst h2
      refine ⟨evs2 ++
        (if ticket = true then [Event.ww_acquire_done, Event.ww_acquire_fini] else []),
        by rw [h1, ht2]; simp, hc2.quiet hfin hfin2⟩
    | bug l2 w2 =>
      rw [hwalk] at h
      simp at h

/-- What `ttm_eu_reserve_buffers` does with the answers of the lock primitives:
when it returns `r`, every answer of the slow lock among its calls is 0, or is
`-EINTR` and then `r` is `-ERESTARTSYS`, or is another value and then `r` is
that value; and every answer of `__ttm_bo_reserve` among its calls is 0 or
`-EDEADLK` or is `r` itself, so an `-EINTR` of `__ttm_bo_reserve` is returned
unchanged. -/
theorem error_mapping (env : Env) (hE : env.errno_ok) (fuel : Nat) (ticket : Bool)
    (l : List ttm_validate_buffer) (w : World) (r : Int) (l1 : List ttm_validate_buffer)
    (w1 : World) (hne : l ≠ [])
    (h : ttm_eu_reserve_buffers env fuel ticket l w = some (Exit.ret r l1 w1)) :
    ∃ evs, w1.trace = w.trace ++ evs ∧ FailMap env r evs := by
  cases l with
  | nil => exact absurd rfl hne
  | cons a rest =>
    simp only [ttm_eu_reserve_buffers] at h
    exact retry_failmap env hE ticket w _ w.trace fuel _ _
      (if ticket = true then [Event.ww_acquire_init] else []) r l1 w1
      (init_sinv ticket (a :: rest) w)
      (by cases ticket <;> simp [World.emit])
      (by
        constructor
        · intro b nw r1 hm
          cases ticket <;> simp at hm
        · intro b r1 hm
          cases ticket <;> simp at hm)
      h

theorem error_mapping_witness :
    ∃ evs, (exit_of demo_env_intr 1 true demo_list demo_world).world.trace =
        demo_world.trace ++ evs ∧ FailMap demo_env_intr (-4) evs :=
  error_mapping demo_env_intr (by decide) 1 true demo_list demo_world (-4)
    (exit_of demo_env_intr 1 true demo_list demo_world).list
    (exit_of demo_env_intr 1 true demo_list demo_world).world (by decide) rfl

theorem unres_events_counts (l : List ttm_validate_buffer) :
    ([Event.spin_lock_lru] ++ unres_events l ++ [Event.spin_unlock_lru]).countP is_try = 0 ∧
    ([Event.spin_lock_lru] ++ unres_events l ++ [Event.spin_unlock_lru]).countP is_slow = 0 := by
  constructor <;>
  · apply countP_eq_zero_of
    intro ev hev
    simp only [List.mem_append, List.mem_cons, List.not_mem_nil, or_false] at hev
    rcases hev with (rfl | hev) | rfl
    · rfl
    · obtain ⟨b, rfl⟩ := unres_events_kind l ev hev
      rfl
    · rfl

theorem wound_marked_length (pre rest : List ttm_validate_buffer) (e : ttm_validate_buffer) :
    (wound_marked pre rest e).length = (pre ++ e :: rest).length := by
  simp [wound_marked]

theorem walk_progress (env : Env) (hE : env.errno_ok) (ticket : Bool) (w0 : World)
    (bos : List Nat) : ∀ (rest pre : List ttm_validate_buffer) (w : World),
    SInv w0 bos (pre ++ rest) w →
    ∃ evs, (reserve_walk env ticket pre rest w).world.trace = w.trace ++ evs ∧
      evs.countP is_try ≤ rest.length ∧ evs.countP is_slow ≤ 1 ∧
      w.n_reserve ≤ (reserve_walk env ticket pre rest w).world.n_reserve ∧
      ((0 < evs.countP is_slow ∨ (reserve_walk env ticket pre rest w).wounded = true) →
        Consumed env w (reserve_walk env ticket pre rest w).world) ∧
      (∀ l1 w1, reserve_walk env ticket pre rest w = Walk.retry l1 w1 →
        l1.length = (pre ++ rest).length) := by
  intro rest
  induction rest with
  | nil =>
    intro pre w _
    refine ⟨[], by simp [reserve_walk, Walk.world], by simp, by simp, ?_, ?_, ?_⟩
    · simp [reserve_walk, Walk.world]
    · simp [reserve_walk, Walk.wounded]
    · intro l1 w1 h
      simp [reserve_walk] at h
  | cons e rest ih =>
    intro pre w h
    rcases walk_cases env hE ticket w0 bos pre rest e w h with
      ⟨-, heq⟩ | ⟨-, hd, -, heq⟩ | ⟨-, hd, -, h1, heq⟩ | ⟨-, -, -, -, heq⟩ |
      ⟨-, -, -, -, heq⟩ | ⟨-, -, -, h2, heq⟩
    · rw [heq]
      obtain ⟨evs, a1, a2, a3, a4, a5, a6⟩ := ih (pre ++ [e]) w (by simpa using h)
      refine ⟨evs, a1, by simp only [List.length_cons]; omega, a3, a4, a5, ?_⟩
      intro l1 w1 hq
      simpa using a6 l1 w1 hq
    · rw [heq]
      refine ⟨_, try_world_trace env ticket e w, by simp [List.countP_cons, is_try],
        by simp [List.countP_cons, is_slow], ?_, ?_, ?_⟩
      · simp [Walk.world, try_world, __ttm_bo_reserve]
      · intro _
        exact ⟨w.n_reserve, Nat.le_refl _, by simp [Walk.world, try_world, __ttm_bo_reserve],
          hd⟩
      · intro l1 w1 hq
        cases hq
    · rw [heq]
      obtain ⟨-, -, htw, hn3, hn1, hn2, hcase⟩ := wound_cases env w0 bos pre rest e _ h1
      obtain ⟨u1, u2⟩ := unres_events_counts (pre ++ e :: rest)
      generalize [Event.spin_lock_lru] ++ unres_events (pre ++ e :: rest) ++
        [Event.spin_unlock_lru] = U at htw u1 u2
      have hcons : ∀ w2 : World, w2.n_reserve = w.n_reserve + 1 → Consumed env w w2 :=
        fun w2 hw2 => ⟨w.n_reserve, Nat.le_refl _, by omega, hd⟩
      have hnr : (try_world env ticket e w).n_reserve = w.n_reserve + 1 := rfl
      rcases hcase with ⟨-, -, heq2⟩ | ⟨-, -, -, heq2⟩ | ⟨-, -, -, heq2⟩
      · rw [heq2]
        have hn : (slow_world env e.bo (pre ++ e :: rest) (try_world env ticket e w)).n_reserve
            = w.n_reserve + 1 := by
          show (wound_world _ _).n_reserve = _
          rw [hn3, hnr]
        refine ⟨[Event.bo_reserve e.bo (!ticket) (env.bo_reserve w.n_reserve)] ++ U ++
          [Event.lock_slow e.bo (env.lock_slow (try_world env ticket e w).n_slow)],
          ?_, ?_, ?_, ?_, ?_, ?_⟩
        · simp only [Walk.world, slow_world_trace, htw, hn1, try_world_trace,
            List.append_assoc]
        · simp only [List.countP_append, u1]
          simp [List.countP_cons, is_try]
        · simp only [List.countP_append, u2]
          simp [List.countP_cons, is_slow]
        · simp only [Walk.world, hn]; omega
        · intro _
          exact hcons _ hn
        · intro l1 w1 hq
          cases hq
      all_goals
        rw [heq2]
        have hn : (slow_read_world env e.bo (pre ++ e :: rest)
            (try_world env ticket e w)).n_reserve = w.n_reserve + 1 := by
          show (wound_world _ _).n_reserve = _
          rw [hn3, hnr]
        refine ⟨[Event.bo_reserve e.bo (!ticket) (env.bo_reserve w.n_reserve)] ++ U ++
          [Event.lock_slow e.bo (env.lock_slow (try_world env ticket e w).n_slow),
            Event.cpu_writers e.bo (env.cpu_writers (try_world env ticket e w).n_cpu)],
          ?_, ?_, ?_, ?_, ?_, ?_⟩
        · simp only [Walk.world, slow_read_world_trace, htw, hn1, hn2, try_world_trace,
            List.append_assoc]
        · simp only [List.countP_append, u1]
          simp [List.countP_cons, is_try]
        · simp only [List.countP_append, u2]
          simp [List.countP_cons, is_slow]
        · simp only [Walk.world, hn]; omega
        · intro _
          exact hcons _ hn
        · intro l1 w1 hq
          first
            | (simp only [Walk.retry.injEq] at hq
               rw [← hq.1]
               exact wound_marked_length pre rest e)
            | cases hq
    · rw [heq]
      refine ⟨_, try_world_trace env ticket e w, by simp [List.countP_cons, is_try],
        by simp [List.countP_cons, is_slow], ?_, ?_, ?_⟩
      · simp [Walk.world, try_world, __ttm_bo_reserve]
      · intro hq
        simp [List.countP_cons, is_slow, Walk.wounded] at hq
      · intro l1 w1 hq
        cases hq
    · rw [heq]
      refine ⟨_, read_world_trace env ticket e w, by simp [List.countP_cons, is_try],
        by simp [List.countP_cons, is_slow], ?_, ?_, ?_⟩
      · simp [Walk.world, read_world, try_world, __ttm_bo_reserve, atomic_read_cpu_writers]
      · intro hq
        simp [List.countP_cons, is_slow, Walk.wounded] at hq
      · intro l1 w1 hq
        cases hq
    · rw [heq]
      obtain ⟨evs, a1, a2, a3, a4, a5, a6⟩ := ih (pre ++ [{ e with reserved := true }])
        (read_world env ticket e w) (by simpa using h2)
      have hnr : (read_world env ticket e w).n_reserve = w.n_reserve + 1 := rfl
      refine ⟨[Event.bo_reserve e.bo (!ticket) (env.bo_reserve w.n_reserve),
        Event.cpu_writers e.bo (env.cpu_writers w.n_cpu)] ++ evs, ?_, ?_, ?_, ?_, ?_, ?_⟩
      · rw [a1, read_world_trace]; simp
      · simp only [List.countP_append, List.length_cons]
        simp [List.countP_cons, is_try]
        omega
      · simp only [List.countP_append]
        simp [List.countP_cons, is_slow]
        exact a3
      · omega
      · intro hq
        have hq2 : 0 < evs.countP is_slow ∨
            (reserve_walk env ticket (pre ++ [{ e with reserved := true }]) rest
              (read_world env ticket e w)).wounded = true := by
          rcases hq with hq | hq
          · left
            simpa [List.countP_append, List.countP_cons, is_slow] using hq
          · exact Or.inr hq
        obtain ⟨k, k1, k2, k3⟩ := a5 hq2
        exact ⟨k, by omega, k2, k3⟩
      · intro l1 w1 hq
        simpa using a6 l1 w1 hq

theorem wounds_left_lt (env : Env) (D : Finset Nat)
    (hD : ∀ k, env.bo_reserve k = -env.EDEADLK → k ∈ D) (w w1 : World)
    (h : Consumed env w w1) : wounds_left D w1 < wounds_left D w := by
  obtain ⟨k, k1, k2, k3⟩ := h
  apply Finset.card_lt_card
  rw [Finset.ssubset_iff_of_subset]
  · refine ⟨k, ?_, ?_⟩
    · simp only [Finset.mem_filter]
      exact ⟨hD k k3, k1⟩
    · simp only [Finset.mem_filter, not_and]
      intro _
      omega
  · intro x hx
    simp only [Finset.mem_filter] at hx ⊢
    exact ⟨hx.1, by omega⟩

theorem done_tail_counts (env : Env) (ticket : Bool) (l : List ttm_validate_buffer) (n : Nat) :
    ((if ticket = true then [Event.ww_acquire_done] else []) ++
      [Event.spin_lock_lru] ++ del_events env n l ++ [Event.spin_unlock_lru] ++
      ref_events (del_list env n l)).countP is_try = 0 ∧
    ((if ticket = true then [Event.ww_acquire_done] else []) ++
      [Event.spin_lock_lru] ++ del_events env n l ++ [Event.spin_unlock_lru] ++
      ref_events (del_list env n l)).countP is_slow = 0 := by
  constructor <;>
  · apply countP_eq_zero_of
    intro ev hev
    simp only [List.mem_append, List.mem_cons, List.not_mem_nil, or_false] at hev
    rcases hev with (((hev | rfl) | hev) | rfl) | hev
    · cases ticket <;> simp at hev
      subst hev; rfl
    · rfl
    · obtain ⟨_, _, rfl⟩ := del_events_kind env l n ev hev
      rfl
    · rfl
    · obtain ⟨_, _, rfl⟩ := ref_events_kind _ ev hev
      rfl

theorem fini_tail_counts (ticket : Bool) :
    (if ticket = true then [Event.ww_acquire_done, Event.ww_acquire_fini]
      else []).countP is_try = 0 ∧
    (if ticket = true then [Event.ww_acquire_done, Event.ww_acquire_fini]
      else []).countP is_slow = 0 := by
  cases ticket <;> exact ⟨rfl, rfl⟩

theorem retry_terminates (env : Env) (hE : env.errno_ok) (ticket : Bool) (w0 : World)
    (bos : List Nat) (D : Finset Nat)
    (hD : ∀ k, env.bo_reserve k = -env.EDEADLK → k ∈ D) :
    ∀ (fuel : Nat) (l : List ttm_validate_buffer) (w : World),
    SInv w0 bos l w → wounds_left D w < fuel →
    ∃ x, reserve_retry env ticket fuel l w = some x ∧
      ∃ evs, x.world.trace = w.trace ++ evs ∧
        evs.countP is_slow ≤ wounds_left D w ∧
        evs.countP is_try ≤ (wounds_left D w + 1) * l.length ∧
        (x.code = none → 0 < wounds_left D w) := by
  intro fuel
  induction fuel with
  | zero => intro l w _ h; omega
  | succ fuel ih =>
    intro l w hI hfuel
    rw [reserve_retry_succ]
    have hw := walk_sinv env hE ticket w0 bos l [] w (by simpa using hI) (by simp)
    obtain ⟨evs, a1, a2, a3, a4, a5, a6⟩ :=
      walk_progress env hE ticket w0 bos l [] w (by simpa using hI)
    have hslow : evs.countP is_slow ≤ wounds_left D w := by
      by_cases hz : 0 < evs.countP is_slow
      · have := wounds_left_lt env D hD _ _ (a5 (Or.inl hz))
        omega
      · omega
    have htry : evs.countP is_try ≤ (wounds_left D w + 1) * l.length := by
      calc evs.countP is_try ≤ l.length := a2
        _ = 1 * l.length := by omega
        _ ≤ (wounds_left D w + 1) * l.length := Nat.mul_le_mul_right _ (by omega)
    cases hwalk : reserve_walk env ticket [] l w with
    | done l2 w2 =>
      rw [hwalk] at a1
      simp only [Walk.world] at a1
      obtain ⟨t1, t2⟩ := done_tail_counts env ticket l2 w2.n_del
      refine ⟨_, rfl, evs ++ ((if ticket = true then [Event.ww_acquire_done] else []) ++
        [Event.spin_lock_lru] ++ del_events env w2.n_del l2 ++ [Event.spin_unlock_lru] ++
        ref_events (del_list env w2.n_del l2)), ?_, ?_, ?_, ?_⟩
      · simp only [Exit.world]
        rw [ref_sub_snd, del_fst]
        simp only [World.emit, del_trace]
        cases ticket <;> simp [a1]
      · rw [List.countP_append, t2]; exact hslow
      · rw [List.countP_append, t1]; exact htry
      · intro hc; simp [Exit.code] at hc
    | retry l2 w2 =>
      rw [hwalk] at a1 a5 hw
      simp only [Walk.world] at a1 a5
      have hlen := a6 l2 w2 hwalk
      simp only [List.nil_append] at hlen
      have hlt := wounds_left_lt env D hD _ _ (a5 (Or.inr rfl))
      obtain ⟨x, hx, evs2, b1, b2, b3, b4⟩ := ih l2 w2 hw (by omega)
      refine ⟨x, hx, evs ++ evs2, by rw [b1, a1]; simp, ?_, ?_, ?_⟩
      · rw [List.countP_append]; omega
      · rw [List.countP_append, hlen] at *
        calc evs.countP is_try + evs2.countP is_try
            ≤ l.length + (wounds_left D w2 + 1) * l.length := Nat.add_le_add a2 b3
          _ = (wounds_left D w2 + 1 + 1) * l.length := by
              rw [Nat.add_mul (wounds_left D w2 + 1) 1 l.length]; omega
          _ ≤ (wounds_left D w + 1) * l.length := Nat.mul_le_mul_right _ (by omega)
      · intro _; omega
    | err r l2 w2 =>
      rw [hwalk] at a1 hw
      simp only [Walk.world] at a1
      obtain ⟨h1, h2⟩ := err_trace ticket r l2 w2
      rw [unwind_events_fresh _ hw.1.fresh] at h1
      obtain ⟨u1, u2⟩ := unres_events_counts l2
      obtain ⟨f1, f2⟩ := fini_tail_counts ticket
      refine ⟨_, rfl, evs ++ ([Event.spin_lock_lru] ++ unres_events l2 ++
        [Event.spin_unlock_lru]) ++
        (if ticket = true then [Event.ww_acquire_done, Event.ww_acquire_fini] else []),
        by rw [h1, a1]; simp, ?_, ?_, ?_⟩
      · rw [List.countP_append, List.countP_append, u2, f2]; exact hslow
      · rw [List.countP_append, List.countP_append, u1, f1]; exact htry
      · intro hc; rw [h2] at hc; simp at hc
    | err_fini r l2 w2 =>
      rw [hwalk] at a1
      simp only [Walk.world] at a1
      obtain ⟨h1, h2⟩ := err_fini_trace ticket r l2 w2
      obtain ⟨f1, f2⟩ := fini_tail_counts ticket
      refine ⟨_, rfl, evs ++
        (if ticket = true then [Event.ww_acquire_done, Event.ww_acquire_fini] else []),
        by rw [h1, a1]; simp, ?_, ?_, ?_⟩
      · rw [List.countP_append, f2]; exact hslow
      · rw [List.countP_append, f1]; exact htry
      · intro hc; rw [h2] at hc; simp at hc
    | bug l2 w2 =>
      rw [hwalk] at a1 a5
      simp only [Walk.world] at a1 a5
      have hlt := wounds_left_lt env D hD _ _ (a5 (Or.inr rfl))
      exact ⟨_, rfl, evs, a1, hslow, htry, fun _ => by omega⟩

/-- C18: when the answers `-EDEADLK` of `__ttm_bo_reserve` are finitely many, all
among the indices `D`, then `ttm_eu_reserve_buffers` ends within `D.card + 1`
walks, having made at most `D.card` slow locks and at most
`(D.card + 1) * l.length` calls of `__ttm_bo_reserve`; with a ticket, or with
no `-EDEADLK` at all, it returns a value. -/
theorem reserve_terminates (env : Env) (hE : env.errno_ok) (ticket : Bool)
    (l : List ttm_validate_buffer) (w : World) (D : Finset Nat)
    (hD : ∀ k, env.bo_reserve k = -env.EDEADLK → k ∈ D) :
    ∃ x, ttm_eu_reserve_buffers env (D.card + 1) ticket l w = some x ∧
      (∃ evs, x.world.trace = w.trace ++ evs ∧ evs.countP is_slow ≤ D.card ∧
        evs.countP is_try ≤ (D.card + 1) * l.length) ∧
      (ticket = true ∨ D = ∅ → ∃ r, x.code = some r) := by
  cases l with
  | nil =>
    exact ⟨_, rfl, ⟨[], by simp [Exit.world], by simp, by simp⟩, fun _ => ⟨0, rfl⟩⟩
  | cons a rest =>
    have hle : ∀ w1 : World, wounds_left D w1 ≤ D.card := fun w1 =>
      Finset.card_filter_le _ _
    obtain ⟨x, hx, evs, h1, h2, h3, h4⟩ := retry_terminates env hE ticket w _ D hD
      (D.card + 1) _ _ (init_sinv ticket (a :: rest) w)
      (Nat.lt_succ_of_le (hle _))
    have hx2 : ttm_eu_reserve_buffers env (D.card + 1) ticket (a :: rest) w = some x := hx
    refine ⟨x, hx2, ⟨(if ticket = true then [Event.ww_acquire_init] else []) ++ evs,
      ?_, ?_, ?_⟩, ?_⟩
    · rw [h1]
      cases ticket <;> simp [World.emit]
    · have h0 : (if ticket = true then [Event.ww_acquire_init] else []).countP is_slow = 0 := by
        cases ticket <;> rfl
      rw [List.countP_append, h0, Nat.zero_add]
      exact Nat.le_trans h2 (hle _)
    · have h0 : (if ticket = true then [Event.ww_acquire_init] else []).countP is_try = 0 := by
        cases ticket <;> rfl
      have hmul : (wounds_left D (if ticket = true then w.emit Event.ww_acquire_init else w)
          + 1) * (a :: rest).length ≤ (D.card + 1) * (a :: rest).length :=
        Nat.mul_le_mul_right _ (Nat.succ_le_succ (hle _))
      simp only [List.length_map] at h3
      rw [List.countP_append, h0, Nat.zero_add]
      exact Nat.le_trans h3 hmul
    · intro hor
      cases hc : x.code with
      | some r => exact ⟨r, rfl⟩
      | none =>
        exfalso
        rcases hor with ht | hD0
        · rcases reserve_origin env hE ticket _ _ w x hx2 with ⟨r, hr, -⟩ | ⟨-, hf⟩
          · rw [hc] at hr; cases hr
          · rw [ht] at hf; cases hf
        · have := h4 hc
          rw [hD0] at this
          simp [wounds_left] at this

theorem reserve_terminates_witness :
    ∃ x, ttm_eu_reserve_buffers demo_env (({1} : Finset Nat).card + 1) true demo_list
        demo_world = some x ∧
      (∃ evs, x.world.trace = demo_world.trace ++ evs ∧
        evs.countP is_slow ≤ ({1} : Finset Nat).card ∧
        evs.countP is_try ≤ (({1} : Finset Nat).card + 1) * demo_list.length) ∧
      (true = true ∨ ({1} : Finset Nat) = ∅ → ∃ r, x.code = some r) :=
  reserve_terminates demo_env (by decide) true demo_list demo_world {1}
    (fun k hk => by
      by_cases h1 : k = 1
      · simp [h1]
      · simp [demo_env, h1] at hk)

theorem lock_run_append (env : Env) (s : List Nat × Option Nat) (a b : List Event) :
    lock_run env s (a ++ b) = (lock_run env s a).bind (fun s1 => lock_run env s1 b) := by
  induction a generalizing s with
  | nil => rfl
  | cons ev a ih =>
    simp only [List.cons_append, lock_run]
    cases lock_step env s ev with
    | none => rfl
    | some s1 => exact ih s1

theorem lock_run_free (env : Env) (s : List Nat × Option Nat) (evs : List Event)
    (h : ∀ ev ∈ evs, lock_free ev = true) : lock_run env s evs = some s := by
  induction evs with
  | nil => rfl
  | cons ev evs ih =>
    simp only [List.mem_cons, forall_eq_or_imp] at h
    have : lock_step env s ev = some s := by
      have h1 := h.1
      cases ev <;> simp [lock_free] at h1 <;> rfl
    simp only [lock_run, this]
    exact ih h.2

theorem lock_run_step (env : Env) (s s1 : List Nat × Option Nat) (evs more : List Event)
    (s0 : List Nat × Option Nat) (h : lock_run env s0 evs = some s)
    (h1 : lock_run env s more = some s1) : lock_run env s0 (evs ++ more) = some s1 := by
  rw [lock_run_append, h]
  exact h1

/-- The back-off releases, one by one, the locks of the reserved entries, each
of which is held; the objects are distinct. -/
theorem lock_run_backoff (env : Env) (p : Option Nat) :
    ∀ (l : List ttm_validate_buffer) (H : List Nat),
    (l.map (fun e => e.bo)).Nodup → (∀ e ∈ l, e.reserved = true → e.bo ∈ H) →
    ∃ H1, lock_run env (H, p) (backoff_events l) = some (H1, p) ∧
      ∀ x, x ∈ H1 ↔ (x ∈ H ∧ ∀ e ∈ l, e.reserved = true → e.bo ≠ x) := by
  intro l
  induction l with
  | nil =>
    intro H _ _
    exact ⟨H, rfl, by simp⟩
  | cons a l ih =>
    intro H hnd hH
    simp only [List.map_cons, List.nodup_cons] at hnd
    by_cases hr : a.reserved = true
    · have ha : a.bo ∈ H := hH a (by simp) hr
      obtain ⟨H1, h1, h2⟩ := ih (H.filter (fun x => x ≠ a.bo)) hnd.2 (by
        intro e he her
        simp only [List.mem_filter, decide_eq_true_eq]
        refine ⟨hH e (by simp [he]) her, ?_⟩
        intro heq
        exact hnd.1 (by rw [← heq]; exact List.mem_map_of_mem (fun e => e.bo) he))
      refine ⟨H1, ?_, ?_⟩
      · rw [backoff_events]
        by_cases hm : a.removed = true
        · simp only [hr, hm, if_true, List.append_assoc, List.singleton_append, lock_run,
            lock_step, ha]
          exact h1
        · simp only [Bool.not_eq_true] at hm
          simp only [hr, hm, if_true, Bool.false_eq_true, if_false, List.nil_append,
            List.singleton_append, lock_run, lock_step, ha]
          exact h1
      · intro x
        rw [h2]
        simp only [List.mem_filter, decide_eq_true_eq, List.mem_cons, forall_eq_or_imp]
        constructor
        · rintro ⟨⟨hx, hne⟩, hall⟩
          exact ⟨hx, fun _ heq => hne heq.symm, hall⟩
        · rintro ⟨hx, hne, hall⟩
          exact ⟨⟨hx, fun heq => hne hr heq.symm⟩, hall⟩
    · obtain ⟨H1, h1, h2⟩ := ih H hnd.2 (fun e he her => hH e (by simp [he]) her)
      refine ⟨H1, ?_, ?_⟩
      · rw [backoff_events]
        simp only [hr, if_false, List.nil_append]
        exact h1
      · intro x
        rw [h2]
        simp only [List.mem_cons, forall_eq_or_imp]
        constructor
        · rintro ⟨hx, hall⟩
          exact ⟨hx, fun h0 => absurd h0 hr, hall⟩
        · rintro ⟨hx, -, hall⟩
          exact ⟨hx, hall⟩

theorem ref_events_lock_free (l : List ttm_validate_buffer) :
    ∀ ev ∈ ref_events l, lock_free ev = true := by
  intro ev hev
  obtain ⟨_, _, rfl⟩ := ref_events_kind l ev hev
  rfl

/-- The lock, back-off, unlock and reference drop of `ttm_eu_reserve_buffers`
pass the bookkeeping and leave no lock of the list held. -/
theorem lock_run_unwind (env : Env) (p : Option Nat) (l : List ttm_validate_buffer)
    (H : List Nat) (hnd : (l.map (fun e => e.bo)).Nodup)
    (hH : ∀ e ∈ l, e.reserved = true → e.bo ∈ H) :
    ∃ H1, lock_run env (H, p) (unwind_events l) = some (H1, p) ∧
      ∀ x, x ∈ H1 ↔ (x ∈ H ∧ ∀ e ∈ l, e.reserved = true → e.bo ≠ x) := by
  obtain ⟨H1, h1, h2⟩ := lock_run_backoff env p l H hnd hH
  refine ⟨H1, ?_, h2⟩
  rw [unwind_events, lock_run_append, lock_run_append, lock_run_append]
  have e1 : lock_run env (H, p) [Event.spin_lock_lru] = some (H, p) := rfl
  rw [e1]
  simp only [Option.bind]
  rw [h1]
  simp only []
  have e2 : lock_run env (H1, p) [Event.spin_unlock_lru] = some (H1, p) := rfl
  rw [e2]
  exact lock_run_free env _ _ (ref_events_lock_free _)

theorem not_held_of_unreserved {w0 : World} {bos : List Nat} {l : List ttm_validate_buffer}
    {w : World} (h : SInv w0 bos l w) (hfree : ∀ b, w0.held b = false) (hnd : bos.Nodup)
    (e : ttm_validate_buffer) (he : e ∈ l) (hr : e.reserved = false) :
    w.held e.bo = false := by
  cases hb : w.held e.bo with
  | false => rfl
  | true =>
    exfalso
    rcases h.owned e.bo hb with h0 | ⟨a, ha, har, hab⟩
    · rw [hfree] at h0; cases h0
    · have hnd2 : (l.map (fun e => e.bo)).Nodup := by rw [h.bos_eq]; exact hnd
      have := List.inj_on_of_nodup_map hnd2 ha he hab
      subst this
      rw [hr] at har; cases har

theorem held_none_of_unreserved {w0 : World} {bos : List Nat} {l : List ttm_validate_buffer}
    {w : World} (h : SInv w0 bos l w) (hfree : ∀ b, w0.held b = false)
    (hu : ∀ e ∈ l, e.reserved = false) (b : Nat) : w.held b = false := by
  cases hb : w.held b with
  | false => rfl
  | true =>
    exfalso
    rcases h.owned b hb with h0 | ⟨a, ha, har, -⟩
    · rw [hfree] at h0; cases h0
    · rw [hu a ha] at har; cases har

theorem LInv.free {env : Env} {evs : List Event} {w w1 : World} (more : List Event)
    (h : LInv env evs w) (hm : ∀ ev ∈ more, lock_free ev = true) (hh : w1.held = w.held) :
    LInv env (evs ++ more) w1 := by
  obtain ⟨H, h1, h2⟩ := h
  exact ⟨H, lock_run_step env _ _ _ _ _ h1 (lock_run_free env _ _ hm), by rw [hh]; exact h2⟩

theorem wound_lock_run (env : Env) (w0 : World) (bos : List Nat)
    (hfree : ∀ b, w0.held b = false) (hnd : bos.Nodup)
    (pre rest : List ttm_validate_buffer) (e : ttm_validate_buffer) (w1 : World)
    (evs : List Event) (H : List Nat) (h : SInv w0 bos (pre ++ e :: rest) w1)
    (hrun : lock_run env ([], none) evs = some (H, some e.bo))
    (hH : ∀ b, b ∈ H ↔ w1.held b = true) :
    ∃ more, (reserve_wound env pre.length e.bo (pre ++ e :: rest) w1).world.trace =
        w1.trace ++ more ∧
      Walk.linv env (evs ++ more) (reserve_wound env pre.length e.bo (pre ++ e :: rest) w1) := by
  obtain ⟨-, hb, -, -, hn1, hn2, hcase⟩ := wound_cases env w0 bos pre rest e w1 h
  have htw := wound_world_trace (pre ++ e :: rest) w1
  have hnd2 : ((pre ++ e :: rest).map (fun e => e.bo)).Nodup := by rw [h.bos_eq]; exact hnd
  obtain ⟨H1, r1, r2⟩ := lock_run_unwind env (some e.bo) (pre ++ e :: rest) H hnd2
    (fun a ha har => (hH a.bo).2 (h.locked a ha har))
  have hnone : ∀ b, (wound_world (pre ++ e :: rest) w1).held b = false :=
    held_none_of_unreserved hb hfree (by
      intro a ha
      simp only [List.mem_map] at ha
      obtain ⟨x, _, rfl⟩ := ha
      exact unres_reserved x)
  have hH1 : H1 = [] := by
    rw [List.eq_nil_iff_forall_not_mem]
    intro x hx
    obtain ⟨hxH, hall⟩ := (r2 x).1 hx
    rcases h.owned x ((hH x).1 hxH) with h0 | ⟨a, ha, har, hab⟩
    · rw [hfree] at h0; cases h0
    · exact hall a ha har hab
  subst hH1
  have run1 := lock_run_step env _ _ _ _ _ hrun r1
  rcases hcase with ⟨hs, -, heq⟩ | ⟨hs, -, -, heq⟩ | ⟨hs, -, -, heq⟩
  · rw [heq]
    refine ⟨unwind_events (pre ++ e :: rest) ++
      [Event.lock_slow e.bo (env.lock_slow w1.n_slow)], ?_, [], ?_, ?_⟩
    · simp only [Walk.world, slow_world_trace, htw, hn1, List.append_assoc]
    · rw [← List.append_assoc]
      refine lock_run_step env _ _ _ _ _ run1 ?_
      simp [lock_run, lock_step, hs]
    · intro b
      simp [slow_world, ww_mutex_lock_slow_interruptible, hn1, hs, hnone b]
  all_goals
    rw [heq]
    refine ⟨unwind_events (pre ++ e :: rest) ++
      [Event.lock_slow e.bo (env.lock_slow w1.n_slow),
        Event.cpu_writers e.bo (env.cpu_writers w1.n_cpu)], ?_, [e.bo], ?_, ?_⟩
    · simp only [Walk.world, slow_read_world_trace, htw, hn1, hn2, List.append_assoc]
    · rw [← List.append_assoc]
      refine lock_run_step env _ _ _ _ _ run1 ?_
      simp [lock_run, lock_step, hs]
    · intro b
      simp [slow_read_world, slow_world, atomic_read_cpu_writers,
        ww_mutex_lock_slow_interruptible, hn1, hs, hnone b]

theorem walk_lock_run (env : Env) (hE : env.errno_ok) (ticket : Bool) (w0 : World)
    (bos : List Nat) (hfree : ∀ b, w0.held b = false) (hnd : bos.Nodup) (t0 : List Event) :
    ∀ (rest pre : List ttm_validate_buffer) (w : World) (evs : List Event),
    SInv w0 bos (pre ++ rest) w → w.trace = t0 ++ evs → LInv env evs w →
    ∃ evs1, (reserve_walk env ticket pre rest w).world.trace = t0 ++ evs1 ∧
      Walk.linv env evs1 (reserve_walk env ticket pre rest w) := by
  intro rest
  induction rest with
  | nil =>
    intro pre w evs _ ht hl
    rw [reserve_walk]
    exact ⟨evs, ht, hl⟩
  | cons e rest ih =>
    intro pre w evs h ht hl
    have hmem : e ∈ pre ++ e :: rest := by simp
    rcases walk_cases env hE ticket w0 bos pre rest e w h with
      ⟨-, heq⟩ | ⟨hr, hd, -, heq⟩ | ⟨hr, hd, -, h1, heq⟩ | ⟨hr, hnd1, hnz, -, heq⟩ |
      ⟨hr, hz, -, -, heq⟩ | ⟨hr, hz, -, h2, heq⟩
    · rw [heq]
      exact ih _ w evs (by simpa using h) ht hl
    all_goals
      have hnot : w.held e.bo = false := not_held_of_unreserved h hfree hnd e hmem hr
      obtain ⟨H, hrun, hH⟩ := hl
      have hnotH : e.bo ∉ H := fun hin => by
        rw [(hH e.bo).1 hin] at hnot; cases hnot
    · rw [heq]
      have hnz : env.bo_reserve w.n_reserve ≠ 0 := by rw [hd]; simpa using hE.1
      refine ⟨evs ++ [Event.bo_reserve e.bo (!ticket) (env.bo_reserve w.n_reserve)],
        by rw [Walk.world, try_world_trace, ht]; simp, H, e.bo, ?_⟩
      refine lock_run_step env _ _ _ _ _ hrun ?_
      simp [lock_run, lock_step, hnotH, hnz, hd, hE.1]
    · rw [heq]
      have hnz : env.bo_reserve w.n_reserve ≠ 0 := by rw [hd]; simpa using hE.1
      have hrun1 : lock_run env ([], none)
          (evs ++ [Event.bo_reserve e.bo (!ticket) (env.bo_reserve w.n_reserve)]) =
          some (H, some e.bo) := by
        refine lock_run_step env _ _ _ _ _ hrun ?_
        simp [lock_run, lock_step, hnotH, hnz, hd, hE.1]
      obtain ⟨more, m1, m2⟩ := wound_lock_run env w0 bos hfree hnd pre rest e
        (try_world env ticket e w) _ H h1 hrun1 (by
          intro b
          rw [hH b]
          simp [try_world, __ttm_bo_reserve, hnz])
      refine ⟨evs ++ [Event.bo_reserve e.bo (!ticket) (env.bo_reserve w.n_reserve)] ++ more,
        by rw [m1, try_world_trace, ht]; simp, m2⟩
    · rw [heq]
      refine ⟨evs ++ [Event.bo_reserve e.bo (!ticket) (env.bo_reserve w.n_reserve)],
        by rw [Walk.world, try_world_trace, ht]; simp, H, ?_, ?_⟩
      · refine lock_run_step env _ _ _ _ _ hrun ?_
        simp [lock_run, lock_step, hnotH, hnz, hnd1]
      · intro b
        rw [hH b]
        simp [try_world, __ttm_bo_reserve, hnz]
    · rw [heq]
      refine ⟨evs ++ [Event.bo_reserve e.bo (!ticket) (env.bo_reserve w.n_reserve),
        Event.cpu_writers e.bo (env.cpu_writers w.n_cpu)],
        by rw [Walk.world, read_world_trace, ht]; simp, e.bo :: H, ?_, ?_⟩
      · refine lock_run_step env _ _ _ _ _ hrun ?_
        simp [lock_run, lock_step, hnotH, hz]
      · intro b
        simp only [List.mem_cons, hH b]
        by_cases hb : b = e.bo <;>
          simp [read_world, try_world, atomic_read_cpu_writers, __ttm_bo_reserve, hz, hb]
    · rw [heq]
      refine ih _ _ (evs ++ [Event.bo_reserve e.bo (!ticket) (env.bo_reserve w.n_reserve),
        Event.cpu_writers e.bo (env.cpu_writers w.n_cpu)]) (by simpa using h2)
        (by rw [read_world_trace, ht]; simp) ⟨e.bo :: H, ?_, ?_⟩
      · refine lock_run_step env _ _ _ _ _ hrun ?_
        simp [lock_run, lock_step, hnotH, hz]
      · intro b
        simp only [List.mem_cons, hH b]
        by_cases hb : b = e.bo <;>
          simp [read_world, try_world, atomic_read_cpu_writers, __ttm_bo_reserve, hz, hb]

theorem retry_lock_run (env : Env) (hE : env.errno_ok) (ticket : Bool) (w0 : World)
    (bos : List Nat) (hfree : ∀ b, w0.held b = false) (hnd : bos.Nodup) (t0 : List Event) :
    ∀ (fuel : Nat) (l : List ttm_validate_buffer) (w : World) (evs : List Event) (x : Exit),
    SInv w0 bos l w → w.trace = t0 ++ evs → LInv env evs w →
    reserve_retry env ticket fuel l w = some x →
    ∃ evs1, x.world.trace = t0 ++ evs1 ∧ Exit.linv env evs1 x := by
  intro fuel
  induction fuel with
  | zero => intro l w evs x _ _ _ h; simp [reserve_retry] at h
  | succ fuel ih =>
    intro l w evs x hI ht hl h
    rw [reserve_retry_succ] at h
    have hw := walk_sinv env hE ticket w0 bos l [] w (by simpa using hI) (by simp)
    obtain ⟨evs1, ht1, hl1⟩ := walk_lock_run env hE ticket w0 bos hfree hnd t0 l [] w evs
      (by simpa using hI) ht hl
    have hfin : ∀ ev ∈ (if ticket = true then [Event.ww_acquire_done, Event.ww_acquire_fini]
        else []), lock_free ev = true := by
      intro ev hev
      cases ticket <;> simp at hev
      rcases hev with rfl | rfl <;> rfl
    cases hwalk : reserve_walk env ticket [] l w with
    | done l2 w2 =>
      rw [hwalk] at h ht1 hl1
      simp only [Option.some.injEq] at h
      subst h
      simp only [Walk.world] at ht1
      refine ⟨evs1 ++ ((if ticket = true then [Event.ww_acquire_done] else []) ++
        [Event.spin_lock_lru] ++ del_events env w2.n_del l2 ++ [Event.spin_unlock_lru] ++
        ref_events (del_list env w2.n_del l2)), ?_, ?_⟩
      · simp only [Exit.world]
        rw [ref_sub_snd, del_fst]
        simp only [World.emit, del_trace]
        cases ticket <;> simp [ht1]
      · refine LInv.free _ hl1 ?_ ?_
        · intro ev hev
          simp only [List.mem_append, List.mem_cons, List.not_mem_nil, or_false] at hev
          rcases hev with (((hev | rfl) | hev) | rfl) | hev
          · cases ticket <;> simp at hev
            subst hev; rfl
          · rfl
          · obtain ⟨_, _, rfl⟩ := del_events_kind env l2 _ ev hev
            rfl
          · rfl
          · exact ref_events_lock_free _ ev hev
        · rw [ref_sub_snd]
          simp only [World.emit]
          rw [(del_rest env l2 _).1]
          cases ticket <;> rfl
    | retry l2 w2 =>
      rw [hwalk] at h hw ht1 hl1
      exact ih l2 w2 evs1 x hw ht1 hl1 h
    | err r l2 w2 =>
      rw [hwalk] at h hw ht1 hl1
      simp only [Option.some.injEq] at h
      subst h
      simp only [Walk.world] at ht1
      obtain ⟨H, hrun, hH⟩ := hl1
      have hnd2 : (l2.map (fun e => e.bo)).Nodup := by rw [hw.1.bos_eq]; exact hnd
      obtain ⟨H1, r1, r2⟩ := lock_run_unwind env none l2 H hnd2
        (fun a ha har => (hH a.bo).2 (hw.1.locked a ha har))
      obtain ⟨hl, hwd⟩ := wound_fresh l2 w2 hw.1.fresh
      obtain ⟨e1, -⟩ := err_trace ticket r l2 w2
      refine ⟨evs1 ++ unwind_events l2 ++
        (if ticket = true then [Event.ww_acquire_done, Event.ww_acquire_fini] else []),
        by rw [e1, ht1]; simp, ?_⟩
      rw [reserve_err_eq]
      refine ⟨H1, ?_, ?_⟩
      · refine lock_run_step env _ _ _ _ _ (lock_run_step env _ _ _ _ _ hrun r1) ?_
        exact lock_run_free env _ _ hfin
      · intro b
        rw [r2 b, hH b]
        have : (reserve_err_fini ticket r (wound_list l2 w2) (wound_world l2 w2)).world.held
            = (wound_world l2 w2).held := by
          cases ticket <;> rfl
        show _ ↔ (reserve_err_fini ticket r (wound_list l2 w2)
          (wound_world l2 w2)).world.held b = true
        rw [this, hwd]
        simp only [Bool.and_eq_true, Bool.not_eq_true', List.any_eq_false, decide_eq_true_eq,
          not_and]
    | err_fini r l2 w2 =>
      rw [hwalk] at h ht1 hl1
      simp only [Option.some.injEq] at h
      subst h
      simp only [Walk.world] at ht1
      obtain ⟨e1, -⟩ := err_fini_trace ticket r l2 w2
      refine ⟨evs1 ++
        (if ticket = true then [Event.ww_acquire_done, Event.ww_acquire_fini] else []),
        by rw [e1, ht1]; simp, ?_⟩
      have hx : reserve_err_fini ticket r l2 w2 = Exit.ret r l2
          (if ticket = true then (w2.emit Event.ww_acquire_done).emit Event.ww_acquire_fini
            else w2) := rfl
      rw [hx]
      exact LInv.free _ hl1 hfin (by cases ticket <;> rfl)
    | bug l2 w2 =>
      rw [hwalk] at h ht1 hl1
      simp only [Option.some.injEq] at h
      subst h
      exact ⟨evs1, ht1, hl1⟩

theorem nodup_mid {pre rest : List ttm_validate_buffer} {e : ttm_validate_buffer}
    (h : ((pre ++ e :: rest).map (fun a => a.bo)).Nodup) :
    ∀ a ∈ pre ++ rest, a.bo ≠ e.bo := by
  intro a ha
  rw [List.map_append, List.map_cons, List.nodup_append] at h
  obtain ⟨-, h2, h3⟩ := h
  rw [List.nodup_cons] at h2
  rcases List.mem_append.1 ha with hp | hr
  · intro hab
    exact h3 (List.mem_map.2 ⟨a, hp, rfl⟩) (by rw [hab]; exact List.mem_cons_self _ _)
  · intro hab
    exact h2.1 (List.mem_map.2 ⟨a, hr, hab⟩)

theorem mem_mid {pre rest : List ttm_validate_buffer} {e a : ttm_validate_buffer}
    (h : a ∈ pre ++ e :: rest) : a = e ∨ a ∈ pre ++ rest := by
  simp only [List.mem_append, List.mem_cons] at h ⊢
  tauto

theorem mem_mid_of {pre rest : List ttm_validate_buffer} {a : ttm_validate_buffer}
    (e : ttm_validate_buffer) (h : a ∈ pre ++ rest) : a ∈ pre ++ e :: rest := by
  simp only [List.mem_append, List.mem_cons] at h ⊢
  tauto

theorem BackoffKeeps.entry {pre rest : List ttm_validate_buffer} {a : ttm_validate_buffer}
    {w : World} (pt : Pt) (a2 : ttm_validate_buffer) (w2 : World) (hbo : a2.bo = a.bo)
    (hres : a2.reserved = false) (hrem : a.removed = false → a2.removed = false)
    (hput : a2.put_count = a.put_count)
    (hother : ∀ b, b ≠ a.bo → w2.held b = w.held b) :
    BackoffKeeps (pre ++ a :: rest) w (Step.mk pt (pre ++ a2 :: rest) w2) := by
  refine ⟨by simp [hbo], ?_, ?_⟩
  · intro hf e he
    rcases mem_mid he with rfl | he
    · have := hf a (by simp)
      exact ⟨hrem this.1, by rw [hput]; exact this.2⟩
    · exact hf e (mem_mid_of a he)
  · intro hnd hh e he her
    rcases mem_mid he with rfl | he
    · rw [hres] at her; cases her
    · show w2.held e.bo = true
      rw [hother _ (nodup_mid hnd e he)]
      exact hh e (mem_mid_of a he) her

theorem BackoffKeeps.later {pre rest : List ttm_validate_buffer}
    {a a2 : ttm_validate_buffer} {w w2 : World} {s : Step}
    (h : BackoffKeeps (pre ++ a2 :: rest) w2 s)
    (hk : BackoffKeeps (pre ++ a :: rest) w (Step.mk Pt.unreserve (pre ++ a2 :: rest) w2)) :
    BackoffKeeps (pre ++ a :: rest) w s := by
  obtain ⟨i1, i2, i3⟩ := h
  obtain ⟨k1, k2, k3⟩ := hk
  exact ⟨i1.trans k1, fun hf => i2 (k2 hf), fun hnd hh => i3 (by rw [k1]; exact hnd)
    (k3 hnd hh)⟩

theorem backoff_locked_steps_inv : ∀ (rest pre : List ttm_validate_buffer) (w : World),
    ∀ s ∈ backoff_locked_steps pre rest w,
      BackoffKeeps (pre ++ rest) w s ∧
      (s.pt = Pt.clear_reserved ∨ s.pt = Pt.add_to_lru ∨ s.pt = Pt.clear_removed ∨
        s.pt = Pt.unreserve) := by
  intro rest
  induction rest with
  | nil => intro pre w s hs; simp [backoff_locked_steps] at hs
  | cons a rest ih =>
    intro pre w s hs
    rw [backoff_locked_steps] at hs
    by_cases hr : a.reserved = false
    · rw [if_pos hr] at hs
      have := ih (pre ++ [a]) w s hs
      simpa using this
    · rw [if_neg hr] at hs
      simp only [List.mem_append, List.mem_cons, List.mem_singleton, List.not_mem_nil,
        or_false] at hs
      have hun : ∀ (w1 : World) (b : Nat), b ≠ a.bo →
          (__ttm_bo_unreserve a.bo w1).held b = w1.held b := by
        intro w1 b hb
        simp [__ttm_bo_unreserve, hb]
      rcases hs with ((hs | hs) | hs) | hs
      · subst hs
        exact ⟨BackoffKeeps.entry _ _ _ rfl rfl (fun h => h) rfl (fun _ _ => rfl), Or.inl rfl⟩
      · rcases Bool.eq_false_or_eq_true a.removed with hm | hm
        · simp only [hm, if_true, List.mem_cons, List.not_mem_nil, or_false] at hs
          rcases hs with hs | hs
          · subst hs
            exact ⟨BackoffKeeps.entry _ _ _ rfl rfl (fun h => by rw [hm] at h; cases h) rfl
              (fun _ _ => rfl), Or.inr (Or.inl rfl)⟩
          · subst hs
            exact ⟨BackoffKeeps.entry _ _ _ rfl rfl (fun _ => rfl) rfl
              (fun _ _ => rfl), Or.inr (Or.inr (Or.inl rfl))⟩
        · simp [hm] at hs
      · subst hs
        refine ⟨?_, Or.inr (Or.inr (Or.inr rfl))⟩
        rcases Bool.eq_false_or_eq_true a.removed with hm | hm
        · simp only [hm, if_true]
          exact BackoffKeeps.entry _ _ _ rfl rfl (fun _ => rfl) rfl (fun b hb => hun _ b hb)
        · simp only [hm, Bool.false_eq_true, if_false]
          exact BackoffKeeps.entry _ _ _ rfl rfl (fun _ => rfl) rfl (fun b hb => hun _ b hb)
      · rcases Bool.eq_false_or_eq_true a.removed with hm | hm
        · simp only [hm, if_true] at hs
          obtain ⟨i, i4⟩ := ih _ _ s hs
          simp only [List.append_assoc, List.singleton_append] at i
          exact ⟨i.later (BackoffKeeps.entry _ _ _ rfl rfl (fun _ => rfl) rfl
            (fun b hb => hun _ b hb)), i4⟩
        · simp only [hm, Bool.false_eq_true, if_false] at hs
          obtain ⟨i, i4⟩ := ih _ _ s hs
          simp only [List.append_assoc, List.singleton_append] at i
          exact ⟨i.later (BackoffKeeps.entry _ _ _ rfl rfl (fun _ => rfl) rfl
            (fun b hb => hun _ b hb)), i4⟩

theorem of_map_eq {α : Type} {l1 l2 : List ttm_validate_buffer}
    (f : ttm_validate_buffer → α) (h : l1.map f = l2.map f) (P : α → Prop)
    (hP : ∀ e ∈ l2, P (f e)) : ∀ e ∈ l1, P (f e) := by
  intro e he
  have : f e ∈ l2.map f := by rw [← h]; exact List.mem_map.2 ⟨e, he, rfl⟩
  obtain ⟨e2, he2, h2⟩ := List.mem_map.1 this
  rw [← h2]
  exact hP e2 he2

theorem ref_sub_steps_inv : ∀ (rest pre : List ttm_validate_buffer) (w : World),
    ∀ s ∈ ref_sub_steps pre rest w,
      s.w.held = w.held ∧
      s.list.map (fun e => (e.bo, e.reserved, e.removed)) =
        (pre ++ rest).map (fun e => (e.bo, e.reserved, e.removed)) ∧
      (s.pt = Pt.list_ref_sub ∨ s.pt = Pt.clear_put_count) := by
  intro rest
  induction rest with
  | nil => intro pre w s hs; simp [ref_sub_steps] at hs
  | cons a rest ih =>
    intro pre w s hs
    rw [ref_sub_steps] at hs
    by_cases hp : a.put_count ≠ 0
    · rw [if_pos hp] at hs
      simp only [List.mem_cons] at hs
      rcases hs with hs | hs | hs
      · subst hs; exact ⟨rfl, rfl, Or.inl rfl⟩
      · subst hs; exact ⟨rfl, by simp, Or.inr rfl⟩
      · obtain ⟨i1, i2, i3⟩ := ih _ _ s hs
        exact ⟨i1, by rw [i2]; simp, i3⟩
    · rw [if_neg hp] at hs
      obtain ⟨i1, i2, i3⟩ := ih _ _ s hs
      exact ⟨i1, by rw [i2]; simp, i3⟩

theorem ref_sub_steps_fresh : ∀ (rest pre : List ttm_validate_buffer) (w : World),
    (∀ e ∈ rest, e.put_count = 0) → ref_sub_steps pre rest w = [] := by
  intro rest
  induction rest with
  | nil => intro pre w _; rfl
  | cons a rest ih =>
    intro pre w h
    rw [ref_sub_steps, if_neg (by simp [h a (List.mem_cons_self _ _)])]
    exact ih _ _ (fun e he => h e (List.mem_cons_of_mem _ he))

theorem del_steps_inv (env : Env) : ∀ (rest pre : List ttm_validate_buffer) (w : World),
    ∀ s ∈ del_steps env pre rest w,
      s.w.held = w.held ∧
      s.list.map (fun e => (e.bo, e.reserved)) =
        (pre ++ rest).map (fun e => (e.bo, e.reserved)) ∧
      ((∀ e ∈ pre ++ rest, e.removed = true → e.reserved = true) →
        ∀ e ∈ s.list, e.removed = true → e.reserved = true) ∧
      (s.pt = Pt.del_from_lru ∨ s.pt = Pt.set_removed) := by
  intro rest
  induction rest with
  | nil => intro pre w s hs; simp [del_steps] at hs
  | cons a rest ih =>
    intro pre w s hs
    rw [del_steps] at hs
    by_cases hr : a.reserved = false
    · rw [if_pos hr] at hs
      obtain ⟨i1, i2, i3, i4⟩ := ih _ _ s hs
      exact ⟨i1, by rw [i2]; simp, by simpa using i3, i4⟩
    · rw [if_neg hr] at hs
      have hr1 : a.reserved = true := by simpa using hr
      by_cases hm : a.removed = false
      · rw [if_pos hm] at hs
        simp only [List.mem_cons] at hs
        have hstep : ∀ a2 : ttm_validate_buffer, a2.reserved = true →
            (∀ e ∈ pre ++ a :: rest, e.removed = true → e.reserved = true) →
            ∀ e ∈ pre ++ a2 :: rest, e.removed = true → e.reserved = true := by
          intro a2 h2 hf e he
          rcases mem_mid he with rfl | he
          · exact fun _ => h2
          · exact hf e (mem_mid_of a he)
        rcases hs with hs | hs | hs
        · subst hs
          exact ⟨rfl, by simp, hstep _ hr1, Or.inl rfl⟩
        · subst hs
          exact ⟨rfl, by simp, hstep _ hr1, Or.inr rfl⟩
        · obtain ⟨i1, i2, i3, i4⟩ := ih _ _ s hs
          refine ⟨i1, by rw [i2]; simp, fun hf => i3 ?_, i4⟩
          have := hstep ⟨a.bo, a.reserved, true, (ttm_bo_del_from_lru env a.bo w).1,
            a.old_sync_obj⟩ hr1 hf
          simpa using this
      · rw [if_neg hm] at hs
        obtain ⟨i1, i2, i3, i4⟩ := ih _ _ s hs
        exact ⟨i1, by rw [i2]; simp, by simpa using i3, i4⟩

theorem init_steps_inv : ∀ (rest pre : List ttm_validate_buffer) (w : World),
    ∀ s ∈ init_steps pre rest w,
      s.w = w ∧
      ((∀ e ∈ pre ++ rest, e.removed = false) → ∀ e ∈ s.list, e.removed = false) ∧
      ((∀ e ∈ pre ++ rest, e.reserved = true → w.held e.bo = true) →
        ∀ e ∈ s.list, e.reserved = true → w.held e.bo = true) ∧
      (s.pt = Pt.init_reserved ∨ s.pt = Pt.init_put_count ∨ s.pt = Pt.init_removed) := by
  intro rest
  induction rest with
  | nil => intro pre w s hs; simp [init_steps] at hs
  | cons a rest ih =>
    intro pre w s hs
    rw [init_steps] at hs
    have hstep : ∀ a2 : ttm_validate_buffer, a2.reserved = false →
        (a.removed = false → a2.removed = false) →
        ((∀ e ∈ pre ++ a :: rest, e.removed = false) →
          ∀ e ∈ pre ++ a2 :: rest, e.removed = false) ∧
        ((∀ e ∈ pre ++ a :: rest, e.reserved = true → w.held e.bo = true) →
          ∀ e ∈ pre ++ a2 :: rest, e.reserved = true → w.held e.bo = true) := by
      intro a2 h2 h3
      constructor
      · intro hf e he
        rcases mem_mid he with rfl | he
        · exact h3 (hf a (by simp))
        · exact hf e (mem_mid_of a he)
      · intro hf e he her
        rcases mem_mid he with rfl | he
        · rw [h2] at her; cases her
        · exact hf e (mem_mid_of a he) her
    simp only [List.mem_cons] at hs
    rcases hs with hs | hs | hs | hs
    · subst hs
      have k := hstep ⟨a.bo, false, a.removed, a.put_count, a.old_sync_obj⟩ rfl (fun h => h)
      exact ⟨rfl, k.1, k.2, Or.inl rfl⟩
    · subst hs
      have k := hstep ⟨a.bo, false, a.removed, 0, a.old_sync_obj⟩ rfl (fun h => h)
      exact ⟨rfl, k.1, k.2, Or.inr (Or.inl rfl)⟩
    · subst hs
      have k := hstep ⟨a.bo, false, false, 0, a.old_sync_obj⟩ rfl (fun _ => rfl)
      exact ⟨rfl, k.1, k.2, Or.inr (Or.inr rfl)⟩
    · obtain ⟨i1, i2, i3, i4⟩ := ih _ _ s hs
      have k := hstep ⟨a.bo, false, false, 0, a.old_sync_obj⟩ rfl (fun _ => rfl)
      exact ⟨i1, fun hf => i2 (by simpa using k.1 hf), fun hf => i3 (by simpa using k.2 hf), i4⟩

/-- Inside the first loop of `ttm_eu_reserve_buffers` an entry marked reserved is
an entry as the caller passed it, not yet written by the loop. -/
theorem init_steps_stale : ∀ (rest pre : List ttm_validate_buffer) (w : World),
    ∀ s ∈ init_steps pre rest w, ∀ e ∈ s.list, e.reserved = true → e ∈ pre ++ rest := by
  intro rest
  induction rest with
  | nil => intro pre w s hs; simp [init_steps] at hs
  | cons a rest ih =>
    intro pre w s hs
    rw [init_steps] at hs
    have hstep : ∀ a2 : ttm_validate_buffer, a2.reserved = false →
        ∀ e ∈ pre ++ a2 :: rest, e.reserved = true → e ∈ pre ++ a :: rest := by
      intro a2 h2 e he her
      rcases mem_mid he with rfl | he
      · rw [h2] at her; cases her
      · exact mem_mid_of a he
    simp only [List.mem_cons] at hs
    rcases hs with hs | hs | hs | hs
    · subst hs
      exact hstep ⟨a.bo, false, a.removed, a.put_count, a.old_sync_obj⟩ rfl
    · subst hs
      exact hstep ⟨a.bo, false, a.removed, 0, a.old_sync_obj⟩ rfl
    · subst hs
      exact hstep ⟨a.bo, false, false, 0, a.old_sync_obj⟩ rfl
    · intro e he her
      exact hstep ⟨a.bo, false, false, 0, a.old_sync_obj⟩ rfl e
        (by simpa using ih _ _ s hs e he her) her

theorem fence_loop_steps_inv (env : Env) (tok : Option Nat) :
    ∀ (rest pre : List ttm_validate_buffer) (w : World),
    ((pre ++ rest).map (fun e => e.bo)).Nodup →
    (∀ e ∈ pre ++ rest, e.reserved = true → w.held e.bo = true) →
    ∀ s ∈ fence_loop_steps env tok pre rest w, ∀ e ∈ s.list, e.reserved = true →
      s.w.held e.bo = true ∨
      (s.pt = Pt.unreserve ∧ ∃ t, s.w.trace = t ++ [Event.bo_unreserve e.bo]) := by
  intro rest
  induction rest with
  | nil => intro pre w _ _ s hs; simp [fence_loop_steps] at hs
  | cons a rest ih =>
    intro pre w hnd hh s hs
    rw [fence_loop_steps] at hs
    have hsame : ∀ (a2 : ttm_validate_buffer) (w2 : World), a2.bo = a.bo →
        a2.reserved = a.reserved → w2.held = w.held →
        ∀ e ∈ pre ++ a2 :: rest, e.reserved = true → w2.held e.bo = true := by
      intro a2 w2 hbo hres hw e he her
      rw [hw]
      rcases mem_mid he with rfl | he
      · rw [hbo]; exact hh a (by simp) (by rw [← hres]; exact her)
      · exact hh e (mem_mid_of a he) her
    have hrel : ∀ (a2 : ttm_validate_buffer) (w2 : World), a2.bo = a.bo →
        (∀ b, b ≠ a.bo → w2.held b = w.held b) →
        ∀ e ∈ pre ++ a2 :: rest, e.reserved = true → e = a2 ∨ w2.held e.bo = true := by
      intro a2 w2 _ hw e he her
      rcases mem_mid he with rfl | he
      · exact Or.inl rfl
      · right
        rw [hw _ (nodup_mid hnd e he)]
        exact hh e (mem_mid_of a he) her
    have hun : ∀ b, b ≠ a.bo → (__ttm_bo_unreserve a.bo (ttm_bo_add_to_lru a.bo
        { w.emit (Event.sync_obj_ref tok) with
          sync_obj := fun b => if b = a.bo then env.sync_obj_ref tok else w.sync_obj b })).held b
        = w.held b := by
      intro b hb
      simp [__ttm_bo_unreserve, ttm_bo_add_to_lru, World.emit, hb]
    simp only [List.mem_cons] at hs
    rcases hs with hs | hs | hs | hs | hs | hs
    · subst hs
      exact fun e he her => Or.inl (hsame _ _ (by rfl) (by rfl) (by rfl) e he her)
    · subst hs
      exact fun e he her => Or.inl (hsame _ _ (by rfl) (by rfl) (by rfl) e he her)
    · subst hs
      exact fun e he her => Or.inl (hsame _ _ (by rfl) (by rfl) (by rfl) e he her)
    · subst hs
      intro e he her
      rcases hrel _ _ (by rfl) hun e he her with rfl | h
      · exact Or.inr ⟨rfl, _, rfl⟩
      · exact Or.inl h
    · subst hs
      intro e he her
      rcases hrel _ _ (by rfl) hun e he her with rfl | h
      · cases her
      · exact Or.inl h
    · refine ih _ _ (by simpa using hnd) ?_ s hs
      intro e he her
      rcases hrel { a with old_sync_obj := w.sync_obj a.bo, reserved := false } _ rfl hun e
        (by simpa using he) her with rfl | h
      · cases her
      · exact h

theorem fence_unref_steps_inv (env : Env) :
    ∀ (rest pre : List ttm_validate_buffer) (w : World),
    (∀ e ∈ pre ++ rest, e.reserved = false) →
    ∀ s ∈ fence_unref_steps env pre rest w, ∀ e ∈ s.list, e.reserved = false := by
  intro rest
  induction rest with
  | nil => intro pre w _ s hs; simp [fence_unref_steps] at hs
  | cons a rest ih =>
    intro pre w hh s hs
    rw [fence_unref_steps] at hs
    cases ho : a.old_sync_obj with
    | none =>
      rw [ho] at hs
      exact ih _ _ (by simpa using hh) s hs
    | some t =>
      rw [ho] at hs
      have hstep : ∀ e ∈ pre ++ { a with old_sync_obj := env.sync_obj_unref t } :: rest,
          e.reserved = false := by
        intro e he
        rcases mem_mid he with rfl | he
        · exact hh a (by simp)
        · exact hh e (mem_mid_of a he)
      simp only [List.mem_cons] at hs
      rcases hs with hs | hs
      · subst hs; exact hstep
      · exact ih _ _ (by simpa using hstep) s hs

theorem StepInv.plain {w0 : World} {bos : List Nat} {s : Step}
    (hpt : s.pt ≠ Pt.call_slow ∧ s.pt ≠ Pt.try_reserve ∧ s.pt ≠ Pt.goto_retry)
    (hf : ∀ e ∈ s.list, e.removed = true → e.reserved = true)
    (hl : bos.Nodup → ∀ e ∈ s.list, e.reserved = true → s.w.held e.bo = true) :
    StepInv w0 bos s :=
  ⟨hf, hl, fun _ h => absurd h hpt.1, fun _ h => absurd h hpt.2.1,
    fun _ _ h => absurd h hpt.2.2⟩

theorem StepInv.plain_at {w0 : World} {bos : List Nat} (pt : Pt)
    (l : List ttm_validate_buffer) (w : World)
    (hpt : pt ≠ Pt.call_slow ∧ pt ≠ Pt.try_reserve ∧ pt ≠ Pt.goto_retry)
    (hf : ∀ e ∈ l, e.removed = true → e.reserved = true)
    (hl : bos.Nodup → ∀ e ∈ l, e.reserved = true → w.held e.bo = true) :
    StepInv w0 bos (Step.mk pt l w) :=
  StepInv.plain hpt hf hl

theorem flags_of_fresh {l : List ttm_validate_buffer}
    (h : ∀ e ∈ l, e.removed = false ∧ e.put_count = 0) :
    ∀ e ∈ l, e.removed = true → e.reserved = true := by
  intro e he hr
  rw [(h e he).1] at hr
  cases hr

theorem StepInv.of_sinv {w0 : World} {bos : List Nat} {l : List ttm_validate_buffer}
    {w : World} (pt : Pt) (w2 : World) (h : SInv w0 bos l w) (hh : w2.held = w.held)
    (hpt : pt ≠ Pt.call_slow ∧ pt ≠ Pt.try_reserve ∧ pt ≠ Pt.goto_retry) :
    StepInv w0 bos (Step.mk pt l w2) :=
  StepInv.plain hpt (flags_of_fresh h.fresh)
    (fun _ e he her => by
      show w2.held e.bo = true
      rw [hh]; exact h.locked e he her)

theorem wound_steps_eq (env : Env) (pos bo : Nat) (l : List ttm_validate_buffer)
    (w1 : World) :
    wound_steps env pos bo l w1 =
      [Step.mk Pt.lru_lock l (w1.emit Event.spin_lock_lru)] ++
      backoff_locked_steps [] l (w1.emit Event.spin_lock_lru) ++
      [Step.mk Pt.lru_unlock
        (ttm_eu_backoff_reservation_locked l (w1.emit Event.spin_lock_lru)).1
        ((ttm_eu_backoff_reservation_locked l (w1.emit Event.spin_lock_lru)).2.emit
          Event.spin_unlock_lru)] ++
      ref_sub_steps [] (ttm_eu_backoff_reservation_locked l (w1.emit Event.spin_lock_lru)).1
        ((ttm_eu_backoff_reservation_locked l (w1.emit Event.spin_lock_lru)).2.emit
          Event.spin_unlock_lru) ++
      [Step.mk Pt.call_slow (wound_list l w1) (wound_world l w1),
       Step.mk Pt.slow_reserve (wound_list l w1) (slow_world env bo l w1)] ++
      if env.lock_slow (wound_world l w1).n_slow ≠ 0 then []
      else
        [Step.mk Pt.set_reserved (set_reserved pos (wound_list l w1)) (slow_world env bo l w1),
         Step.mk Pt.cpu_writers (set_reserved pos (wound_list l w1))
           (slow_read_world env bo l w1)] ++
        if 0 < env.cpu_writers (slow_world env bo l w1).n_cpu then []
        else [Step.mk Pt.goto_retry (set_reserved pos (wound_list l w1))
          (slow_read_world env bo l w1)] := rfl

theorem walk_steps_cons (env : Env) (ticket : Bool) (pre rest : List ttm_validate_buffer)
    (e : ttm_validate_buffer) (w : World) :
    walk_steps env ticket pre (e :: rest) w =
      if e.reserved = true then walk_steps env ticket (pre ++ [e]) rest w
      else
        Step.mk Pt.try_reserve (pre ++ e :: rest) (try_world env ticket e w) ::
        if env.bo_reserve w.n_reserve = -env.EDEADLK then
          if ticket = false then []
          else wound_steps env pre.length e.bo (pre ++ e :: rest) (try_world env ticket e w)
        else if env.bo_reserve w.n_reserve ≠ 0 then []
        else
          Step.mk Pt.set_reserved (pre ++ { e with reserved := true } :: rest)
            (try_world env ticket e w) ::
          Step.mk Pt.cpu_writers (pre ++ { e with reserved := true } :: rest)
            (read_world env ticket e w) ::
          if 0 < env.cpu_writers w.n_cpu then []
          else walk_steps env ticket (pre ++ [{ e with reserved := true }]) rest
            (read_world env ticket e w) := by
  rw [walk_steps]
  rfl

theorem wound_marked_mem {pre rest : List ttm_validate_buffer} {e a : ttm_validate_buffer}
    (h : a ∈ wound_marked pre rest e) :
    a = { unres e with reserved := true } ∨
      (a.reserved = false ∧ ∃ a0 ∈ pre ++ rest, a.bo = a0.bo) := by
  simp only [wound_marked, List.mem_append, List.mem_cons, List.mem_map] at h
  rcases h with ⟨a0, h0, rfl⟩ | rfl | ⟨a0, h0, rfl⟩
  · exact Or.inr ⟨unres_reserved a0, a0, List.mem_append_left _ h0, unres_bo a0⟩
  · exact Or.inl rfl
  · exact Or.inr ⟨unres_reserved a0, a0, List.mem_append_right _ h0, unres_bo a0⟩

theorem wound_steps_inv (env : Env) (w0 : World) (bos : List Nat)
    (pre rest : List ttm_validate_buffer) (e : ttm_validate_buffer) (w1 : World)
    (h : SInv w0 bos (pre ++ e :: rest) w1) :
    ∀ s ∈ wound_steps env pre.length e.bo (pre ++ e :: rest) w1, StepInv w0 bos s := by
  obtain ⟨hl, hb, htr, -, hn1, hn2, hcases⟩ := wound_cases env w0 bos pre rest e w1 h
  have hbk : (ttm_eu_backoff_reservation_locked (pre ++ e :: rest)
      (w1.emit Event.spin_lock_lru)).1 = (pre ++ e :: rest).map unres := backoff_fst _ _
  have hun : ∀ a ∈ (pre ++ e :: rest).map unres, a.reserved = false := by
    intro a ha
    obtain ⟨a0, -, rfl⟩ := List.mem_map.1 ha
    exact unres_reserved a0
  have hmark : set_reserved pre.length ((pre ++ e :: rest).map unres) =
      wound_marked pre rest e := by
    rw [List.map_append, List.map_cons, set_reserved_append _ _ _ _ (by simp)]
    rfl
  have hplainU : ∀ (pt : Pt) (w2 : World),
      (pt ≠ Pt.call_slow ∧ pt ≠ Pt.try_reserve ∧ pt ≠ Pt.goto_retry) →
      StepInv w0 bos (Step.mk pt ((pre ++ e :: rest).map unres) w2) := by
    intro pt w2 hpt
    exact StepInv.plain hpt (flags_of_fresh hb.fresh)
      (fun _ a ha har => by rw [hun a ha] at har; cases har)
  have hslow : (slow_world env e.bo (pre ++ e :: rest) w1).n_cpu = w1.n_cpu := by
    rw [← hn2]; rfl
  intro s hs
  rw [wound_steps_eq, hbk, ref_sub_steps_fresh _ _ _ (fun a ha => (hb.fresh a ha).2), hl,
    hn1, hslow, hmark] at hs
  simp only [List.append_nil, List.mem_append, List.mem_cons, List.mem_singleton,
    List.not_mem_nil, or_false] at hs
  rcases hs with ((((hs | hs) | hs) | hs | hs) | hs)
  · subst hs
    exact StepInv.of_sinv _ _ h rfl (by decide)
  · obtain ⟨⟨-, k2, k3⟩, k4⟩ := backoff_locked_steps_inv _ _ _ s hs
    simp only [List.nil_append] at k2 k3
    refine StepInv.plain ?_ (flags_of_fresh (k2 h.fresh))
      (fun hnd => k3 (by rw [h.bos_eq]; exact hnd) h.locked)
    rcases k4 with k | k | k | k <;> rw [k] <;> decide
  · subst hs
    exact hplainU _ _ (by decide)
  · subst hs
    refine ⟨flags_of_fresh hb.fresh, fun _ a ha har => (by rw [hun a ha] at har; cases har),
      fun hfree _ => ⟨hun, held_none_of_unreserved hb hfree hun⟩,
      fun _ hp => (by cases hp), fun _ _ hp => (by cases hp)⟩
  · subst hs
    exact hplainU _ _ (by decide)
  · by_cases hz : env.lock_slow w1.n_slow = 0
    · rw [if_neg (by simpa using hz)] at hs
      have hS : SInv w0 bos (wound_marked pre rest e)
          (slow_read_world env e.bo (pre ++ e :: rest) w1) := by
        rcases hcases with ⟨c, -⟩ | ⟨-, -, c, -⟩ | ⟨-, -, c, -⟩
        · exact absurd hz c
        · exact c
        · exact c
      simp only [List.mem_append, List.mem_cons, List.mem_singleton, List.not_mem_nil,
        or_false] at hs
      rcases hs with (hs | hs) | hs
      · subst hs
        exact StepInv.of_sinv _ _ hS rfl (by decide)
      · subst hs
        exact StepInv.of_sinv _ _ hS rfl (by decide)
      · by_cases hv : 0 < env.cpu_writers w1.n_cpu
        · rw [if_pos hv] at hs
          simp at hs
        · rw [if_neg hv] at hs
          simp only [List.mem_singleton] at hs
          subst hs
          have hv0 : env.cpu_writers w1.n_cpu ≤ 0 := by omega
          refine ⟨flags_of_fresh hS.fresh, fun _ => hS.locked, fun _ hp => (by cases hp),
            fun _ hp => (by cases hp), fun hfree hnd _ => ?_⟩
          refine ⟨(wound_world (pre ++ e :: rest) w1).trace, e.bo,
            env.cpu_writers w1.n_cpu, hv0, ?_, ?_, ?_⟩
          · show (slow_read_world env e.bo (pre ++ e :: rest) w1).trace = _
            rw [slow_read_world_trace, hn1, hn2, hz]
          · intro a ha
            show a.reserved = true ↔ a.bo = e.bo
            rcases wound_marked_mem ha with rfl | ⟨hr, a0, ha0, hbo⟩
            · simp [unres_bo]
            · rw [hr, hbo]
              have := nodup_mid (by rw [h.bos_eq]; exact hnd) a0 ha0
              simp [this]
          · intro x
            show (slow_read_world env e.bo (pre ++ e :: rest) w1).held x = true ↔ x = e.bo
            have hnone := held_none_of_unreserved hb hfree hun x
            simp [slow_read_world, slow_world, atomic_read_cpu_writers,
              ww_mutex_lock_slow_interruptible, hn1, hz, hnone]
    · rw [if_pos (by simpa using hz)] at hs
      simp at hs

theorem walk_steps_inv (env : Env) (hE : env.errno_ok) (ticket : Bool) (w0 : World)
    (bos : List Nat) : ∀ (rest pre : List ttm_validate_buffer) (w : World),
    SInv w0 bos (pre ++ rest) w →
    ∀ s ∈ walk_steps env ticket pre rest w, StepInv w0 bos s := by
  intro rest
  induction rest with
  | nil => intro pre w _ s hs; simp [walk_steps] at hs
  | cons e rest ih =>
    intro pre w h s hs
    rw [walk_steps_cons] at hs
    have htry : e.reserved = false →
        StepInv w0 bos (Step.mk Pt.try_reserve (pre ++ e :: rest) (try_world env ticket e w)) := by
      intro hr
      refine ⟨flags_of_fresh h.fresh, fun _ a ha har => ?_, fun _ hp => (by cases hp),
        fun hnd _ => ?_, fun _ _ hp => (by cases hp)⟩
      · have := h.locked a ha har
        show (try_world env ticket e w).held a.bo = true
        simp [try_world, __ttm_bo_reserve, this]
      · refine ⟨w.trace, e.bo, !ticket, env.bo_reserve w.n_reserve, rfl, ?_⟩
        intro a ha hbo
        rcases mem_mid ha with rfl | ha
        · exact hr
        · exact absurd hbo (nodup_mid (by rw [h.bos_eq]; exact hnd) a ha)
    rcases walk_cases env hE ticket w0 bos pre rest e w h with
      ⟨hr, -⟩ | ⟨hr, hd, ht, -⟩ | ⟨hr, hd, ht, h1, -⟩ | ⟨hr, hnd1, hnz, -, -⟩ |
      ⟨hr, hz, hv, h2, -⟩ | ⟨hr, hz, hv, h2, -⟩
    · rw [if_pos hr] at hs
      exact ih _ w (by simpa using h) s hs
    · rw [if_neg (by simp [hr]), if_pos hd, if_pos ht] at hs
      simp only [List.mem_singleton] at hs
      subst hs
      exact htry hr
    · rw [if_neg (by simp [hr]), if_pos hd, if_neg (by simp [ht])] at hs
      simp only [List.mem_cons] at hs
      rcases hs with hs | hs
      · subst hs; exact htry hr
      · exact wound_steps_inv env w0 bos pre rest e _ h1 s hs
    · rw [if_neg (by simp [hr]), if_neg hnd1, if_pos hnz] at hs
      simp only [List.mem_singleton] at hs
      subst hs
      exact htry hr
    · have hd : env.bo_reserve w.n_reserve ≠ -env.EDEADLK := by
        rw [hz]; intro hc; exact hE.1 (by omega)
      rw [if_neg (by simp [hr]), if_neg hd, if_neg (by simp [hz]), if_pos hv] at hs
      simp only [List.mem_cons, List.not_mem_nil, or_false] at hs
      rcases hs with hs | hs | hs
      · subst hs; exact htry hr
      · subst hs; exact StepInv.of_sinv _ _ h2 rfl (by decide)
      · subst hs; exact StepInv.of_sinv _ _ h2 rfl (by decide)
    · have hd : env.bo_reserve w.n_reserve ≠ -env.EDEADLK := by
        rw [hz]; intro hc; exact hE.1 (by omega)
      rw [if_neg (by simp [hr]), if_neg hd, if_neg (by simp [hz]),
        if_neg (by omega)] at hs
      simp only [List.mem_cons] at hs
      rcases hs with hs | hs | hs | hs
      · subst hs; exact htry hr
      · subst hs; exact StepInv.of_sinv _ _ h2 rfl (by decide)
      · subst hs; exact StepInv.of_sinv _ _ h2 rfl (by decide)
      · exact ih _ _ (by simpa using h2) s hs

theorem err_fini_steps_inv (ticket : Bool) {w0 : World} {bos : List Nat}
    {l : List ttm_validate_buffer} {w : World} (h : SInv w0 bos l w) :
    ∀ s ∈ err_fini_steps ticket l w, StepInv w0 bos s := by
  intro s hs
  cases ticket
  · simp [err_fini_steps] at hs
  · simp only [err_fini_steps, if_true, List.mem_cons, List.not_mem_nil, or_false] at hs
    rcases hs with hs | hs
    · subst hs; exact StepInv.of_sinv _ _ h rfl (by decide)
    · subst hs; exact StepInv.of_sinv _ _ h rfl (by decide)

theorem err_steps_inv (ticket : Bool) {w0 : World} {bos : List Nat}
    {l : List ttm_validate_buffer} {w : World} (h : SInv w0 bos l w) :
    ∀ s ∈ err_steps ticket l w, StepInv w0 bos s := by
  obtain ⟨hl, hw⟩ := wound_fresh l w h.fresh
  have hb : SInv w0 bos (l.map unres) (wound_world l w) :=
    h.backoff (by intro b; rw [hw]) (by rw [hw]) (by rw [hw])
  have hbk : (ttm_eu_backoff_reservation_locked l (w.emit Event.spin_lock_lru)).1 =
      l.map unres := backoff_fst _ _
  have hun : ∀ a ∈ l.map unres, a.reserved = false := by
    intro a ha
    obtain ⟨a0, -, rfl⟩ := List.mem_map.1 ha
    exact unres_reserved a0
  have heq : err_steps ticket l w =
      [Step.mk Pt.lru_lock l (w.emit Event.spin_lock_lru)] ++
      backoff_locked_steps [] l (w.emit Event.spin_lock_lru) ++
      [Step.mk Pt.lru_unlock
        (ttm_eu_backoff_reservation_locked l (w.emit Event.spin_lock_lru)).1
        ((ttm_eu_backoff_reservation_locked l (w.emit Event.spin_lock_lru)).2.emit
          Event.spin_unlock_lru)] ++
      ref_sub_steps [] (ttm_eu_backoff_reservation_locked l (w.emit Event.spin_lock_lru)).1
        ((ttm_eu_backoff_reservation_locked l (w.emit Event.spin_lock_lru)).2.emit
          Event.spin_unlock_lru) ++
      err_fini_steps ticket (wound_list l w) (wound_world l w) := rfl
  intro s hs
  rw [heq, hbk, ref_sub_steps_fresh _ _ _ (fun a ha => (hb.fresh a ha).2), hl] at hs
  simp only [List.append_nil, List.mem_append, List.mem_cons, List.mem_singleton,
    List.not_mem_nil, or_false] at hs
  rcases hs with ((hs | hs) | hs) | hs
  · subst hs
    exact StepInv.of_sinv _ _ h rfl (by decide)
  · obtain ⟨⟨-, k2, k3⟩, k4⟩ := backoff_locked_steps_inv _ _ _ s hs
    simp only [List.nil_append] at k2 k3
    refine StepInv.plain ?_ (flags_of_fresh (k2 h.fresh))
      (fun hnd => k3 (by rw [h.bos_eq]; exact hnd) h.locked)
    rcases k4 with k | k | k | k <;> rw [k] <;> decide
  · subst hs
    exact StepInv.plain_at _ _ _ (by decide) (flags_of_fresh hb.fresh)
      (fun _ a ha har => by rw [hun a ha] at har; cases har)
  · exact err_fini_steps_inv ticket hb s hs

theorem done_steps_inv (env : Env) (ticket : Bool) {w0 : World} {bos : List Nat}
    {l1 : List ttm_validate_buffer} {w1 : World} (h : SInv w0 bos l1 w1) :
    ∀ s ∈ (if ticket = true then [Step.mk Pt.acquire_done l1
          (if ticket = true then w1.emit Event.ww_acquire_done else w1)] else []) ++
        [Step.mk Pt.lru_lock l1
          ((if ticket = true then w1.emit Event.ww_acquire_done else w1).emit
            Event.spin_lock_lru)] ++
        del_steps env [] l1
          ((if ticket = true then w1.emit Event.ww_acquire_done else w1).emit
            Event.spin_lock_lru) ++
        [Step.mk Pt.lru_unlock
          (ttm_eu_del_from_lru_locked env l1
            ((if ticket = true then w1.emit Event.ww_acquire_done else w1).emit
              Event.spin_lock_lru)).1
          ((ttm_eu_del_from_lru_locked env l1
            ((if ticket = true then w1.emit Event.ww_acquire_done else w1).emit
              Event.spin_lock_lru)).2.emit Event.spin_unlock_lru)] ++
        ref_sub_steps []
          (ttm_eu_del_from_lru_locked env l1
            ((if ticket = true then w1.emit Event.ww_acquire_done else w1).emit
              Event.spin_lock_lru)).1
          ((ttm_eu_del_from_lru_locked env l1
            ((if ticket = true then w1.emit Event.ww_acquire_done else w1).emit
              Event.spin_lock_lru)).2.emit Event.spin_unlock_lru),
      StepInv w0 bos s := by
  have hw2 : (if ticket = true then w1.emit Event.ww_acquire_done else w1).held = w1.held := by
    cases ticket <;> rfl
  generalize (if ticket = true then w1.emit Event.ww_acquire_done else w1) = w2 at hw2 ⊢
  have hdl : (ttm_eu_del_from_lru_locked env l1 (w2.emit Event.spin_lock_lru)).1 =
      del_list env (w2.emit Event.spin_lock_lru).n_del l1 := del_fst _ _ _
  have hdh : (ttm_eu_del_from_lru_locked env l1 (w2.emit Event.spin_lock_lru)).2.held =
      w1.held := by
    rw [(del_rest env l1 _).1]; exact hw2
  have hfl : ∀ a ∈ del_list env (w2.emit Event.spin_lock_lru).n_del l1,
      a.removed = true → a.reserved = true := by
    intro a ha hrem
    obtain ⟨a0, ha0, -, hres, -, h1, h2⟩ := del_list_mem env l1 _ a ha
    rcases Bool.eq_false_or_eq_true a0.reserved with hr | hr
    · rw [hres]; exact hr
    · rw [h2 hr, (h.fresh a0 ha0).1] at hrem
      cases hrem
  have hlk : ∀ a ∈ del_list env (w2.emit Event.spin_lock_lru).n_del l1,
      a.reserved = true → w1.held a.bo = true := by
    intro a ha hres
    obtain ⟨a0, ha0, hbo, hres0, -⟩ := del_list_mem env l1 _ a ha
    rw [hbo]
    exact h.locked a0 ha0 (by rw [← hres0]; exact hres)
  intro s hs
  simp only [List.mem_append, List.mem_cons, List.mem_singleton, List.not_mem_nil,
    or_false] at hs
  rcases hs with (((hs | hs) | hs) | hs) | hs
  · cases ticket
    · simp at hs
    · simp only [if_true, List.mem_singleton] at hs
      subst hs
      exact StepInv.of_sinv _ _ h hw2 (by decide)
  · subst hs
    exact StepInv.of_sinv _ _ h hw2 (by decide)
  · obtain ⟨k1, k2, k3, k4⟩ := del_steps_inv env _ _ _ s hs
    simp only [List.nil_append] at k2 k3
    refine StepInv.plain ?_ (k3 (flags_of_fresh h.fresh)) (fun _ => ?_)
    · rcases k4 with k | k <;> rw [k] <;> decide
    · rw [k1]
      show ∀ a ∈ s.list, a.reserved = true → w2.held a.bo = true
      rw [hw2]
      exact of_map_eq (fun a => (a.bo, a.reserved)) k2
        (fun p => p.2 = true → w1.held p.1 = true) (fun a ha => h.locked a ha)
  · subst hs
    rw [hdl]
    exact StepInv.plain_at _ _ _ (by decide) hfl (fun _ a ha har => by
      show (ttm_eu_del_from_lru_locked env l1 (w2.emit Event.spin_lock_lru)).2.held a.bo = true
      rw [hdh]; exact hlk a ha har)
  · rw [hdl] at hs
    obtain ⟨k1, k2, k3⟩ := ref_sub_steps_inv _ _ _ s hs
    simp only [List.nil_append] at k2
    refine StepInv.plain ?_ ?_ (fun _ => ?_)
    · rcases k3 with k | k <;> rw [k] <;> decide
    · exact of_map_eq (fun a => (a.bo, a.reserved, a.removed)) k2
        (fun p => p.2.2 = true → p.2.1 = true) hfl
    · rw [k1]
      show ∀ a ∈ s.list, a.reserved = true →
        (ttm_eu_del_from_lru_locked env l1 (w2.emit Event.spin_lock_lru)).2.held a.bo = true
      rw [hdh]
      exact of_map_eq (fun a => (a.bo, a.reserved, a.removed)) k2
        (fun p => p.2.1 = true → w1.held p.1 = true) hlk

theorem retry_steps_inv (env : Env) (hE : env.errno_ok) (ticket : Bool) (w0 : World)
    (bos : List Nat) : ∀ (fuel : Nat) (l : List ttm_validate_buffer) (w : World),
    SInv w0 bos l w → ∀ s ∈ retry_steps env ticket fuel l w, StepInv w0 bos s := by
  intro fuel
  induction fuel with
  | zero => intro l w _ s hs; simp [retry_steps] at hs
  | succ fuel ih =>
    intro l w h s hs
    rw [retry_steps] at hs
    rcases List.mem_append.1 hs with hs | hs
    · exact walk_steps_inv env hE ticket w0 bos l [] w (by simpa using h) s hs
    · have hw := walk_sinv env hE ticket w0 bos l [] w (by simpa using h) (by simp)
      cases hwalk : reserve_walk env ticket [] l w with
      | done l1 w1 =>
        rw [hwalk] at hs hw
        exact done_steps_inv env ticket hw.1 s hs
      | retry l1 w1 =>
        rw [hwalk] at hs hw
        exact ih l1 w1 hw s hs
      | err r l1 w1 =>
        rw [hwalk] at hs hw
        exact err_steps_inv ticket hw.1 s hs
      | err_fini r l1 w1 =>
        rw [hwalk] at hs hw
        exact err_fini_steps_inv ticket hw.1 s hs
      | bug l1 w1 =>
        rw [hwalk] at hs
        simp at hs

theorem reserve_steps_cases (env : Env) (hE : env.errno_ok) (fuel : Nat) (ticket : Bool)
    (l : List ttm_validate_buffer) (w : World) :
    ∀ s ∈ reserve_steps env fuel ticket l w,
      s ∈ init_steps [] l w ∨ StepInv w (l.map (fun e => e.bo)) s := by
  intro s hs
  cases l with
  | nil => simp [reserve_steps] at hs
  | cons a l =>
    have hI := init_sinv ticket (a :: l) w
    simp only [reserve_steps, List.mem_append] at hs
    rcases hs with (hs | hs) | hs
    · exact Or.inl hs
    · right
      cases ticket
      · simp at hs
      · simp only [if_true, List.mem_singleton] at hs
        subst hs
        exact StepInv.of_sinv _ _ hI rfl (by decide)
    · exact Or.inr (retry_steps_inv env hE ticket w _ fuel _ _ hI s hs)

/-- The first loop of `ttm_eu_fence_buffer_objects` releases the lock of every
entry, each of which is held; the objects are distinct. -/
theorem lock_run_fence (env : Env) (p : Option Nat) (tok : Option Nat) :
    ∀ (l : List ttm_validate_buffer) (H : List Nat),
    (l.map (fun e => e.bo)).Nodup → (∀ e ∈ l, e.bo ∈ H) →
    ∃ H1, lock_run env (H, p) (fence_events tok l) = some (H1, p) ∧
      ∀ x, x ∈ H1 ↔ (x ∈ H ∧ ∀ e ∈ l, e.bo ≠ x) := by
  intro l
  induction l with
  | nil =>
    intro H _ _
    exact ⟨H, rfl, by simp⟩
  | cons a l ih =>
    intro H hnd hH
    simp only [List.map_cons, List.nodup_cons] at hnd
    have ha : a.bo ∈ H := hH a (by simp)
    obtain ⟨H1, h1, h2⟩ := ih (H.filter (fun x => x ≠ a.bo)) hnd.2 (by
      intro e he
      simp only [List.mem_filter, decide_eq_true_eq]
      refine ⟨hH e (by simp [he]), ?_⟩
      intro heq
      exact hnd.1 (by rw [← heq]; exact List.mem_map_of_mem (fun e => e.bo) he))
    refine ⟨H1, ?_, ?_⟩
    · simp only [fence_events, List.cons_append, List.nil_append, lock_run, lock_step, ha,
        if_true]
      exact h1
    · intro x
      rw [h2]
      simp only [List.mem_filter, decide_eq_true_eq, List.mem_cons, forall_eq_or_imp]
      constructor
      · rintro ⟨⟨hx, hne⟩, hall⟩
        exact ⟨hx, fun heq => hne heq.symm, hall⟩
      · rintro ⟨hx, hne, hall⟩
        exact ⟨⟨hx, fun heq => hne heq.symm⟩, hall⟩

theorem unref_events_lock_free (l : List ttm_validate_buffer) :
    ∀ ev ∈ unref_events l, lock_free ev = true := by
  induction l with
  | nil => intro ev hev; simp [unref_events] at hev
  | cons a l ih =>
    intro ev hev
    rw [unref_events] at hev
    cases ho : a.old_sync_obj with
    | none => rw [ho] at hev; exact ih ev hev
    | some t =>
      rw [ho] at hev
      simp only [List.mem_cons] at hev
      rcases hev with rfl | hev
      · rfl
      · exact ih ev hev

theorem reserve_lock_run (env : Env) (hE : env.errno_ok) (fuel : Nat) (ticket : Bool)
    (l : List ttm_validate_buffer) (w : World) (x : Exit)
    (hfree : ∀ b, w.held b = false) (hnd : (l.map (fun e => e.bo)).Nodup)
    (h : ttm_eu_reserve_buffers env fuel ticket l w = some x) :
    ∃ evs, x.world.trace = w.trace ++ evs ∧ Exit.linv env evs x := by
  cases l with
  | nil =>
    simp only [ttm_eu_reserve_buffers, Option.some.injEq] at h
    subst h
    exact ⟨[], by simp [Exit.world], [], rfl, fun b => by simp [hfree b]⟩
  | cons a l =>
    have hI := init_sinv ticket (a :: l) w
    refine retry_lock_run env hE ticket w _ hfree hnd w.trace fuel _ _
      (if ticket = true then [Event.ww_acquire_init] else []) x hI ?_ ?_ h
    · cases ticket <;> simp [World.emit]
    · refine ⟨[], ?_, fun b => ?_⟩
      · cases ticket <;> rfl
      · have : (if ticket = true then w.emit Event.ww_acquire_init else w).held b = w.held b := by
          cases ticket <;> rfl
        rw [this, hfree b]
        simp

/-- The calls of `ttm_eu_backoff_reservation` release only locks that are held. -/
theorem lock_run_backoff_call (env : Env) (ticket : Bool) (l : List ttm_validate_buffer)
    (H : List Nat) (hnd : (l.map (fun e => e.bo)).Nodup)
    (hH : ∀ e ∈ l, e.reserved = true → e.bo ∈ H) :
    ∃ H1, lock_run env (H, none) (backoff_call_events ticket l) = some (H1, none) ∧
      ∀ x, x ∈ H1 ↔ (x ∈ H ∧ ∀ e ∈ l, e.reserved = true → e.bo ≠ x) := by
  cases l with
  | nil => exact ⟨H, rfl, by simp⟩
  | cons a l =>
    obtain ⟨H1, h1, h2⟩ := lock_run_backoff env none (a :: l) H hnd hH
    refine ⟨H1, ?_, h2⟩
    simp only [backoff_call_events]
    rw [lock_run_append, lock_run_append, lock_run_append]
    have e1 : lock_run env (H, none) [Event.spin_lock_lru] = some (H, none) := rfl
    rw [e1]
    simp only [Option.bind]
    rw [h1]
    have e2 : lock_run env (H1, none) (if ticket = true then [Event.ww_acquire_fini] else [])
        = some (H1, none) := by cases ticket <;> rfl
    simp only [e2]
    rfl

/-- The calls of `ttm_eu_fence_buffer_objects` release only locks that are held. -/
theorem lock_run_fence_call (env : Env) (ticket : Bool) (tok : Option Nat)
    (l l2 : List ttm_validate_buffer) (H : List Nat)
    (hnd : (l.map (fun e => e.bo)).Nodup) (hH : ∀ e ∈ l, e.bo ∈ H) :
    ∃ H1, lock_run env (H, none) (fence_call_events ticket tok l l2) = some (H1, none) ∧
      ∀ x, x ∈ H1 ↔ (x ∈ H ∧ ∀ e ∈ l, e.bo ≠ x) := by
  obtain ⟨H1, h1, h2⟩ := lock_run_fence env none tok l H hnd hH
  refine ⟨H1, ?_, h2⟩
  simp only [fence_call_events]
  rw [lock_run_append, lock_run_append, lock_run_append, lock_run_append]
  have e1 : lock_run env (H, none) [Event.spin_lock_lru, Event.spin_lock_fence] =
      some (H, none) := rfl
  rw [e1]
  simp only [Option.bind]
  rw [h1]
  have e2 : lock_run env (H1, none) [Event.spin_unlock_fence, Event.spin_unlock_lru] =
      some (H1, none) := rfl
  have e3 : lock_run env (H1, none) (if ticket = true then [Event.ww_acquire_fini] else [])
      = some (H1, none) := by cases ticket <;> rfl
  simp only [e2, e3]
  exact lock_run_free env _ _ (unref_events_lock_free l2)

theorem backoff_steps_held (ticket : Bool) (l : List ttm_validate_buffer) (w : World)
    (hnd : (l.map (fun e => e.bo)).Nodup)
    (hh : ∀ e ∈ l, e.reserved = true → w.held e.bo = true) :
    ∀ s ∈ backoff_steps ticket l w, ∀ e ∈ s.list, e.reserved = true →
      s.w.held e.bo = true := by
  intro s hs
  cases l with
  | nil => simp [backoff_steps] at hs
  | cons a l =>
    have hun : ∀ e ∈ (ttm_eu_backoff_reservation_locked (a :: l)
        (w.emit Event.spin_lock_lru)).1, e.reserved = false := by
      rw [backoff_fst]
      intro e he
      obtain ⟨a0, -, rfl⟩ := List.mem_map.1 he
      exact unres_reserved a0
    simp only [backoff_steps, List.mem_append, List.mem_cons, List.mem_singleton,
      List.not_mem_nil, or_false] at hs
    rcases hs with ((hs | hs) | hs) | hs
    · subst hs
      exact hh
    · obtain ⟨⟨-, -, k3⟩, -⟩ := backoff_locked_steps_inv _ _ _ s hs
      exact k3 hnd hh
    · cases ticket
      · simp at hs
      · simp only [if_true, List.mem_singleton] at hs
        subst hs
        intro e he her
        rw [hun e he] at her; cases her
    · subst hs
      intro e he her
      rw [hun e he] at her; cases her

theorem fence_steps_held (env : Env) (ticket : Bool) (l : List ttm_validate_buffer)
    (tok : Option Nat) (w : World) (hnd : (l.map (fun e => e.bo)).Nodup)
    (hh : ∀ e ∈ l, e.reserved = true → w.held e.bo = true) :
    ∀ s ∈ fence_steps env ticket l tok w, ∀ e ∈ s.list, e.reserved = true →
      s.w.held e.bo = true ∨
      (s.pt = Pt.unreserve ∧ ∃ t, s.w.trace = t ++ [Event.bo_unreserve e.bo]) := by
  intro s hs
  cases l with
  | nil => simp [fence_steps] at hs
  | cons a l =>
    have hun : ∀ e ∈ (fence_loop env tok (a :: l)
        ((w.emit Event.spin_lock_lru).emit Event.spin_lock_fence)).1, e.reserved = false := by
      rw [fence_loop_fst]
      intro e he
      exact (fence_list_mem _ _ _ e he).1
    simp only [fence_steps, List.mem_append, List.mem_cons, List.mem_singleton,
      List.not_mem_nil, or_false] at hs
    rcases hs with ((((hs | hs) | hs) | hs | hs) | hs) | hs
    · subst hs
      exact fun e he her => Or.inl (hh e he her)
    · subst hs
      exact fun e he her => Or.inl (hh e he her)
    · exact fence_loop_steps_inv env tok _ _ _ (by simpa using hnd) (by simpa using hh) s hs
    · subst hs
      intro e he her
      rw [hun e he] at her; cases her
    · subst hs
      intro e he her
      rw [hun e he] at her; cases her
    · cases ticket
      · simp at hs
      · simp only [if_true, List.mem_singleton] at hs
        subst hs
        intro e he her
        rw [hun e he] at her; cases her
    · intro e he her
      have := fence_unref_steps_inv env _ _ _ (by simpa using hun) s hs e he
      rw [this] at her; cases her

/-- C14, as stated, fails: the `__ttm_bo_reserve` of object 2 answers `-EDEADLK`,
the slow lock of object 2 succeeds, and the walk is not started again: the read
of `cpu_writers` that follows sees a writer, the lock is released and
`ttm_eu_reserve_buffers` returns `-EBUSY` with no further `__ttm_bo_reserve`. -/
theorem wound_busy_no_restart :
    (exit_of demo_env_busy 3 true demo_list_free demo_world).code =
      some (-demo_env_busy.EBUSY) ∧
    (exit_of demo_env_busy 3 true demo_list_free demo_world).world.trace =
      [Event.ww_acquire_init, Event.bo_reserve 1 false 0, Event.cpu_writers 1 0,
       Event.bo_reserve 2 false (-demo_env_busy.EDEADLK), Event.spin_lock_lru,
       Event.bo_unreserve 1, Event.spin_unlock_lru, Event.lock_slow 2 0,
       Event.cpu_writers 2 1, Event.spin_lock_lru, Event.bo_unreserve 2,
       Event.spin_unlock_lru, Event.ww_acquire_done, Event.ww_acquire_fini] := by
  decide

/-- C14, amended: in `ttm_eu_reserve_buffers` with a ticket, on distinct objects
and with no lock held at the call, the calls pass the bookkeeping `lock_run` up
to the return, which counts as held the locks the world has as held:
`__ttm_bo_reserve` is never called on an object whose lock the
batch holds, after an answer `-EDEADLK` the next lock call is the slow lock, it
is on the same object and is made with no lock held, and there is no other slow
lock.  At every state: where the slow lock is about to be called no entry is
reserved and no lock is held; a `__ttm_bo_reserve` was made on an object whose
entry is not reserved; and `goto retry` is reached only after the slow lock
answered 0 and the read of `cpu_writers` that follows saw a value that is not
positive, with the entry of that object the one reserved entry and its lock the
one lock held. -/
theorem wound_handling (env : Env) (hE : env.errno_ok) (fuel : Nat)
    (l : List ttm_validate_buffer) (w : World)
    (hfree : ∀ b, w.held b = false) (hnd : (l.map (fun e => e.bo)).Nodup) :
    (∀ r l1 w1, ttm_eu_reserve_buffers env fuel true l w = some (Exit.ret r l1 w1) →
      ∃ evs H, w1.trace = w.trace ++ evs ∧ lock_run env ([], none) evs = some (H, none) ∧
        ∀ b, b ∈ H ↔ w1.held b = true) ∧
    ∀ s ∈ reserve_steps env fuel true l w,
      (s.pt = Pt.call_slow →
        (∀ e ∈ s.list, e.reserved = false) ∧ ∀ b, s.w.held b = false) ∧
      (s.pt = Pt.try_reserve →
        ∃ t b nw r, s.w.trace = t ++ [Event.bo_reserve b nw r] ∧
          ∀ e ∈ s.list, e.bo = b → e.reserved = false) ∧
      (s.pt = Pt.goto_retry →
        ∃ t b v, v ≤ 0 ∧
          s.w.trace = t ++ [Event.lock_slow b 0, Event.cpu_writers b v] ∧
          (∀ e ∈ s.list, (e.reserved = true ↔ e.bo = b)) ∧
          ∀ x, (s.w.held x = true ↔ x = b)) := by
  constructor
  · intro r l1 w1 h
    obtain ⟨evs, h1, H, h2, h3⟩ := reserve_lock_run env hE fuel true l w _ hfree hnd h
    exact ⟨evs, H, h1, h2, h3⟩
  · intro s hs
    rcases reserve_steps_cases env hE fuel true l w s hs with hi | hi
    · obtain ⟨-, -, -, hpt⟩ := init_steps_inv _ _ _ s hi
      refine ⟨fun hp => ?_, fun hp => ?_, fun hp => ?_⟩ <;>
      · rw [hp] at hpt
        rcases hpt with hpt | hpt | hpt <;> cases hpt
    · exact ⟨hi.at_slow hfree, hi.at_try hnd, hi.at_retry hfree hnd⟩

theorem wound_handling_witness :
    (∀ r l1 w1,
      ttm_eu_reserve_buffers demo_env 3 true demo_list_free demo_world =
        some (Exit.ret r l1 w1) →
      ∃ evs H, w1.trace = demo_world.trace ++ evs ∧
        lock_run demo_env ([], none) evs = some (H, none) ∧
        ∀ b, b ∈ H ↔ w1.held b = true) ∧
    ∀ s ∈ reserve_steps demo_env 3 true demo_list_free demo_world,
      (s.pt = Pt.call_slow →
        (∀ e ∈ s.list, e.reserved = false) ∧ ∀ b, s.w.held b = false) ∧
      (s.pt = Pt.try_reserve →
        ∃ t b nw r, s.w.trace = t ++ [Event.bo_reserve b nw r] ∧
          ∀ e ∈ s.list, e.bo = b → e.reserved = false) ∧
      (s.pt = Pt.goto_retry →
        ∃ t b v, v ≤ 0 ∧
          s.w.trace = t ++ [Event.lock_slow b 0, Event.cpu_writers b v] ∧
          (∀ e ∈ s.list, (e.reserved = true ↔ e.bo = b)) ∧
          ∀ x, (s.w.held x = true ↔ x = b)) :=
  wound_handling demo_env (by decide) 3 demo_list_free demo_world (fun _ => rfl) (by decide)

/-- C16, as stated, fails, at two places.  In `ttm_eu_fence_buffer_objects` after
a successful `ttm_eu_reserve_buffers`, right after `__ttm_bo_unreserve` of object
1 and before the store `entry->reserved = false`, the entry of object 1 is
marked reserved and its lock is not held.  And in `ttm_eu_reserve_buffers` on a
list whose third entry comes in with a stale `reserved` flag, after the first
store of the first loop that entry is marked reserved and its lock is not
held. -/
theorem fence_flag_outlives_lock :
    (exit_of demo_env 3 true demo_list_free demo_world).code = some 0 ∧
    ((fence_steps demo_env true (exit_of demo_env 3 true demo_list_free demo_world).list
        (some 4) (exit_of demo_env 3 true demo_list_free demo_world).world).map
      Step.view)[5]? =
      some (Pt.unreserve, [(1, true, true, false), (2, true, true, true),
        (3, true, true, true)]) ∧
    ((reserve_steps demo_env 3 true demo_list demo_world).map Step.view)[0]? =
      some (Pt.init_reserved, [(1, false, true, false), (2, false, true, false),
        (3, true, false, false)]) :=
  ⟨by decide, by decide, by decide⟩

/-- C16, amended: on distinct objects, with no lock held at the call, when
`ttm_eu_reserve_buffers` returns: at every state of `ttm_eu_reserve_buffers` the
lock of every entry marked reserved is held, but for an entry that came in
marked reserved and that the first loop has not written yet; at every state of
a `ttm_eu_backoff_reservation` that follows, the lock of every entry marked
reserved is held; at every state of a
`ttm_eu_fence_buffer_objects` that follows a return of 0 the same holds but for
the entry whose lock was released by the `__ttm_bo_unreserve` just made, which
is marked reserved until the next store; and the calls of
`ttm_eu_reserve_buffers` followed by those of `ttm_eu_backoff_reservation`, or by
those of `ttm_eu_fence_buffer_objects` after a return of 0, pass the bookkeeping
`lock_run`, so every `__ttm_bo_unreserve` is on an object whose lock is held,
and leave no lock held. -/
theorem flag_lock_consistency (env : Env) (hE : env.errno_ok) (fuel : Nat) (ticket : Bool)
    (l : List ttm_validate_buffer) (w : World) (r : Int) (l1 : List ttm_validate_buffer)
    (w1 : World) (hfree : ∀ b, w.held b = false) (hnd : (l.map (fun e => e.bo)).Nodup)
    (h : ttm_eu_reserve_buffers env fuel ticket l w = some (Exit.ret r l1 w1)) :
    (∀ s ∈ reserve_steps env fuel ticket l w, ∀ e ∈ s.list, e.reserved = true →
      s.w.held e.bo = true ∨
      ((s.pt = Pt.init_reserved ∨ s.pt = Pt.init_put_count ∨ s.pt = Pt.init_removed) ∧
        e ∈ l)) ∧
    (∀ s ∈ backoff_steps ticket l1 w1, ∀ e ∈ s.list, e.reserved = true →
      s.w.held e.bo = true) ∧
    (r = 0 → ∀ tok, ∀ s ∈ fence_steps env ticket l1 tok w1, ∀ e ∈ s.list,
      e.reserved = true →
        s.w.held e.bo = true ∨
        (s.pt = Pt.unreserve ∧ ∃ t, s.w.trace = t ++ [Event.bo_unreserve e.bo])) ∧
    (∃ evs, (ttm_eu_backoff_reservation ticket l1 w1).2.trace = w.trace ++ evs ∧
      lock_run env ([], none) evs = some ([], none)) ∧
    (r = 0 → ∀ tok, ∃ evs,
      (ttm_eu_fence_buffer_objects env ticket l1 tok w1).2.trace = w.trace ++ evs ∧
      lock_run env ([], none) evs = some ([], none)) := by
  obtain ⟨hbos, -, -, h0, h1⟩ := reserve_spec env hE ticket fuel l w _ h
  obtain ⟨evs, ht, H, hrun, hH⟩ := reserve_lock_run env hE fuel ticket l w _ hfree hnd h
  simp only [Exit.world] at ht
  have hnd1 : (l1.map (fun e => e.bo)).Nodup := by rw [hbos]; exact hnd
  have hheld : ∀ e ∈ l1, e.reserved = true → w1.held e.bo = true := by
    intro e he her
    by_cases hr : r = 0
    · exact ((h0 hr).1 e he).2.2
    · rw [((h1 hr).1 e he).1] at her; cases her
  have hown : ∀ x ∈ H, ∃ e ∈ l1, e.reserved = true ∧ e.bo = x := by
    intro x hx
    have hx1 := (hH x).1 hx
    by_cases hr : r = 0
    · rcases (h0 hr).2.1 x hx1 with hc | hc
      · rw [hfree x] at hc; cases hc
      · rw [← hbos] at hc
        obtain ⟨e, he, rfl⟩ := List.mem_map.1 hc
        exact ⟨e, he, ((h0 hr).1 e he).1, rfl⟩
    · have hc := (h1 hr).2.1 x hx1
      rw [hfree x] at hc; cases hc
  refine ⟨?_, backoff_steps_held ticket l1 w1 hnd1 hheld,
    fun _ tok => fence_steps_held env ticket l1 tok w1 hnd1 hheld, ?_, ?_⟩
  · intro s hs
    rcases reserve_steps_cases env hE fuel ticket l w s hs with hi | hi
    · obtain ⟨-, -, -, hpt⟩ := init_steps_inv _ _ _ s hi
      intro e he her
      exact Or.inr ⟨hpt, by simpa using init_steps_stale _ _ _ s hi e he her⟩
    · exact fun e he her => Or.inl (hi.locked hnd e he her)
  · obtain ⟨H1, r1, r2⟩ := lock_run_backoff_call env ticket l1 H hnd1
      (fun e he her => (hH e.bo).2 (hheld e he her))
    have hnil : H1 = [] := by
      rw [List.eq_nil_iff_forall_not_mem]
      intro x hx
      obtain ⟨hxH, hne⟩ := (r2 x).1 hx
      obtain ⟨e, he, her, hbo⟩ := hown x hxH
      exact hne e he her hbo
    rw [hnil] at r1
    exact ⟨evs ++ backoff_call_events ticket l1,
      by rw [(backoff_call ticket l1 w1).2.2.2.2, ht, List.append_assoc],
      lock_run_step env _ _ _ _ _ hrun r1⟩
  · intro hr tok
    cases l1 with
    | nil =>
      refine ⟨evs, ht, ?_⟩
      have : H = [] := by
        rw [List.eq_nil_iff_forall_not_mem]
        intro x hx
        obtain ⟨e, he, -⟩ := hown x hx
        simp at he
      rw [hrun, this]
    | cons a l2 =>
      obtain ⟨H1, r1, r2⟩ := lock_run_fence_call env ticket tok (a :: l2)
        (fence_list (env.sync_obj_ref tok) w1.sync_obj (a :: l2)) H hnd1
        (fun e he => (hH e.bo).2 (hheld e he ((h0 hr).1 e he).1))
      have hnil : H1 = [] := by
        rw [List.eq_nil_iff_forall_not_mem]
        intro x hx
        obtain ⟨hxH, hne⟩ := (r2 x).1 hx
        obtain ⟨e, he, -, hbo⟩ := hown x hxH
        exact hne e he hbo
      rw [hnil] at r1
      exact ⟨evs ++ fence_call_events ticket tok (a :: l2)
          (fence_list (env.sync_obj_ref tok) w1.sync_obj (a :: l2)),
        by rw [(fence_call env ticket (a :: l2) tok w1).2.2.2.2 (by simp), ht,
          List.append_assoc],
        lock_run_step env _ _ _ _ _ hrun r1⟩

theorem flag_lock_consistency_witness :
    (∀ s ∈ reserve_steps demo_env 3 true demo_list_free demo_world, ∀ e ∈ s.list,
      e.reserved = true →
      s.w.held e.bo = true ∨
      ((s.pt = Pt.init_reserved ∨ s.pt = Pt.init_put_count ∨ s.pt = Pt.init_removed) ∧
        e ∈ demo_list_free)) ∧
    (∀ s ∈ backoff_steps true (exit_of demo_env 3 true demo_list_free demo_world).list
        (exit_of demo_env 3 true demo_list_free demo_world).world,
      ∀ e ∈ s.list, e.reserved = true → s.w.held e.bo = true) ∧
    ((0 : Int) = 0 → ∀ tok, ∀ s ∈ fence_steps demo_env true
        (exit_of demo_env 3 true demo_list_free demo_world).list tok
        (exit_of demo_env 3 true demo_list_free demo_world).world,
      ∀ e ∈ s.list, e.reserved = true →
        s.w.held e.bo = true ∨
        (s.pt = Pt.unreserve ∧ ∃ t, s.w.trace = t ++ [Event.bo_unreserve e.bo])) ∧
    (∃ evs, (ttm_eu_backoff_reservation true
        (exit_of demo_env 3 true demo_list_free demo_world).list
        (exit_of demo_env 3 true demo_list_free demo_world).world).2.trace =
          demo_world.trace ++ evs ∧
      lock_run demo_env ([], none) evs = some ([], none)) ∧
    ((0 : Int) = 0 → ∀ tok, ∃ evs,
      (ttm_eu_fence_buffer_objects demo_env true
        (exit_of demo_env 3 true demo_list_free demo_world).list tok
        (exit_of demo_env 3 true demo_list_free demo_world).world).2.trace =
          demo_world.trace ++ evs ∧
      lock_run demo_env ([], none) evs = some ([], none)) :=
  flag_lock_consistency demo_env (by decide) 3 true demo_list_free demo_world 0
    (exit_of demo_env 3 true demo_list_free demo_world).list
    (exit_of demo_env 3 true demo_list_free demo_world).world (fun _ => rfl) (by decide)
    rfl

/-- C17, as stated, fails: after a successful `ttm_eu_reserve_buffers` followed
by `ttm_eu_fence_buffer_objects`, and still after a `ttm_eu_backoff_reservation`
on top, the entries have `removed` set and `reserved` clear. -/
theorem fence_breaks_entry_state :
    (exit_of demo_env 3 true demo_list_free demo_world).code = some 0 ∧
    (¬ ∀ e ∈ (ttm_eu_fence_buffer_objects demo_env true
        (exit_of demo_env 3 true demo_list_free demo_world).list (some 4)
        (exit_of demo_env 3 true demo_list_free demo_world).world).1,
      e.removed = true → e.reserved = true) ∧
    ¬ ∀ e ∈ (ttm_eu_backoff_reservation true
        (ttm_eu_fence_buffer_objects demo_env true
          (exit_of demo_env 3 true demo_list_free demo_world).list (some 4)
          (exit_of demo_env 3 true demo_list_free demo_world).world).1
        (ttm_eu_fence_buffer_objects demo_env true
          (exit_of demo_env 3 true demo_list_free demo_world).list (some 4)
          (exit_of demo_env 3 true demo_list_free demo_world).world).2).1,
      e.removed = true → e.reserved = true := by
  decide

/-- C17, amended: when `ttm_eu_reserve_buffers` returns, at every state it went
through an entry with `removed` set has `reserved` set, provided the entries
came in with `removed` clear or the state is past the first loop; the same holds
of the list it returns; `ttm_eu_backoff_reservation` on any list of which it
holds leaves every entry with both flags clear; and a
`ttm_eu_fence_buffer_objects` that follows a return of 0 leaves every entry with
`reserved` clear and `removed` set. -/
theorem entry_state_invariant (env : Env) (hE : env.errno_ok) (fuel : Nat) (ticket : Bool)
    (l : List ttm_validate_buffer) (w : World) (r : Int) (l1 : List ttm_validate_buffer)
    (w1 : World)
    (h : ttm_eu_reserve_buffers env fuel ticket l w = some (Exit.ret r l1 w1)) :
    (∀ s ∈ reserve_steps env fuel ticket l w,
      ((∀ e ∈ l, e.removed = false) ∨
        (s.pt ≠ Pt.init_reserved ∧ s.pt ≠ Pt.init_put_count ∧ s.pt ≠ Pt.init_removed)) →
      ∀ e ∈ s.list, e.removed = true → e.reserved = true) ∧
    (∀ e ∈ l1, e.removed = true → e.reserved = true) ∧
    (∀ l2 w2, (∀ e ∈ l2, e.removed = true → e.reserved = true) →
      ∀ e ∈ (ttm_eu_backoff_reservation ticket l2 w2).1,
        e.reserved = false ∧ e.removed = false) ∧
    (r = 0 → ∀ tok, ∀ e ∈ (ttm_eu_fence_buffer_objects env ticket l1 tok w1).1,
      e.reserved = false ∧ e.removed = true) := by
  obtain ⟨-, -, -, h0, h1⟩ := reserve_spec env hE ticket fuel l w _ h
  have hflags : ∀ e ∈ l1, e.removed = true → e.reserved = true := by
    intro e he hrem
    by_cases hr : r = 0
    · exact ((h0 hr).1 e he).1
    · rw [((h1 hr).1 e he).2] at hrem; cases hrem
  refine ⟨?_, hflags, ?_, ?_⟩
  · intro s hs hor
    rcases reserve_steps_cases env hE fuel ticket l w s hs with hi | hi
    · obtain ⟨-, k, -, hpt⟩ := init_steps_inv _ _ _ s hi
      rcases hor with hrem | hnot
      · intro e he hc
        rw [k (by simpa using hrem) e he] at hc; cases hc
      · rcases hpt with hpt | hpt | hpt
        · exact absurd hpt hnot.1
        · exact absurd hpt hnot.2.1
        · exact absurd hpt hnot.2.2
    · exact hi.flags
  · intro l2 w2 hf2 e he
    rw [(backoff_call ticket l2 w2).1] at he
    obtain ⟨a, ha, rfl⟩ := List.mem_map.1 he
    refine ⟨unres_reserved a, ?_⟩
    rcases Bool.eq_false_or_eq_true a.reserved with hr | hr
    · simp [unres, hr]
    · rcases Bool.eq_false_or_eq_true a.removed with hm | hm
      · rw [hf2 a ha hm] at hr; cases hr
      · simp [unres, hr, hm]
  · intro hr tok e he
    rw [(fence_call env ticket l1 tok w1).1] at he
    obtain ⟨x, hx, -, hxr, hxm, -⟩ := unref_list_mem env _ e he
    obtain ⟨hxres, a, ha, -, ham, -⟩ := fence_list_mem _ _ _ x hx
    exact ⟨by rw [hxr, hxres], by rw [hxm, ham, ((h0 hr).1 a ha).2.1]⟩

theorem entry_state_invariant_witness :
    (∀ s ∈ reserve_steps demo_env 3 true demo_list demo_world,
      ((∀ e ∈ demo_list, e.removed = false) ∨
        (s.pt ≠ Pt.init_reserved ∧ s.pt ≠ Pt.init_put_count ∧ s.pt ≠ Pt.init_removed)) →
      ∀ e ∈ s.list, e.removed = true → e.reserved = true) ∧
    (∀ e ∈ (exit_of demo_env 3 true demo_list demo_world).list,
      e.removed = true → e.reserved = true) ∧
    (∀ l2 w2, (∀ e ∈ l2, e.removed = true → e.reserved = true) →
      ∀ e ∈ (ttm_eu_backoff_reservation true l2 w2).1,
        e.reserved = false ∧ e.removed = false) ∧
    ((0 : Int) = 0 → ∀ tok, ∀ e ∈ (ttm_eu_fence_buffer_objects demo_env true
        (exit_of demo_env 3 true demo_list demo_world).list tok
        (exit_of demo_env 3 true demo_list demo_world).world).1,
      e.reserved = false ∧ e.removed = true) :=
  entry_state_invariant demo_env (by decide) 3 true demo_list demo_world 0
    (exit_of demo_env 3 true demo_list demo_world).list
    (exit_of demo_env 3 true demo_list demo_world).world rfl

theorem walk_err_fini_ticket (env : Env) (ticket : Bool) :
    ∀ (rest pre : List ttm_validate_buffer) (w : World) (r : Int)
      (l1 : List ttm_validate_buffer) (w1 : World),
      reserve_walk env ticket pre rest w = Walk.err_fini r l1 w1 → ticket = true := by
  intro rest
  induction rest with
  | nil => intro pre w r l1 w1 h; simp [reserve_walk] at h
  | cons e rest ih =>
    intro pre w r l1 w1 h
    rw [reserve_walk_cons] at h
    cases ticket
    · exfalso
      split at h
      · exact absurd (ih _ _ _ _ _ h) (by simp)
      · split at h
        · simp at h
        · split at h
          · simp at h
          · split at h
            · simp at h
            · exact absurd (ih _ _ _ _ _ h) (by simp)
    · rfl

theorem getLast_append_some {α : Type} (a b : List α) (x : α)
    (h : b.getLast? = some x) : (a ++ b).getLast? = some x := by
  rw [List.getLast?_append, h]
  rfl

/-- The last state `ref_sub_steps` lists is the one `ttm_eu_list_ref_sub` leaves;
it lists none when no entry owes references, and then nothing changes. -/
theorem ref_sub_steps_last : ∀ (rest pre : List ttm_validate_buffer) (w : World),
    (ref_sub_steps pre rest w = [] ∧ ttm_eu_list_ref_sub rest w = (rest, w)) ∨
    ∃ pt, (ref_sub_steps pre rest w).getLast? =
      some (Step.mk pt (pre ++ (ttm_eu_list_ref_sub rest w).1)
        (ttm_eu_list_ref_sub rest w).2) := by
  intro rest
  induction rest with
  | nil => intro pre w; exact Or.inl ⟨rfl, rfl⟩
  | cons a rest ih =>
    intro pre w
    rw [ref_sub_steps, ttm_eu_list_ref_sub]
    by_cases hp : a.put_count ≠ 0
    · rw [if_pos hp, if_pos hp]
      right
      rcases ih (pre ++ [{ a with put_count := 0 }])
        (w.emit (Event.list_ref_sub a.bo a.put_count)) with ⟨h1, h2⟩ | ⟨pt, h1⟩
      · refine ⟨Pt.clear_put_count, ?_⟩
        simp only [h1, h2, List.getLast?_cons_cons, List.getLast?_singleton]
      · refine ⟨pt, ?_⟩
        simp only [List.getLast?_cons_cons]
        cases hs : ref_sub_steps (pre ++ [{ a with put_count := 0 }]) rest
          (w.emit (Event.list_ref_sub a.bo a.put_count)) with
        | nil => rw [hs] at h1; simp at h1
        | cons s ss =>
          rw [hs] at h1
          rw [List.getLast?_cons_cons, h1]
          simp
    · rw [if_neg hp, if_neg hp]
      rcases ih (pre ++ [a]) w with ⟨h1, h2⟩ | ⟨pt, h1⟩
      · left
        exact ⟨h1, by rw [h2]⟩
      · right
        exact ⟨pt, by rw [h1]; simp⟩

theorem err_fini_steps_last (r : Int) (l : List ttm_validate_buffer) (w : World) :
    ∃ pt, (err_fini_steps true l w).getLast? =
      some (Step.mk pt (reserve_err_fini true r l w).list (reserve_err_fini true r l w).world) :=
  ⟨Pt.acquire_fini, rfl⟩

/-- The states listed after a `lru_unlock` state and the reference drops end
with what the reference drops leave. -/
theorem unlock_ref_sub_last (A : List Step) (l : List ttm_validate_buffer) (w : World) :
    ∃ pt, (A ++ [Step.mk Pt.lru_unlock l w] ++ ref_sub_steps [] l w).getLast? =
      some (Step.mk pt (ttm_eu_list_ref_sub l w).1 (ttm_eu_list_ref_sub l w).2) := by
  rcases ref_sub_steps_last l [] w with ⟨h1, h2⟩ | ⟨pt, h1⟩
  · exact ⟨Pt.lru_unlock, by rw [h1, h2, List.append_nil, List.getLast?_concat]⟩
  · exact ⟨pt, getLast_append_some _ _ _ (by simpa using h1)⟩

theorem err_steps_last (ticket : Bool) (r : Int) (l : List ttm_validate_buffer) (w : World) :
    ∃ pt, (err_steps ticket l w).getLast? =
      some (Step.mk pt (reserve_err ticket r l w).list (reserve_err ticket r l w).world) := by
  cases ticket
  · have heq : err_steps false l w =
        [Step.mk Pt.lru_lock l (w.emit Event.spin_lock_lru)] ++
        backoff_locked_steps [] l (w.emit Event.spin_lock_lru) ++
        [Step.mk Pt.lru_unlock
          (ttm_eu_backoff_reservation_locked l (w.emit Event.spin_lock_lru)).1
          ((ttm_eu_backoff_reservation_locked l (w.emit Event.spin_lock_lru)).2.emit
            Event.spin_unlock_lru)] ++
        ref_sub_steps [] (ttm_eu_backoff_reservation_locked l (w.emit Event.spin_lock_lru)).1
          ((ttm_eu_backoff_reservation_locked l (w.emit Event.spin_lock_lru)).2.emit
            Event.spin_unlock_lru) := by
      simp [err_steps, err_fini_steps]
    rw [heq]
    exact unlock_ref_sub_last _ _ _
  · obtain ⟨pt, h⟩ := err_fini_steps_last r (wound_list l w) (wound_world l w)
    exact ⟨pt, getLast_append_some _ _ _ h⟩

theorem retry_steps_last (env : Env) (ticket : Bool) :
    ∀ (fuel : Nat) (l : List ttm_validate_buffer) (w : World) (r : Int)
      (l1 : List ttm_validate_buffer) (w1 : World),
    reserve_retry env ticket fuel l w = some (Exit.ret r l1 w1) →
    ∃ pt, (retry_steps env ticket fuel l w).getLast? = some (Step.mk pt l1 w1) := by
  intro fuel
  induction fuel with
  | zero => intro l w r l1 w1 h; simp [reserve_retry] at h
  | succ fuel ih =>
    intro l w r l1 w1 h
    rw [reserve_retry] at h
    rw [retry_steps]
    cases hwalk : reserve_walk env ticket [] l w with
    | done l2 w2 =>
      rw [hwalk] at h
      simp only [Option.some.injEq, Exit.ret.injEq] at h
      obtain ⟨-, rfl, rfl⟩ := h
      simp only
      rw [← List.append_assoc, ← List.append_assoc, ← List.append_assoc]
      exact unlock_ref_sub_last _ _ _
    | retry l2 w2 =>
      rw [hwalk] at h
      obtain ⟨pt, hp⟩ := ih l2 w2 r l1 w1 h
      exact ⟨pt, getLast_append_some _ _ _ hp⟩
    | err r2 l2 w2 =>
      rw [hwalk] at h
      simp only [Option.some.injEq] at h
      obtain ⟨pt, hp⟩ := err_steps_last ticket r2 l2 w2
      rw [h] at hp
      exact ⟨pt, getLast_append_some _ _ _ hp⟩
    | err_fini r2 l2 w2 =>
      have ht := walk_err_fini_ticket env ticket l [] w r2 l2 w2 hwalk
      subst ht
      rw [hwalk] at h
      simp only [Option.some.injEq] at h
      obtain ⟨pt, hp⟩ := err_fini_steps_last r2 l2 w2
      rw [h] at hp
      exact ⟨pt, getLast_append_some _ _ _ hp⟩
    | bug l2 w2 =>
      rw [hwalk] at h
      simp at h

/-- The states `reserve_steps` lists end with the list and the world that
`ttm_eu_reserve_buffers` returns with. -/
theorem reserve_steps_last (env : Env) (fuel : Nat) (ticket : Bool)
    (l : List ttm_validate_buffer) (w : World) (r : Int) (l1 : List ttm_validate_buffer)
    (w1 : World) (hne : l ≠ [])
    (h : ttm_eu_reserve_buffers env fuel ticket l w = some (Exit.ret r l1 w1)) :
    ∃ pt, (reserve_steps env fuel ticket l w).getLast? = some (Step.mk pt l1 w1) := by
  cases l with
  | nil => exact absurd rfl hne
  | cons a l =>
    simp only [ttm_eu_reserve_buffers] at h
    obtain ⟨pt, hp⟩ := retry_steps_last env ticket fuel _ _ r l1 w1 h
    exact ⟨pt, getLast_append_some _ _ _ hp⟩

/-- The states `backoff_steps` lists end with the list and the world that
`ttm_eu_backoff_reservation` returns with. -/
theorem backoff_steps_last (ticket : Bool) (l : List ttm_validate_buffer) (w : World)
    (hne : l ≠ []) :
    (backoff_steps ticket l w).getLast? =
      some (Step.mk Pt.lru_unlock (ttm_eu_backoff_reservation ticket l w).1
        (ttm_eu_backoff_reservation ticket l w).2) := by
  cases l with
  | nil => exact absurd rfl hne
  | cons a l =>
    simp only [backoff_steps, ttm_eu_backoff_reservation]
    rw [List.getLast?_concat]

/-- The last state `fence_unref_steps` lists is the one `fence_unref_loop`
leaves; it lists none when no entry has an old sync object, and then nothing
changes. -/
theorem fence_unref_steps_last (env : Env) :
    ∀ (rest pre : List ttm_validate_buffer) (w : World),
    (fence_unref_steps env pre rest w = [] ∧ fence_unref_loop env rest w = (rest, w)) ∨
    (fence_unref_steps env pre rest w).getLast? =
      some (Step.mk Pt.sync_obj_unref (pre ++ (fence_unref_loop env rest w).1)
        (fence_unref_loop env rest w).2) := by
  intro rest
  induction rest with
  | nil => intro pre w; exact Or.inl ⟨rfl, rfl⟩
  | cons a rest ih =>
    intro pre w
    rw [fence_unref_steps, fence_unref_loop]
    cases ho : a.old_sync_obj with
    | none =>
      simp only
      rcases ih (pre ++ [a]) w with ⟨h1, h2⟩ | h1
      · left
        exact ⟨h1, by rw [h2]⟩
      · right
        rw [h1]; simp
    | some t =>
      simp only
      right
      rcases ih (pre ++ [{ a with old_sync_obj := env.sync_obj_unref t }])
        (w.emit (Event.sync_obj_unref t)) with ⟨h1, h2⟩ | h1
      · simp only [h1, h2, List.getLast?_singleton]
      · cases hs : fence_unref_steps env (pre ++ [{ a with old_sync_obj := env.sync_obj_unref t }])
          rest (w.emit (Event.sync_obj_unref t)) with
        | nil => rw [hs] at h1; simp at h1
        | cons s ss =>
          rw [hs] at h1
          rw [List.getLast?_cons_cons, h1]
          simp

/-- The states `fence_steps` lists end with the list and the world that
`ttm_eu_fence_buffer_objects` returns with. -/
theorem fence_steps_last (env : Env) (ticket : Bool) (l : List ttm_validate_buffer)
    (tok : Option Nat) (w : World) (hne : l ≠ []) :
    ∃ pt, (fence_steps env ticket l tok w).getLast? =
      some (Step.mk pt (ttm_eu_fence_buffer_objects env ticket l tok w).1
        (ttm_eu_fence_buffer_objects env ticket l tok w).2) := by
  cases l with
  | nil => exact absurd rfl hne
  | cons a l =>
    simp only [fence_steps, ttm_eu_fence_buffer_objects]
    rcases fence_unref_steps_last env
      (fence_loop env tok (a :: l)
        ((w.emit Event.spin_lock_lru).emit Event.spin_lock_fence)).1 []
      (if ticket = true then
        (((fence_loop env tok (a :: l)
          ((w.emit Event.spin_lock_lru).emit Event.spin_lock_fence)).2.emit
            Event.spin_unlock_fence).emit Event.spin_unlock_lru).emit Event.ww_acquire_fini
       else ((fence_loop env tok (a :: l)
          ((w.emit Event.spin_lock_lru).emit Event.spin_lock_fence)).2.emit
            Event.spin_unlock_fence).emit Event.spin_unlock_lru) with ⟨h1, h2⟩ | h1
    · rw [h1, h2, List.append_nil]
      cases ticket
      · refine ⟨Pt.lru_unlock, ?_⟩
        simp only [Bool.false_eq_true, if_false, List.append_nil]
        exact getLast_append_some _ _ _ rfl
      · refine ⟨Pt.acquire_fini, ?_⟩
        simp only [if_true]
        exact getLast_append_some _ _ _ rfl
    · exact ⟨Pt.sync_obj_unref, getLast_append_some _ _ _ (by simpa using h1)⟩

end TTM

/-! ## Raw sockets: lemmas and the claims -/

namespace Raw

theorem memcmp_from_zero (a1 a2 : sockaddr) (i : Nat) : memcmp_from a1 a2 i 0 = 0 := rfl

/-- With a length field of 0 no byte is compared. -/
theorem equal_of_len_zero (a1 a2 : sockaddr) (h0 : a1.sa_len = 0) : equal a1 a2 = true := by
  simp [equal, memcmp, h0, memcmp_from]

end Raw
